import Mathlib

/-!
# Thread event registry of `crypto/initthread.c`

A state-passing model of the thread stop handler registry.  The namespace
`InitThread` holds the file as compiled without `FIPS_MODULE` (the
full-library build); `InitThread.Fips` holds it as compiled with
`FIPS_MODULE`.

Conventions of the model.

* Pointers are natural numbers and `0` is `NULL`.  Slot cells (the
  `THREAD_EVENT_HANDLER **` objects) live in `State.heap`; an address that
  maps to `none` is not allocated.  A released or never allocated cell reads
  as the empty list.
* A singly linked list of records is a Lean list, head first.
* Every record carries `rid`, the identity of its allocation.  It is taken
  from the counter `State.nextRec`, it is never read by the code, and it only
  serves to tell two records apart in statements about a record's life.
* A call `curr->handfn(curr->arg)` appends the record to `State.fired`.
  Callbacks do not call back into the registry.
* The outcome of every allocation and of the other fallible services of the
  environment is supplied by an `Env` value, one per API call.
* The registry lock is uncontended: runs are sequential interleavings of
  whole API calls, and taking or releasing the lock always succeeds.
* Storing `NULL` into thread-local storage always succeeds.
* The call `ossl_cleanup_master_key_tls()` that ends `OPENSSL_thread_stop`
  belongs to another component and does not touch the state modelled here.
* Only the thread-local values under the current key are tracked; a key is
  created while `destructor_key` holds its guard value.

Four more functions are translated, each in a namespace of its own:
`ossl_fnv1a_hash` of `crypto/hashtable/hashfunc.c` in `HashFunc`, the
formatting functions of `crypto/bio/bio_print.c` in `BioPrint`,
`parse_ext_names` of `apps/x509.c` in `X509App`, and the table of
`test/asn1_string_test.c` in `Asn1Test`.  There a C string is the list of its
bytes before the terminator, and a buffer is the list of its bytes.

The file has three parts: the definitions (the translated functions, then
the invariants and the vocabulary of the statements), the lemmas about the
translated functions, and the claims.
-/

namespace InitThread

/-- One `THREAD_EVENT_HANDLER` record; the `next` link is the list structure. -/
structure THREAD_EVENT_HANDLER where
  rid : Nat
  index : Nat
  arg : Nat
  handfn : Nat
deriving DecidableEq, Repr

/-- Outcomes of the fallible environment services during one API call. -/
structure Env where
  /-- Whether `OPENSSL_zalloc(sizeof(*glob_tevent_reg))` succeeds. -/
  regAlloc : Bool
  /-- Whether `sk_THREAD_EVENT_HANDLER_PTR_new_null()` succeeds. -/
  skNew : Bool
  /-- Whether `CRYPTO_THREAD_lock_new()` succeeds. -/
  lockNew : Bool
  /-- Whether `OPENSSL_zalloc(sizeof(*hands))` succeeds. -/
  slotAlloc : Bool
  /-- Whether `CRYPTO_THREAD_set_local` with a non-null value succeeds. -/
  setLocal : Bool
  /-- Whether the locked `sk_THREAD_EVENT_HANDLER_PTR_push` succeeds. -/
  push : Bool
  /-- Whether `OPENSSL_malloc(sizeof(*hand))` succeeds. -/
  recAlloc : Bool
  /-- Whether `CRYPTO_THREAD_init_local` succeeds. -/
  keyInit : Bool
deriving DecidableEq, Repr

/-- An environment in which every service succeeds. -/
def Env.ok : Env := ⟨true, true, true, true, true, true, true, true⟩

/-- Process state of the registry. -/
structure State where
  /-- The guard `tevent_register_runonce`: `none` before the run-once body ran,
  `some r` afterwards, `r` being the stored return value of the body. -/
  once : Option Bool
  /-- The pointer `glob_tevent_reg`: `none` is `NULL`, `some sk` is a registry whose
  `skhands` stack holds the slot addresses `sk`. -/
  glob_tevent_reg : Option (List Nat)
  /-- The field `destructor_key.sane`; `-1` is the guard value. -/
  destructor_key : Int
  /-- Thread-local value of each thread under the current key. -/
  tls : Nat → Nat
  /-- Allocated slot cells and the record list each one heads. -/
  heap : Nat → Option (List THREAD_EVENT_HANDLER)
  /-- Next slot address handed out by the allocator. -/
  nextSlot : Nat
  /-- Next record identity handed out by the allocator. -/
  nextRec : Nat
  /-- Next thread-local key handed out. -/
  nextKey : Nat
  /-- Callback invocations so far, oldest first. -/
  fired : List THREAD_EVENT_HANDLER

/-- State of a process before any call into the registry. -/
def State.init : State :=
  { once := none, glob_tevent_reg := none, destructor_key := -1,
    tls := fun _ => 0, heap := fun _ => none,
    nextSlot := 1, nextRec := 0, nextKey := 0, fired := [] }

/-- Content of the cell `*hands` at address `a`. -/
def State.loc (s : State) (a : Nat) : List THREAD_EVENT_HANDLER :=
  (s.heap a).getD []

/-- The assignment `*hands = l` at address `a`. -/
def State.store (s : State) (a : Nat) (l : List THREAD_EVENT_HANDLER) : State :=
  { s with heap := Function.update s.heap a (some l) }

/-- The call `OPENSSL_free(hands)`; freeing `NULL` does nothing. -/
def State.free (s : State) (a : Nat) : State :=
  if a = 0 then s else { s with heap := Function.update s.heap a none }

/-- Body of the run-once initialiser `create_global_tevent_register`. -/
def create_global_tevent_register (e : Env) (s : State) : State × Bool :=
  if !e.regAlloc then
    ({ s with glob_tevent_reg := none }, false)
  else if !e.skNew || !e.lockNew then
    ({ s with glob_tevent_reg := none }, false)
  else
    ({ s with glob_tevent_reg := some [] }, true)

/-- The accessor `get_global_tevent_register`: runs the initialiser on first
use, and afterwards answers from the stored return value. -/
def get_global_tevent_register (e : Env) (s : State) : State × Option (List Nat) :=
  match s.once with
  | none =>
    let r := create_global_tevent_register e s
    let s1 := { r.1 with once := some r.2 }
    if !r.2 then (s1, none) else (s1, s1.glob_tevent_reg)
  | some r => if !r then (s, none) else (s, s.glob_tevent_reg)

/-- The accessor `get_thread_event_handler` of thread `t`. -/
def get_thread_event_handler (t : Nat) (s : State) : Nat :=
  if s.destructor_key ≠ -1 then s.tls t else 0

/-- The setter `set_thread_event_handler` of thread `t`; `ok` is the outcome
of `CRYPTO_THREAD_set_local`. -/
def set_thread_event_handler (ok : Bool) (t : Nat) (hands : Nat) (s : State) :
    State × Bool :=
  if s.destructor_key ≠ -1 then
    if ok then ({ s with tls := Function.update s.tls t hands }, true) else (s, false)
  else (s, false)

/-- The function `init_thread_push_handlers`. -/
def init_thread_push_handlers (e : Env) (hands : Nat) (s : State) : State × Bool :=
  let g := get_global_tevent_register e s
  match g.2 with
  | none => (g.1, false)
  | some sk =>
    if e.push then ({ g.1 with glob_tevent_reg := some (sk ++ [hands]) }, true)
    else (g.1, false)

/-- The function `init_thread_remove_handlers`: deletes the first stack entry
equal to `handsin`. -/
def init_thread_remove_handlers (e : Env) (handsin : Nat) (s : State) : State :=
  let g := get_global_tevent_register e s
  match g.2 with
  | none => g.1
  | some sk => { g.1 with glob_tevent_reg := some (sk.erase handsin) }

/-- The function `manage_thread_local` called by thread `t`. -/
def manage_thread_local (e : Env) (t : Nat) (alloc keep : Bool) (s : State) :
    State × Nat :=
  let hands := get_thread_event_handler t s
  if alloc then
    if hands = 0 then
      if !e.slotAlloc then (s, 0)
      else
        let a := s.nextSlot
        let s1 := { s with heap := Function.update s.heap a (some []),
                           nextSlot := a + 1 }
        let r2 := set_thread_event_handler e.setLocal t a s1
        if !r2.2 then (r2.1.free a, 0)
        else
          let r3 := init_thread_push_handlers e a r2.1
          if !r3.2 then
            ((set_thread_event_handler true t 0 r3.1).1.free a, 0)
          else (r3.1, a)
    else (s, hands)
  else if !keep then ((set_thread_event_handler true t 0 s).1, hands)
  else (s, hands)

/-- The wrapper `clear_thread_local`. -/
def clear_thread_local (e : Env) (t : Nat) (s : State) : State × Nat :=
  manage_thread_local e t false false s

/-- The wrapper `fetch_thread_local`. -/
def fetch_thread_local (e : Env) (t : Nat) (s : State) : State × Nat :=
  manage_thread_local e t false true s

/-- The wrapper `alloc_thread_local`. -/
def alloc_thread_local (e : Env) (t : Nat) (s : State) : State × Nat :=
  manage_thread_local e t true false s

/-- The `while` loop of `init_thread_stop`.  `prev` is the part of the list
that ends in the record `prev` points to (empty while `prev == NULL`), `curr`
the part that starts at `curr`, `out` the records invoked so far.  The
result is the invoked records and the list left in the slot. -/
def stop_walk (arg : Nat) :
    List THREAD_EVENT_HANDLER → List THREAD_EVENT_HANDLER → List THREAD_EVENT_HANDLER →
    List THREAD_EVENT_HANDLER × List THREAD_EVENT_HANDLER
  | prev, [], out => (out, prev)
  | prev, c :: next, out =>
    if arg ≠ 0 ∧ c.arg ≠ arg then stop_walk arg (prev ++ [c]) next out
    else stop_walk arg prev next (out ++ [c])

/-- The function `init_thread_stop`. -/
def init_thread_stop (e : Env) (arg : Nat) (hands : Nat) (s : State) : State :=
  if hands = 0 then s
  else
    let g := get_global_tevent_register e s
    match g.2 with
    | none => g.1
    | some _ =>
      let w := stop_walk arg [] (g.1.loc hands) []
      { g.1.store hands w.2 with fired := g.1.fired ++ w.1 }

/-- The function `init_thread_destructor`. -/
def init_thread_destructor (e : Env) (hands : Nat) (s : State) : State :=
  ((init_thread_remove_handlers e hands (init_thread_stop e 0 hands s))).free hands

/-- The function `ossl_init_thread`.  A new key holds `NULL` for every
thread. -/
def ossl_init_thread (e : Env) (s : State) : State × Bool :=
  if e.keyInit then
    ({ s with destructor_key := (s.nextKey : Int), nextKey := s.nextKey + 1,
              tls := fun _ => 0 }, true)
  else (s, false)

/-- The inner `while` loop of `init_thread_deregister` over one slot, with
`prev` and `curr` as in `stop_walk`; the result is the list left in the
slot. -/
def deregister_walk (index : Nat) (all : Bool) :
    List THREAD_EVENT_HANDLER → List THREAD_EVENT_HANDLER → List THREAD_EVENT_HANDLER
  | prev, [] => prev
  | prev, c :: next =>
    if all ∨ c.index = index then deregister_walk index all prev next
    else deregister_walk index all (prev ++ [c]) next

/-- The `for` loop of `init_thread_deregister` over the stack entries that
are still to be visited. -/
def deregister_sweep (index : Nat) (all : Bool) : List Nat → State → State × Bool
  | [], s => (s, true)
  | hands :: rest, s =>
    if hands = 0 then (s, false)
    else
      let s1 := s.store hands (deregister_walk index all [] (s.loc hands))
      let s2 := if all then s1.free hands else s1
      deregister_sweep index all rest s2

/-- The function `init_thread_deregister`. -/
def init_thread_deregister (e : Env) (index : Nat) (all : Bool) (s : State) :
    State × Bool :=
  let g := get_global_tevent_register e s
  match g.2 with
  | none => (g.1, false)
  | some sk =>
    let s1 := if all then { g.1 with glob_tevent_reg := none } else g.1
    deregister_sweep index all sk s1

/-- The function `ossl_init_thread_deregister`. -/
def ossl_init_thread_deregister (e : Env) (index : Nat) (s : State) : State × Bool :=
  init_thread_deregister e index false s

/-- The function `ossl_cleanup_thread`.  Deleting the key discards the value
every thread held under it. -/
def ossl_cleanup_thread (e : Env) (s : State) : State :=
  { (init_thread_deregister e 0 true s).1 with
      tls := fun _ => 0, destructor_key := -1 }

/-- The function `OPENSSL_thread_stop` called by thread `t`. -/
def OPENSSL_thread_stop (e : Env) (t : Nat) (s : State) : State :=
  if s.destructor_key ≠ -1 then
    let r := clear_thread_local e t s
    (init_thread_remove_handlers e r.2 (init_thread_stop e 0 r.2 r.1)).free r.2
  else s

/-- The function `ossl_ctx_thread_stop` called by thread `t`. -/
def ossl_ctx_thread_stop (e : Env) (t : Nat) (ctx : Nat) (s : State) : State :=
  if s.destructor_key ≠ -1 then
    let r := fetch_thread_local e t s
    init_thread_stop e ctx r.2 r.1
  else s

/-- The function `ossl_init_thread_start` called by thread `t`. -/
def ossl_init_thread_start (e : Env) (t : Nat) (index arg handfn : Nat) (s : State) :
    State × Bool :=
  let r := alloc_thread_local e t s
  if r.2 = 0 then (r.1, false)
  else if !e.recAlloc then (r.1, false)
  else
    let hand : THREAD_EVENT_HANDLER := ⟨r.1.nextRec, index, arg, handfn⟩
    ({ r.1.store r.2 (hand :: r.1.loc r.2) with nextRec := r.1.nextRec + 1 }, true)

/-- Modelled from the spec: the thread-local storage primitive that
`CRYPTO_THREAD_init_local` wraps is not part of the sources at hand.  When
thread `t` exits while the key exists and its value is not null, the value is
reset and the destructor registered with the key, `init_thread_destructor`,
runs on it. -/
def thread_exit (e : Env) (t : Nat) (s : State) : State :=
  if s.destructor_key ≠ -1 ∧ s.tls t ≠ 0 then
    init_thread_destructor e (s.tls t) { s with tls := Function.update s.tls t 0 }
  else s

/-- The calls a run is made of, each with the outcome of its environment. -/
inductive Op where
  | init (e : Env)
  | start (e : Env) (t index arg handfn : Nat)
  | deregister (e : Env) (index : Nat)
  | threadStop (e : Env) (t : Nat)
  | ctxStop (e : Env) (t ctx : Nat)
  | threadExit (e : Env) (t : Nat)
  | cleanup (e : Env)

/-- Effect of one call.  Library initialisation is performed by its caller
only while the key holds the guard value. -/
def step (s : State) : Op → State
  | .init e => if s.destructor_key = -1 then (ossl_init_thread e s).1 else s
  | .start e t index arg handfn => (ossl_init_thread_start e t index arg handfn s).1
  | .deregister e index => (ossl_init_thread_deregister e index s).1
  | .threadStop e t => OPENSSL_thread_stop e t s
  | .ctxStop e t ctx => ossl_ctx_thread_stop e t ctx s
  | .threadExit e t => thread_exit e t s
  | .cleanup e => ossl_cleanup_thread e s

/-- Effect of a sequence of calls, first call first. -/
def run (s : State) (ops : List Op) : State :=
  ops.foldl step s

/-- States a process can be in. -/
def Reachable (s : State) : Prop :=
  ∃ ops, s = run State.init ops

/-- Callback invocations made since the log had length `n`. -/
def State.firedSince (s : State) (n : Nat) : List THREAD_EVENT_HANDLER :=
  s.fired.drop n

/-- All three allocations of the run-once initialiser succeed. -/
def Env.creates (e : Env) : Bool := e.regAlloc && e.skNew && e.lockNew

/-- Pointer discipline of the registry. -/
structure PtrInv (s : State) : Prop where
  nz : 1 ≤ s.nextSlot
  fresh : ∀ a, s.nextSlot ≤ a → s.heap a = none
  null : s.heap 0 = none
  reg : ∀ sk, s.glob_tevent_reg = some sk →
    0 ∉ sk ∧ sk.Nodup ∧ ∀ a ∈ sk, (s.heap a).isSome = true
  ran : ∀ sk, s.glob_tevent_reg = some sk → s.once = some true
  tls : ∀ t, s.tls t ≠ 0 →
    s.destructor_key ≠ -1 ∧ ∃ sk, s.glob_tevent_reg = some sk ∧ s.tls t ∈ sk
  inj : ∀ t u, s.tls t = s.tls u → s.tls t ≠ 0 → t = u
  recs : ∀ a, s.loc a ≠ [] → ∃ sk, s.glob_tevent_reg = some sk ∧ a ∈ sk

/-- The record is selected by the filter `arg` of `init_thread_stop`. -/
def selected (arg : Nat) (c : THREAD_EVENT_HANDLER) : Bool :=
  decide (arg = 0 ∨ c.arg = arg)

/-- The record is removed by `init_thread_deregister`. -/
def dropped (index : Nat) (all : Bool) (c : THREAD_EVENT_HANDLER) : Bool :=
  decide (all = true ∨ c.index = index)

/-- The pair `init_thread_remove_handlers(hands); OPENSSL_free(hands)` that
ends a stop. -/
def retire (e : Env) (a : Nat) (s : State) : State :=
  (init_thread_remove_handlers e a s).free a

/-- Body of a full stop of thread `t`: clear the thread-local value, fire
everything in the slot, unregister and release the slot. -/
def stop_body (e : Env) (t : Nat) (s : State) : State :=
  retire e (s.tls t)
    (init_thread_stop e 0 (s.tls t) { s with tls := Function.update s.tls t 0 })

/-- The assignment `glob_tevent_reg = NULL`. -/
def State.withoutReg (s : State) : State := { s with glob_tevent_reg := none }

/-- The slot cell `OPENSSL_zalloc` returns in state `s`. -/
def State.newCell (s : State) : State :=
  { s with heap := Function.update s.heap s.nextSlot (some []), nextSlot := s.nextSlot + 1 }

/-- Record-level effect of a call that only removes records from slots. -/
def Shrinks (s s' : State) : Prop :=
  (∀ b, (s'.loc b).Sublist (s.loc b)) ∧ s'.fired = s.fired ∧ s'.nextRec = s.nextRec

/-- Record-level effect of a call that invokes and unlinks the records of
slot `a` picked by `p`. -/
def Fires (s s' : State) : Prop :=
  ∃ (a : Nat) (p : THREAD_EVENT_HANDLER → Bool),
    s'.loc a = (s.loc a).filter (fun c => !p c) ∧
    (∀ b, b ≠ a → s'.loc b = s.loc b) ∧
    s'.fired = s.fired ++ (s.loc a).filter p ∧
    s'.nextRec = s.nextRec

/-- Record-level effect of a call that links one new record at the head of
slot `a`. -/
def Registers (s s' : State) : Prop :=
  ∃ (a : Nat) (h : THREAD_EVENT_HANDLER),
    h.rid = s.nextRec ∧
    s'.loc a = h :: s.loc a ∧
    (∀ b, b ≠ a → s'.loc b = s.loc b) ∧
    s'.fired = s.fired ∧
    s'.nextRec = s.nextRec + 1

/-- Record-level effect of one call. -/
def RecStep (s s' : State) : Prop :=
  Shrinks s s' ∨ Fires s s' ∨ Registers s s'

/-- Record discipline: allocation identities are unique, below the counter,
and an invoked record is in no slot. -/
structure RecInv (s : State) : Prop where
  nodup : ∀ a, ((s.loc a).map (fun h => h.rid)).Nodup
  sep : ∀ a b, ∀ h ∈ s.loc a, ∀ k ∈ s.loc b, h.rid = k.rid → a = b
  bound : ∀ a, ∀ h ∈ s.loc a, h.rid < s.nextRec
  fnodup : (s.fired.map (fun h => h.rid)).Nodup
  fbound : ∀ h ∈ s.fired, h.rid < s.nextRec
  gone : ∀ h ∈ s.fired, ∀ a, ∀ k ∈ s.loc a, k.rid ≠ h.rid

/-- The allocation identity `r` has been handed out and belongs to no record
that is in a slot or has been invoked. -/
def Absent (r : Nat) (s : State) : Prop :=
  r < s.nextRec ∧ (∀ h ∈ s.fired, h.rid ≠ r) ∧ ∀ a, ∀ h ∈ s.loc a, h.rid ≠ r

/-- Every record with index `K` that is in a slot, or was invoked after the
log had length `m`, was allocated at or after identity `n`. -/
def NoOld (K n m : Nat) (s : State) : Prop :=
  n ≤ s.nextRec ∧ m ≤ s.fired.length ∧
  (∀ a, ∀ h ∈ s.loc a, h.index = K → n ≤ h.rid) ∧
  (∀ h ∈ s.fired.drop m, h.index = K → n ≤ h.rid)

/-- One call of `ossl_init_thread_start`: its environment, the calling
thread and the three arguments. -/
structure StartCall where
  e : Env
  t : Nat
  index : Nat
  arg : Nat
  handfn : Nat

/-- A sequence of `ossl_init_thread_start` calls, first call first; the flag
tells whether every call returned 1. -/
def startAll (s : State) : List StartCall → State × Bool
  | [] => (s, true)
  | c :: cs =>
    ((startAll (ossl_init_thread_start c.e c.t c.index c.arg c.handfn s).1 cs).1,
     (ossl_init_thread_start c.e c.t c.index c.arg c.handfn s).2 &&
       (startAll (ossl_init_thread_start c.e c.t c.index c.arg c.handfn s).1 cs).2)

/-- The invocation a log entry stands for: the callback and its argument. -/
def THREAD_EVENT_HANDLER.call (h : THREAD_EVENT_HANDLER) : Nat × Nat :=
  (h.handfn, h.arg)

/-- The registry is unavailable for good: the run-once initialiser has run
and `glob_tevent_reg` is null. -/
def Unavailable (s : State) : Prop :=
  s.once ≠ none ∧ s.glob_tevent_reg = none

/-- The function `OPENSSL_thread_stop_ex` called by thread `t`; `concrete`
stands for `ossl_lib_ctx_get_concrete`, which belongs to another
component. -/
def OPENSSL_thread_stop_ex (concrete : Nat → Nat) (e : Env) (t : Nat) (ctx : Nat)
    (s : State) : State :=
  ossl_ctx_thread_stop e t (concrete ctx) s

/-- Every entry of the registry's slot sequence is the thread-local value of
some thread. -/
def BackInv (s : State) : Prop :=
  ∀ a ∈ (s.glob_tevent_reg).getD [], ∃ u, s.tls u = a

namespace Fips

/-!
The same file compiled with `FIPS_MODULE`.  There is no global registry and
no destructor key; the thread-local value is held per thread and library
context.  The record has no `index` field in this build; the record type of
the full-library build is used with `index := 0`.
-/

/-- Outcomes of the fallible environment services during one API call of the
`FIPS_MODULE` build. -/
structure Env where
  /-- Whether `OPENSSL_zalloc(sizeof(*hands))` succeeds. -/
  slotAlloc : Bool
  /-- Whether `CRYPTO_THREAD_set_local_ex` with a non-null value succeeds. -/
  setLocal : Bool
  /-- Whether the host upcall `c_thread_start` returns non-zero. -/
  upcall : Bool
  /-- Whether `OPENSSL_malloc(sizeof(*hand))` succeeds. -/
  recAlloc : Bool
deriving DecidableEq, Repr

/-- An environment of the `FIPS_MODULE` build in which every service
succeeds. -/
def Env.ok : Env := ⟨true, true, true, true⟩

/-- Process state of the `FIPS_MODULE` build. -/
structure State where
  /-- Value under `CRYPTO_THREAD_LOCAL_TEVENT_KEY` of each thread and library
  context. -/
  tls : Nat → Nat → Nat
  /-- Allocated slot cells and the record list each one heads. -/
  heap : Nat → Option (List THREAD_EVENT_HANDLER)
  /-- Next slot address handed out by the allocator. -/
  nextSlot : Nat
  /-- Next record identity handed out by the allocator. -/
  nextRec : Nat
  /-- Callback invocations so far, oldest first. -/
  fired : List THREAD_EVENT_HANDLER
  /-- Host upcalls `c_thread_start` made so far, as thread and library
  context, oldest first. -/
  upcalls : List (Nat × Nat)

/-- State of a provider before any call. -/
def State.init : State :=
  { tls := fun _ _ => 0, heap := fun _ => none, nextSlot := 1, nextRec := 0,
    fired := [], upcalls := [] }

/-- Content of the cell `*hands` at address `a`. -/
def State.loc (s : State) (a : Nat) : List THREAD_EVENT_HANDLER :=
  (s.heap a).getD []

/-- The assignment `*hands = l` at address `a`. -/
def State.store (s : State) (a : Nat) (l : List THREAD_EVENT_HANDLER) : State :=
  { s with heap := Function.update s.heap a (some l) }

/-- The call `OPENSSL_free(hands)`; freeing `NULL` does nothing. -/
def State.free (s : State) (a : Nat) : State :=
  if a = 0 then s else { s with heap := Function.update s.heap a none }

/-- The assignment of thread `t`'s value for context `ctx`. -/
def State.setTls (s : State) (t ctx hands : Nat) : State :=
  { s with tls := Function.update s.tls t (Function.update (s.tls t) ctx hands) }

/-- The slot cell `OPENSSL_zalloc` returns in state `s`. -/
def State.newCell (s : State) : State :=
  { s with heap := Function.update s.heap s.nextSlot (some []), nextSlot := s.nextSlot + 1 }

/-- The accessor `get_thread_event_handler` of thread `t`. -/
def get_thread_event_handler (t ctx : Nat) (s : State) : Nat :=
  s.tls t ctx

/-- The setter `set_thread_event_handler` of thread `t`; `ok` is the outcome
of `CRYPTO_THREAD_set_local_ex`. -/
def set_thread_event_handler (ok : Bool) (t ctx hands : Nat) (s : State) : State × Bool :=
  if ok then (s.setTls t ctx hands, true) else (s, false)

/-- The function `manage_thread_local` called by thread `t`. -/
def manage_thread_local (e : Env) (t ctx : Nat) (alloc keep : Bool) (s : State) :
    State × Nat :=
  let hands := get_thread_event_handler t ctx s
  if alloc then
    if hands = 0 then
      if !e.slotAlloc then (s, 0)
      else
        let a := s.nextSlot
        let s1 := { s with heap := Function.update s.heap a (some []),
                           nextSlot := a + 1 }
        let r2 := set_thread_event_handler e.setLocal t ctx a s1
        if !r2.2 then (r2.1.free a, 0)
        else (r2.1, a)
    else (s, hands)
  else if !keep then ((set_thread_event_handler true t ctx 0 s).1, hands)
  else (s, hands)

/-- The wrapper `clear_thread_local`. -/
def clear_thread_local (e : Env) (t ctx : Nat) (s : State) : State × Nat :=
  manage_thread_local e t ctx false false s

/-- The wrapper `alloc_thread_local`. -/
def alloc_thread_local (e : Env) (t ctx : Nat) (s : State) : State × Nat :=
  manage_thread_local e t ctx true false s

/-- The function `ossl_thread_register_fips` called by thread `t`: the host
upcall is made and its result returned. -/
def ossl_thread_register_fips (e : Env) (t libctx : Nat) (s : State) : State × Bool :=
  ({ s with upcalls := s.upcalls ++ [(t, libctx)] }, e.upcall)

/-- The function `ossl_thread_event_ctx_new` called by thread `t`. -/
def ossl_thread_event_ctx_new (e : Env) (t libctx : Nat) (s : State) : State × Bool :=
  if !e.slotAlloc then (s, false)
  else
    let a := s.nextSlot
    let s1 := { s with heap := Function.update s.heap a (some []), nextSlot := a + 1 }
    let r := set_thread_event_handler e.setLocal t libctx a s1
    if !r.2 then (r.1.free a, false) else (r.1, true)

/-- The function `ossl_thread_event_ctx_free` called by thread `t`. -/
def ossl_thread_event_ctx_free (t ctx : Nat) (s : State) : State :=
  (set_thread_event_handler true t ctx 0 s).1

/-- The function `init_thread_stop` of the `FIPS_MODULE` build. -/
def init_thread_stop (arg : Nat) (hands : Nat) (s : State) : State :=
  if hands = 0 then s
  else
    let w := stop_walk arg [] (s.loc hands) []
    { s.store hands w.2 with fired := s.fired ++ w.1 }

/-- The function `ossl_ctx_thread_stop` of the `FIPS_MODULE` build, called
by thread `t`. -/
def ossl_ctx_thread_stop (e : Env) (t ctx : Nat) (s : State) : State :=
  let r := clear_thread_local e t ctx s
  (init_thread_stop ctx r.2 r.1).free r.2

/-- The function `ossl_arg_thread_stop`, the callback handed to the host. -/
def ossl_arg_thread_stop (e : Env) (t arg : Nat) (s : State) : State :=
  ossl_ctx_thread_stop e t arg s

/-- The function `ossl_init_thread_start` of the `FIPS_MODULE` build, called
by thread `t`; the library context is `arg`. -/
def ossl_init_thread_start (e : Env) (t : Nat) (_index arg handfn : Nat) (s : State) :
    State × Bool :=
  let r := alloc_thread_local e t arg s
  if r.2 = 0 then (r.1, false)
  else
    let u := if r.1.loc r.2 = [] then ossl_thread_register_fips e t arg r.1
             else (r.1, true)
    if !u.2 then (u.1, false)
    else if !e.recAlloc then (u.1, false)
    else
      let hand : THREAD_EVENT_HANDLER := ⟨u.1.nextRec, 0, arg, handfn⟩
      ({ u.1.store r.2 (hand :: u.1.loc r.2) with nextRec := u.1.nextRec + 1 }, true)

/-- The calls a run of the `FIPS_MODULE` build is made of. -/
inductive Op where
  | ctxNew (e : Env) (t libctx : Nat)
  | ctxFree (t ctx : Nat)
  | start (e : Env) (t index arg handfn : Nat)
  | ctxStop (e : Env) (t ctx : Nat)

/-- Effect of one call of the `FIPS_MODULE` build. -/
def step (s : State) : Op → State
  | .ctxNew e t libctx => (ossl_thread_event_ctx_new e t libctx s).1
  | .ctxFree t ctx => ossl_thread_event_ctx_free t ctx s
  | .start e t index arg handfn => (ossl_init_thread_start e t index arg handfn s).1
  | .ctxStop e t ctx => ossl_ctx_thread_stop e t ctx s

/-- Effect of a sequence of calls of the `FIPS_MODULE` build. -/
def run (s : State) (ops : List Op) : State :=
  ops.foldl step s

/-- States a provider can be in. -/
def Reachable (s : State) : Prop :=
  ∃ ops, s = run State.init ops

/-- Allocation discipline of the `FIPS_MODULE` build: addresses at or above
the counter and the null address are not allocated, and every thread-local
value is below the counter. -/
structure Inv (s : State) : Prop where
  nz : 1 ≤ s.nextSlot
  fresh : ∀ a, s.nextSlot ≤ a → s.heap a = none
  null : s.heap 0 = none
  below : ∀ t c, s.tls t c < s.nextSlot

/-! ### Runs of starts and the slot discipline of the `FIPS_MODULE` build -/

/-- A run of `ossl_init_thread_start` calls by thread `t` for the library
context `ctx`, first call first, each given by its environment, its `index`
and its `handfn`; the flag tells whether every call returned 1. -/
def startRun (t ctx : Nat) (s : State) : List (Env × Nat × Nat) → State × Bool
  | [] => (s, true)
  | c :: cs =>
    ((startRun t ctx (ossl_init_thread_start c.1 t c.2.1 ctx c.2.2 s).1 cs).1,
     (ossl_init_thread_start c.1 t c.2.1 ctx c.2.2 s).2 &&
       (startRun t ctx (ossl_init_thread_start c.1 t c.2.1 ctx c.2.2 s).1 cs).2)

/-- Slot discipline of the `FIPS_MODULE` build: no slot is the thread-local
value of two pairs of thread and library context, and every record of the
slot of a pair has the pair's library context as its `arg`. -/
structure SlotInv (s : State) : Prop where
  inj : ∀ t c u d, s.tls t c ≠ 0 → s.tls t c = s.tls u d → t = u ∧ c = d
  args : ∀ t c, ∀ r ∈ s.loc (s.tls t c), r.arg = c

end Fips

/-- Every allocated slot cell is an entry of the registry's slot sequence. -/
def LiveInv (s : State) : Prop :=
  ∀ a, (s.heap a).isSome = true → a ∈ (s.glob_tevent_reg).getD []

/-- The state in which the `for` loop of `init_thread_deregister`, having
visited the entries `pre`, has finished the inner `while` loop on the next
entry `hands` and has not yet reached `if (all) OPENSSL_free(hands)`. -/
def sweep_emptied (index : Nat) (all : Bool) (pre : List Nat) (hands : Nat) (s : State) :
    State :=
  ((deregister_sweep index all pre s).1).store hands
    (deregister_walk index all [] ((deregister_sweep index all pre s).1.loc hands))

end InitThread

/-! ## The other translated functions -/

namespace HashFunc

/-! ### The hash function of `crypto/hashtable/hashfunc.c` -/

/-- Truncation of a natural number to an unsigned 64-bit value. -/
def u64 (x : Nat) : Nat := x % 2 ^ 64

/-- Body of the `for` loop of `ossl_fnv1a_hash`, run over the bytes still to
be read: `hash ^= key[i]; hash *= 0x00000100000001B3;` in `uint64_t`. -/
def fnv1a_loop : List (Fin 256) → Nat → Nat
  | [], hash => hash
  | b :: rest, hash => fnv1a_loop rest (u64 (u64 (hash ^^^ b.val) * 0x00000100000001B3))

/-- Translation of `ossl_fnv1a_hash(key, len)`; the list holds the `len` bytes at `key`. -/
def ossl_fnv1a_hash (key : List (Fin 256)) : Nat :=
  fnv1a_loop key 0xcbf29ce484222325

/-- Reference 64-bit FNV-1a, written as the left fold the specification names. -/
def fnv1a_reference (key : List (Fin 256)) : Nat :=
  key.foldl (fun h b => ((h ^^^ b.val) * 0x00000100000001B3) % 2 ^ 64) 0xcbf29ce484222325

end HashFunc

namespace BioPrint

/-!
### The formatting functions of `crypto/bio/bio_print.c`

`BIO_vprintf`, `BIO_snprintf` and `BIO_vsnprintf` are translated on the path
that calls the C library's `vsnprintf`; `convert_format_for_old_msvc` belongs
to the path for compilers before Visual Studio 2015.
-/

/-- Value of an `int` converted to a `size_t` of `w` bits. -/
def to_size_t (w : Nat) (x : Int) : Nat := (x % 2 ^ w).toNat

/-- Largest value of `int`. -/
def INT_MAX : Nat := 2 ^ 31 - 1

/-- Translation of the tail of `BIO_snprintf` on the standard-library path:
`ret` is what `vsnprintf(buf, n, format, args)` returned, `w` the width of
`size_t`; `if ((size_t)ret >= n) ret = -1; return ret;`. -/
def BIO_snprintf (w : Nat) (n : Nat) (ret : Int) : Int :=
  if to_size_t w ret ≥ n then -1 else ret

/-- Translation of the tail of `BIO_vsnprintf` on the standard-library path,
which has the same body as `BIO_snprintf`. -/
def BIO_vsnprintf (w : Nat) (n : Nat) (ret : Int) : Int :=
  if to_size_t w ret ≥ n then -1 else ret

/-- The C library's `vsnprintf(buf, size, format, args)`, where `out` is the
fully formatted text (`none` for an output error): at most `size - 1` bytes of
it are stored, followed by a NUL, the rest of `buf` keeps its content, and the
value returned is the length of the full text, or negative on an error or
when that length does not fit an `int`. -/
def vsnprintf (buf : List Nat) (size : Nat) (out : Option (List Nat)) : List Nat × Int :=
  match out with
  | none => (buf, -1)
  | some text =>
    if text.length ≤ INT_MAX then
      (if size = 0 then buf
        else text.take (size - 1) ++ [0] ++ buf.drop (min text.length (size - 1) + 1),
       (text.length : Int))
    else (buf, -1)

/-- What a call of `BIO_vprintf` did: the value it returned and the bytes it
handed to `BIO_write` (`none` when `BIO_write` was not called). -/
structure Printed where
  ret : Int
  passed : Option (List Nat)
deriving DecidableEq, Repr

/-- Translation of `BIO_vprintf` on the standard-library path. `stack` is the
content of the 512-byte array `buf` on entry, `out` the formatted text,
`w` the width of `size_t`, `malloc_ok` whether `OPENSSL_malloc` succeeds,
`heap n` the content of a fresh block of `n` bytes, `bio_write` the value
`BIO_write` returns for given bytes. -/
def BIO_vprintf (w : Nat) (malloc_ok : Bool) (heap : Nat → List Nat)
    (bio_write : List Nat → Int) (stack : List Nat) (out : Option (List Nat)) : Printed :=
  let r := vsnprintf stack 512 out
  let sz := r.2
  if sz ≥ 0 then
    if to_size_t w sz > 512 then
      let sz1 := sz + 1
      if malloc_ok then
        let r2 := vsnprintf (heap sz1.toNat) sz1.toNat out
        let bytes := r2.1.take r2.2.toNat
        ⟨bio_write bytes, some bytes⟩
      else ⟨-1, none⟩
    else
      let bytes := r.1.take sz.toNat
      ⟨bio_write bytes, some bytes⟩
  else ⟨-1, none⟩

/-- The character at `*src` of a C string given by the bytes before its
terminator: the head of the list, or the terminating NUL once it is used up. -/
def peek (src : List Nat) : Nat := src.headD 0

/-- One `*dst++ = *src++;`: the output grows by the character read. -/
def copy1 (sd : List Nat × List Nat) : List Nat × List Nat :=
  match sd.1 with
  | [] => (sd.1, sd.2)
  | c :: rest => (rest, sd.2 ++ [c])

/-- Loops of the form `while (p(*src)) *dst++ = *src++;`. -/
def copy_while (p : Nat → Bool) : List Nat → List Nat → List Nat × List Nat
  | [], dst => ([], dst)
  | c :: rest, dst => if p c then copy_while p rest (dst ++ [c]) else (c :: rest, dst)

/-- Guarded copy `if (p(*src)) *dst++ = *src++;`; nothing is copied at the terminator. -/
def copy_if (p : Nat → Bool) (sd : List Nat × List Nat) : List Nat × List Nat :=
  match sd.1 with
  | [] => sd
  | c :: _ => if p c then copy1 sd else sd

/-- The test `*src == '-' || *src == '+' || *src == ' ' || *src == '#' || *src == '0'`. -/
def is_flag (c : Nat) : Bool :=
  c = '-'.toNat || c = '+'.toNat || c = ' '.toNat || c = '#'.toNat || c = '0'.toNat

/-- The test `*src >= '0' && *src <= '9'`. -/
def is_digit (c : Nat) : Bool := decide ('0'.toNat ≤ c) && decide (c ≤ '9'.toNat)

/-- The replacement text `I64`. -/
def I64 : List Nat := ['I'.toNat, '6'.toNat, '4'.toNat]

/-- The replacement for `z` and `t`: `I64` where `_WIN64` is defined, `I` elsewhere. -/
def Iptr (win64 : Bool) : List Nat := if win64 then I64 else ['I'.toNat]

/-- Flags, width and precision of one conversion, copied unchanged. -/
def copy_flags_width_precision (sd : List Nat × List Nat) : List Nat × List Nat :=
  let a := copy_while is_flag sd.1 sd.2
  let b := copy_while is_digit a.1 a.2
  let c := copy_if (fun x => x = '*'.toNat) b
  if peek c.1 = '.'.toNat then
    let d := copy1 c
    let f := copy_while is_digit d.1 d.2
    copy_if (fun x => x = '*'.toNat) f
  else c

/-- Copy of the conversion specifier: `if (*src != 0) *dst++ = *src++;`. -/
def copy_specifier (sd : List Nat × List Nat) : List Nat × List Nat :=
  copy_if (fun x => x ≠ 0) sd

/-- The `if (in_format)` block of `convert_format_for_old_msvc`: flags, width
and precision are copied, the length modifier is rewritten, and the conversion
specifier is copied. -/
def convert_in_format (win64 : Bool) (sd : List Nat × List Nat) : List Nat × List Nat :=
  let g := copy_flags_width_precision sd
  let src := g.1
  let dst := g.2
  if peek src = 'l'.toNat ∧ peek src.tail = 'l'.toNat then
    copy_specifier (src.drop 2, dst ++ I64)
  else if peek src = 'h'.toNat ∧ peek src.tail = 'h'.toNat then
    copy_specifier (src.drop 2, dst)
  else if peek src = 'h'.toNat ∨ peek src = 'l'.toNat ∨ peek src = 'L'.toNat
      ∨ peek src = 'z'.toNat ∨ peek src = 't'.toNat ∨ peek src = 'j'.toNat then
    if peek src = 'z'.toNat then copy_specifier (src.tail, dst ++ Iptr win64)
    else if peek src = 't'.toNat then copy_specifier (src.tail, dst ++ Iptr win64)
    else if peek src = 'j'.toNat then copy_specifier (src.tail, dst ++ I64)
    else copy_specifier (copy1 (src, dst))
  else copy_specifier (src, dst)

/-- The `while (*src != 0)` loop of `convert_format_for_old_msvc`; `none` when
the fuel runs out before the terminator is reached. -/
def convert_loop (win64 : Bool) : Nat → List Nat → List Nat → Option (List Nat)
  | 0, _, _ => none
  | fuel + 1, src, dst =>
    if peek src = 0 then some dst
    else if peek src = '%'.toNat then
      let a := copy1 (src, dst)
      if peek a.1 = '%'.toNat then
        let b := copy1 a
        convert_loop win64 fuel b.1 b.2
      else
        let b := convert_in_format win64 a
        convert_loop win64 fuel b.1 b.2
    else
      let a := copy1 (src, dst)
      convert_loop win64 fuel a.1 a.2

/-- Number of bytes `convert_format_for_old_msvc` allocates for a format of
length `len`: `len += len / 2 + 1`. -/
def converted_alloc (len : Nat) : Nat := len + (len / 2 + 1)

/-- Translation of `convert_format_for_old_msvc` (allocation succeeded):
`format` holds the bytes before the terminator; the result is the sequence of
bytes stored through `dst`, the final `*dst = 0` included. -/
def convert_format_for_old_msvc (win64 : Bool) (format : List Nat) : Option (List Nat) :=
  let s := format.takeWhile (fun c => c ≠ 0)
  (convert_loop win64 (s.length + 1) s []).map (fun dst => dst ++ [0])

/-- The bytes of a string literal. -/
def bytes (s : String) : List Nat := s.toList.map Char.toNat

end BioPrint

namespace X509App

/-! ### The function `parse_ext_names` of `apps/x509.c` -/

/-- Value of a `size_t` converted to `int` (two's complement, 32 bits). -/
def to_int (x : Nat) : Int := ((x : Int) + 2 ^ 31) % 2 ^ 32 - 2 ^ 31

/-- The C library's `strlen`: the number of bytes before the first NUL. -/
def strlen (buf : List Nat) : Nat := (buf.takeWhile (fun c => c ≠ 0)).length

/-- State of the loop of `parse_ext_names`: the buffer, the offsets of `p`
and `q` from `names`, the counter, and the stores `result[cnt] = p` made so
far, each as the pair of the index written and the offset stored. -/
structure Scan where
  buf : List Nat
  p : Nat
  q : Nat
  cnt : Nat
  stores : List (Nat × Nat)
deriving DecidableEq, Repr

/-- The `while (q - names <= len)` loop of `parse_ext_names`; `fill` tells
whether `result` is non-NULL. The result is `none` when the fuel runs out
before the loop condition fails. -/
def parse_loop (fill : Bool) (len : Int) : Nat → Scan → Option Scan
  | 0, _ => none
  | fuel + 1, s =>
    if (s.q : Int) ≤ len then
      if s.buf.getD s.q 0 ≠ ','.toNat ∧ s.buf.getD s.q 0 ≠ 0 then
        parse_loop fill len fuel { s with q := s.q + 1 }
      else if s.p ≠ s.q then
        if fill then
          parse_loop fill len fuel
            { buf := s.buf.set s.q 0, p := s.q + 1, q := s.q + 1, cnt := s.cnt + 1,
              stores := s.stores ++ [(s.cnt, s.p)] }
        else
          parse_loop fill len fuel { s with p := s.q + 1, q := s.q + 1, cnt := s.cnt + 1 }
      else
        parse_loop fill len fuel { s with p := s.q + 1, q := s.q + 1 }
    else some s

/-- Translation of `parse_ext_names(names, result)`: `names` is the content of
the buffer, `fill` whether `result` is non-NULL. The final loop state gives the
value returned (`cnt`), the buffer as the call leaves it and the stores made
into `result`. -/
def parse_ext_names (names : List Nat) (fill : Bool) : Option Scan :=
  parse_loop fill (to_int (strlen names)) (strlen names + 2)
    { buf := names, p := 0, q := 0, cnt := 0, stores := [] }

/-- The C string found at offset `p` of a buffer: the bytes from there up to
the first NUL. -/
def string_at (buf : List Nat) (p : Nat) : List Nat := (buf.drop p).takeWhile (fun c => c ≠ 0)

/-- The non-empty comma-separated segments of a string, in order. -/
def segments (s : List Nat) : List (List Nat) :=
  (s.splitOn ','.toNat).filter (fun f => f ≠ [])

/-- The bytes of a string literal. -/
def bytes (s : String) : List Nat := s.toList.map Char.toNat

/-- Largest value of `int`. -/
def INT_MAX : Nat := 2 ^ 31 - 1

/-- The buffer the filling pass leaves, from the start of the segment being
read: `cur` is the part of the segment read so far, `cs` what follows up to
the terminator, `rest` what lies behind the terminator.  A comma that ends a
non-empty segment is overwritten with NUL. -/
def fill_tail : List Nat → List Nat → List Nat → List Nat
  | cur, [], rest => cur ++ 0 :: rest
  | cur, c :: cs, rest =>
    if c = ','.toNat then
      (if cur ≠ [] then cur ++ 0 :: fill_tail [] cs rest else c :: fill_tail [] cs rest)
    else fill_tail (cur ++ [c]) cs rest

/-- Offsets at which the non-empty segments start, when the segment being read
starts at `base`, `cur` is the part of it read so far and `cs` follows. -/
def seg_starts : Nat → List Nat → List Nat → List Nat
  | base, cur, [] => if cur ≠ [] then [base] else []
  | base, cur, c :: cs =>
    if c = ','.toNat then
      (if cur ≠ [] then [base] else []) ++ seg_starts (base + cur.length + 1) [] cs
    else seg_starts base (cur ++ [c]) cs

end X509App

namespace Asn1Test

/-! ### The table `abs_set1_tests` of `test/asn1_string_test.c` -/

/-- Largest value of `int`. -/
def INT_MAX : Nat := 2 ^ 31 - 1

/-- One row of the table `abs_set1_tests` (the C type `struct abs_set1_test`):
description, expected return value, data bytes (the array is zero-filled up
to 20 bytes), length, number of unused bits, expected encoding and its length. -/
structure abs_set1_test where
  descr : String
  valid : Int
  data : List Nat
  length : Nat
  unused_bits : Int
  der : List Nat
  der_len : Int
deriving DecidableEq, Repr

/-- The table `abs_set1_tests` of `test/asn1_string_test.c`. -/
def abs_set1_tests : List abs_set1_test :=
  [ ⟨"length too large", 0, [0], INT_MAX + 1, 0, [0], 0⟩,
    ⟨"negative unused bits", 0, [0], 0, -1, [0], 0⟩,
    ⟨"8 unused bits", 0, [0], 0, 8, [0], 0⟩,
    ⟨"empty with unused bits", 0, [0x00], 0, 1, [0], 0⟩,
    ⟨"empty", 1, [0x00], 0, 0, [0x03, 0x01, 0x00], 3⟩,
    ⟨"single zero bit", 1, [0x00], 1, 7, [0x03, 0x02, 0x07, 0x00], 4⟩,
    ⟨"single zero bit, with non-zero unused bit 6", 0, [0x40], 1, 7, [0], 0⟩,
    ⟨"single zero bit, with non-zero unused bit 0", 0, [0x01], 1, 7, [0], 0⟩,
    ⟨"single one bit", 1, [0x80], 1, 7, [0x03, 0x02, 0x07, 0x80], 4⟩,
    ⟨"single one bit, with non-zero unused-bit 6", 0, [0xc0], 1, 7, [0], 0⟩,
    ⟨"single one bit, with non-zero unused-bit 0", 0, [0x81], 1, 7, [0], 0⟩,
    ⟨"RFC 3779, 2.1.1, IPv4 address 10.5.0.4", 1, [0x0a, 0x05, 0x00, 0x04], 4, 0,
      [0x03, 0x05, 0x00, 0x0a, 0x05, 0x00, 0x04], 7⟩,
    ⟨"RFC 3779, 2.1.1, IPv4 address 10.5.0/23", 1, [0x0a, 0x05, 0x00], 3, 1,
      [0x03, 0x04, 0x01, 0x0a, 0x05, 0x00], 6⟩,
    ⟨"RFC 3779, 2.1.1, IPv4 address 10.5.0/23, unused bit", 0, [0x0a, 0x05, 0x01], 3, 1,
      [0], 0⟩,
    ⟨"RFC 3779, IPv4 address 10.5.0/17", 1, [0x0a, 0x05, 0x00], 3, 7,
      [0x03, 0x04, 0x07, 0x0a, 0x05, 0x00], 6⟩,
    ⟨"RFC 3779, IPv4 address 10.5.0/18, unused bit set", 0, [0x0a, 0x05, 0x20], 3, 6,
      [0], 0⟩,
    ⟨"RFC 3779, 2.1.1, IPv6 address 2001:0:200:3::1", 1,
      [0x20, 0x01, 0x00, 0x00, 0x02, 0x00, 0x00, 0x00,
       0x00, 0x03, 0x00, 0x00, 0x00, 0x00, 0x00, 0x01], 16, 0,
      [0x03, 0x11, 0x00, 0x20, 0x01, 0x00, 0x00, 0x02,
       0x00, 0x00, 0x00, 0x00, 0x03, 0x00, 0x00, 0x00,
       0x00, 0x00, 0x01], 19⟩,
    ⟨"RFC 3779, IPv6 address 2001:0:200:3::/127", 1,
      [0x20, 0x01, 0x00, 0x00, 0x02, 0x00, 0x00, 0x00,
       0x00, 0x03, 0x00, 0x00, 0x00, 0x00, 0x00, 0x00], 16, 1,
      [0x03, 0x11, 0x01, 0x20, 0x01, 0x00, 0x00, 0x02,
       0x00, 0x00, 0x00, 0x00, 0x03, 0x00, 0x00, 0x00,
       0x00, 0x00, 0x00], 19⟩,
    ⟨"RFC 3779, IPv6 address 2001:0:200:3::/127, unused bit", 0,
      [0x20, 0x01, 0x00, 0x00, 0x02, 0x00, 0x00, 0x00,
       0x00, 0x03, 0x00, 0x00, 0x00, 0x00, 0x00, 0x01], 16, 1,
      [0], 0⟩,
    ⟨"RFC 3779, 2.1.1, IPv6 address 2001:0:200:3::/39", 1,
      [0x20, 0x01, 0x00, 0x00, 0x02], 5, 1,
      [0x03, 0x06, 0x01, 0x20, 0x01, 0x00, 0x00, 0x02], 8⟩ ]

/-- The byte `data[i]` of a zero-filled array given by its initialisers. -/
def byte_at (data : List Nat) (i : Nat) : Nat := data.getD i 0

/-- Modelled from the spec: `ASN1_BIT_STRING_set1` itself is not among the
sources, only its test is.  The value returned is 1 exactly when
`length <= INT_MAX`, `0 <= unused_bits <= 7`, `unused_bits = 0` if
`length = 0`, and the low `unused_bits` bits of the last data byte are all
zero; in every other case it is 0. -/
def ASN1_BIT_STRING_set1 (data : List Nat) (length : Nat) (unused_bits : Int) : Int :=
  if length ≤ INT_MAX ∧ 0 ≤ unused_bits ∧ unused_bits ≤ 7
      ∧ (length = 0 → unused_bits = 0)
      ∧ (length ≠ 0 → byte_at data (length - 1) % 2 ^ unused_bits.toNat = 0) then 1
  else 0

/-- The first check of `abs_set1_test`: the value `ASN1_BIT_STRING_set1`
returns for the row is compared with the row's `valid`. -/
def abs_set1_test_ret (t : abs_set1_test) : Bool :=
  decide (ASN1_BIT_STRING_set1 t.data t.length t.unused_bits = t.valid)

/-- Translation of `abs_set1_test` for one row; `i2d` stands for
`i2d_ASN1_BIT_STRING`, which is not among the sources, and gives the encoding
of the string just set.  A row that is expected to be invalid passes as soon
as the return value is 0; a valid row also compares the encoding. -/
def abs_set1_test_row (i2d : List Nat → Nat → Int → List Nat) (t : abs_set1_test) : Bool :=
  if ASN1_BIT_STRING_set1 t.data t.length t.unused_bits ≠ t.valid then false
  else if t.valid = 0 then true
  else if ((i2d t.data t.length t.unused_bits).length : Int) ≠ t.der_len then false
  else decide (i2d t.data t.length t.unused_bits = t.der.take t.der_len.toNat)

end Asn1Test

/-! ## Lemmas about the translated functions -/

namespace InitThread

theorem create_eq (e : Env) (s : State) :
    create_global_tevent_register e s =
      ({ s with glob_tevent_reg := if e.creates then some [] else none }, e.creates) := by
  unfold create_global_tevent_register Env.creates
  cases e.regAlloc <;> cases e.skNew <;> cases e.lockNew <;> simp

theorem get_global_none (e : Env) (s : State) (h : s.once = none) :
    get_global_tevent_register e s =
      ({ s with glob_tevent_reg := if e.creates then some [] else none,
                once := some e.creates },
       if e.creates then some [] else none) := by
  unfold get_global_tevent_register
  rw [h]
  simp only [create_eq]
  cases e.creates <;> simp

theorem get_global_true (e : Env) (s : State) (h : s.once = some true) :
    get_global_tevent_register e s = (s, s.glob_tevent_reg) := by
  unfold get_global_tevent_register
  rw [h]; simp

theorem get_global_false (e : Env) (s : State) (h : s.once = some false) :
    get_global_tevent_register e s = (s, none) := by
  unfold get_global_tevent_register
  rw [h]; simp

theorem PtrInv.holds_initially : PtrInv State.init := by
  constructor <;> simp [State.init, State.loc]

theorem PtrInv.glob_none_of_once_ne {s : State} (h : PtrInv s) (ho : s.once ≠ some true) :
    s.glob_tevent_reg = none := by
  cases hg : s.glob_tevent_reg with
  | none => rfl
  | some sk => exact absurd (h.ran sk hg) ho

theorem PtrInv.get_global {s : State} (h : PtrInv s) (e : Env) :
    PtrInv (get_global_tevent_register e s).1 := by
  rcases ho : s.once with _ | _ | _
  · have hg := h.glob_none_of_once_ne (by simp [ho])
    rw [get_global_none e s ho]
    refine ⟨h.nz, h.fresh, h.null, ?_, ?_, ?_, h.inj, ?_⟩
    · intro sk hsk
      cases hc : e.creates <;> simp [hc] at hsk
      subst hsk; simp
    · intro sk hsk
      cases hc : e.creates <;> simp [hc] at hsk
      simp
    · intro t ht
      obtain ⟨_, sk, hsk, _⟩ := h.tls t ht
      simp [hg] at hsk
    · intro a ha
      obtain ⟨sk, hsk, _⟩ := h.recs a ha
      simp [hg] at hsk
  · rw [get_global_false e s ho]; exact h
  · rw [get_global_true e s ho]; exact h

theorem stop_walk_eq (arg : Nat) (curr prev out : List THREAD_EVENT_HANDLER) :
    stop_walk arg prev curr out =
      (out ++ curr.filter (fun c => selected arg c),
       prev ++ curr.filter (fun c => !selected arg c)) := by
  induction curr generalizing prev out with
  | nil => simp [stop_walk]
  | cons c next ih =>
    unfold stop_walk
    by_cases hc : arg ≠ 0 ∧ c.arg ≠ arg
    · have hn : selected arg c = false := by
        unfold selected; rw [decide_eq_false_iff_not]; tauto
      rw [if_pos hc, ih, List.filter_cons_of_neg (by simp [hn]),
        List.filter_cons_of_pos (by simp [hn])]
      simp
    · have hn : selected arg c = true := by
        unfold selected; rw [decide_eq_true_iff]; tauto
      rw [if_neg hc, ih, List.filter_cons_of_pos (by simp [hn]),
        List.filter_cons_of_neg (by simp [hn])]
      simp

theorem deregister_walk_eq (index : Nat) (all : Bool) (curr prev : List THREAD_EVENT_HANDLER) :
    deregister_walk index all prev curr =
      prev ++ curr.filter (fun c => !dropped index all c) := by
  induction curr generalizing prev with
  | nil => simp [deregister_walk]
  | cons c next ih =>
    unfold deregister_walk
    by_cases hc : all = true ∨ c.index = index
    · have hn : dropped index all c = true := by
        unfold dropped; rw [decide_eq_true_iff]; exact hc
      rw [if_pos hc, ih, List.filter_cons_of_neg (by simp [hn])]
    · have hn : dropped index all c = false := by
        unfold dropped; rw [decide_eq_false_iff_not]; exact hc
      rw [if_neg hc, ih, List.filter_cons_of_pos (by simp [hn])]
      simp

theorem get_global_frame (e : Env) (s : State) :
    (get_global_tevent_register e s).1.tls = s.tls ∧
    (get_global_tevent_register e s).1.heap = s.heap ∧
    (get_global_tevent_register e s).1.destructor_key = s.destructor_key ∧
    (get_global_tevent_register e s).1.nextSlot = s.nextSlot ∧
    (get_global_tevent_register e s).1.nextRec = s.nextRec ∧
    (get_global_tevent_register e s).1.nextKey = s.nextKey ∧
    (get_global_tevent_register e s).1.fired = s.fired := by
  rcases ho : s.once with _ | _ | _
  · rw [get_global_none e s ho]; simp
  · rw [get_global_false e s ho]; simp
  · rw [get_global_true e s ho]; simp

@[simp] theorem get_global_tls (e : Env) (s : State) :
    (get_global_tevent_register e s).1.tls = s.tls := (get_global_frame e s).1
@[simp] theorem get_global_heap (e : Env) (s : State) :
    (get_global_tevent_register e s).1.heap = s.heap := (get_global_frame e s).2.1
@[simp] theorem get_global_key (e : Env) (s : State) :
    (get_global_tevent_register e s).1.destructor_key = s.destructor_key :=
  (get_global_frame e s).2.2.1
@[simp] theorem get_global_nextSlot (e : Env) (s : State) :
    (get_global_tevent_register e s).1.nextSlot = s.nextSlot :=
  (get_global_frame e s).2.2.2.1
@[simp] theorem get_global_nextRec (e : Env) (s : State) :
    (get_global_tevent_register e s).1.nextRec = s.nextRec :=
  (get_global_frame e s).2.2.2.2.1
@[simp] theorem get_global_nextKey (e : Env) (s : State) :
    (get_global_tevent_register e s).1.nextKey = s.nextKey :=
  (get_global_frame e s).2.2.2.2.2.1
@[simp] theorem get_global_fired (e : Env) (s : State) :
    (get_global_tevent_register e s).1.fired = s.fired :=
  (get_global_frame e s).2.2.2.2.2.2
@[simp] theorem get_global_loc (e : Env) (s : State) (a : Nat) :
    (get_global_tevent_register e s).1.loc a = s.loc a := by
  simp [State.loc]

/-- Under the pointer discipline the accessor returns the stored registry. -/
theorem PtrInv.get_global_snd {s : State} (h : PtrInv s) (e : Env) :
    (get_global_tevent_register e s).2 = (get_global_tevent_register e s).1.glob_tevent_reg := by
  rcases ho : s.once with _ | _ | _
  · rw [get_global_none e s ho]
  · rw [get_global_false e s ho]
    exact (h.glob_none_of_once_ne (by simp [ho])).symm
  · rw [get_global_true e s ho]

/-- Once the run-once body has run, the accessor leaves the state alone. -/
theorem PtrInv.get_global_ran {s : State} (h : PtrInv s) (e : Env) (ho : s.once ≠ none) :
    get_global_tevent_register e s = (s, s.glob_tevent_reg) := by
  rcases ho2 : s.once with _ | _ | _
  · exact absurd ho2 ho
  · rw [get_global_false e s ho2, h.glob_none_of_once_ne (by simp [ho2])]
  · rw [get_global_true e s ho2]

theorem get_global_once_ne (e : Env) (s : State) :
    (get_global_tevent_register e s).1.once ≠ none := by
  rcases ho : s.once with _ | _ | _
  · rw [get_global_none e s ho]; simp
  · rw [get_global_false e s ho]; simp [ho]
  · rw [get_global_true e s ho]; simp [ho]

@[simp] theorem store_loc_same (s : State) (a : Nat) (l : List THREAD_EVENT_HANDLER) :
    (s.store a l).loc a = l := by
  simp [State.store, State.loc]

theorem store_loc_ne (s : State) {a b : Nat} (l : List THREAD_EVENT_HANDLER) (h : b ≠ a) :
    (s.store a l).loc b = s.loc b := by
  simp [State.store, State.loc, Function.update_noteq h]

theorem free_heap (s : State) (a b : Nat) :
    (s.free a).heap b = if b = a ∧ a ≠ 0 then none else s.heap b := by
  unfold State.free
  by_cases ha : a = 0
  · simp [ha]
  · by_cases hb : b = a
    · subst hb; simp [ha]
    · simp [ha, hb, Function.update_noteq hb]

/-- A state that differs only by smaller record lists in the same cells
keeps the pointer discipline. -/
theorem PtrInv.of_shrink {s s' : State} (h : PtrInv s)
    (ho : s'.once = s.once) (hg : s'.glob_tevent_reg = s.glob_tevent_reg)
    (hk : s'.destructor_key = s.destructor_key) (ht : s'.tls = s.tls)
    (hn : s'.nextSlot = s.nextSlot)
    (hh : ∀ a, (s'.heap a).isSome = (s.heap a).isSome)
    (hl : ∀ a, s.loc a = [] → s'.loc a = []) : PtrInv s' := by
  have hnone : ∀ a, s.heap a = none → s'.heap a = none := by
    intro a ha
    have := hh a
    rw [ha] at this
    simpa using this
  refine ⟨hn ▸ h.nz, ?_, hnone 0 h.null, ?_, ?_, ?_, ?_, ?_⟩
  · intro a ha; exact hnone a (h.fresh a (hn ▸ ha))
  · intro sk hsk
    obtain ⟨h0, hnd, hlive⟩ := h.reg sk (hg ▸ hsk)
    exact ⟨h0, hnd, fun a ha => by rw [hh a]; exact hlive a ha⟩
  · intro sk hsk; rw [ho]; exact h.ran sk (hg ▸ hsk)
  · intro t htt
    rw [ht] at htt ⊢
    rw [hk, hg]; exact h.tls t htt
  · rw [ht]; exact h.inj
  · intro a ha
    rw [hg]
    exact h.recs a (fun hc => ha (hl a hc))

theorem PtrInv.loc_null {s : State} (h : PtrInv s) : s.loc 0 = [] := by
  simp [State.loc, h.null]

theorem PtrInv.loc_of_glob_none {s : State} (h : PtrInv s) (hg : s.glob_tevent_reg = none)
    (a : Nat) : s.loc a = [] := by
  by_contra hc
  obtain ⟨sk, hsk, _⟩ := h.recs a hc
  simp [hg] at hsk

theorem PtrInv.tls_of_glob_none {s : State} (h : PtrInv s) (hg : s.glob_tevent_reg = none)
    (t : Nat) : s.tls t = 0 := by
  by_contra hc
  obtain ⟨_, sk, hsk, _⟩ := h.tls t hc
  simp [hg] at hsk

theorem init_thread_stop_null (e : Env) (arg : Nat) (s : State) :
    init_thread_stop e arg 0 s = s := by
  simp [init_thread_stop]

theorem init_thread_stop_none (e : Env) (arg : Nat) {hands : Nat} (s : State)
    (h0 : hands ≠ 0) (hr : (get_global_tevent_register e s).2 = none) :
    init_thread_stop e arg hands s = (get_global_tevent_register e s).1 := by
  simp [init_thread_stop, h0, hr]

theorem init_thread_stop_some (e : Env) (arg : Nat) {hands : Nat} (s : State)
    {sk : List Nat} (h0 : hands ≠ 0) (hr : (get_global_tevent_register e s).2 = some sk) :
    init_thread_stop e arg hands s =
      { (get_global_tevent_register e s).1.store hands
          ((s.loc hands).filter (fun c => !selected arg c)) with
        fired := s.fired ++ (s.loc hands).filter (fun c => selected arg c) } := by
  simp [init_thread_stop, h0, hr, stop_walk_eq]

/-- What `init_thread_stop` does to a state that keeps the pointer
discipline. -/
theorem init_thread_stop_spec {s : State} (h : PtrInv s) (e : Env) (arg hands : Nat)
    (hlive : hands ≠ 0 → (s.heap hands).isSome = true) :
    PtrInv (init_thread_stop e arg hands s) ∧
    (init_thread_stop e arg hands s).fired =
      s.fired ++ (s.loc hands).filter (fun c => selected arg c) ∧
    (init_thread_stop e arg hands s).loc hands =
      (s.loc hands).filter (fun c => !selected arg c) ∧
    (∀ a, a ≠ hands → (init_thread_stop e arg hands s).heap a = s.heap a) ∧
    (∀ a, ((init_thread_stop e arg hands s).heap a).isSome = (s.heap a).isSome) ∧
    (init_thread_stop e arg hands s).tls = s.tls ∧
    (init_thread_stop e arg hands s).destructor_key = s.destructor_key ∧
    (init_thread_stop e arg hands s).nextSlot = s.nextSlot ∧
    (init_thread_stop e arg hands s).nextRec = s.nextRec ∧
    (init_thread_stop e arg hands s).nextKey = s.nextKey ∧
    (s.once ≠ none → (init_thread_stop e arg hands s).once = s.once ∧
      (init_thread_stop e arg hands s).glob_tevent_reg = s.glob_tevent_reg) := by
  by_cases h0 : hands = 0
  · subst h0
    simp [init_thread_stop_null, h, h.loc_null]
  · have hg := h.get_global e
    have hsnd := h.get_global_snd e
    cases hr : (get_global_tevent_register e s).2 with
    | none =>
      rw [hr] at hsnd
      have hl : s.loc hands = [] := by
        have := hg.loc_of_glob_none hsnd.symm hands
        simpa using this
      rw [init_thread_stop_none e arg s h0 hr]
      simp only [hl, List.filter_nil, List.append_nil]
      refine ⟨hg, by simp, by simpa using hl, by simp, by simp, by simp, by simp, by simp,
        by simp, by simp, ?_⟩
      intro ho
      rw [h.get_global_ran e ho]; simp
    | some sk =>
      rw [init_thread_stop_some e arg s h0 hr]
      refine ⟨?_, by simp [State.store], by simp [State.loc, State.store], ?_, ?_,
        by simp [State.store], by simp [State.store], by simp [State.store],
        by simp [State.store], by simp [State.store], ?_⟩
      · refine hg.of_shrink rfl rfl rfl rfl rfl ?_ ?_
        · intro a
          by_cases ha : a = hands
          · subst ha; simp [State.store, hlive h0]
          · simp [State.store, Function.update_noteq ha]
        · intro a hla
          by_cases ha : a = hands
          · subst ha
            simp only [get_global_loc] at hla
            rw [hla]; simp [State.store, State.loc]
          · simpa [State.store, State.loc, Function.update_noteq ha] using hla
      · intro a ha
        simp [State.store, Function.update_noteq ha]
      · intro a
        by_cases ha : a = hands
        · subst ha; simp [State.store, hlive h0]
        · simp [State.store, Function.update_noteq ha]
      · intro ho
        rw [h.get_global_ran e ho]; simp [State.store]

theorem PtrInv.clear_tls {s : State} (h : PtrInv s) (t : Nat) :
    PtrInv { s with tls := Function.update s.tls t 0 } := by
  have key : ∀ u, Function.update s.tls t 0 u ≠ 0 → Function.update s.tls t 0 u = s.tls u := by
    intro u hu
    by_cases hut : u = t
    · subst hut; simp at hu
    · simp [Function.update_noteq hut]
  refine ⟨h.nz, h.fresh, h.null, h.reg, h.ran, ?_, ?_, h.recs⟩
  · intro u hu
    have hk := key u hu
    simp only at hu ⊢
    rw [hk] at hu ⊢
    exact h.tls u hu
  · intro u v huv hu
    simp only at huv hu
    have hv : Function.update s.tls t 0 v ≠ 0 := huv ▸ hu
    rw [key u hu, key v hv] at huv
    rw [key u hu] at hu
    exact h.inj u v huv hu

theorem remove_none (e : Env) (a : Nat) (s : State)
    (hr : (get_global_tevent_register e s).2 = none) :
    init_thread_remove_handlers e a s = (get_global_tevent_register e s).1 := by
  simp [init_thread_remove_handlers, hr]

theorem remove_some (e : Env) (a : Nat) (s : State) {sk : List Nat}
    (hr : (get_global_tevent_register e s).2 = some sk) :
    init_thread_remove_handlers e a s =
      { (get_global_tevent_register e s).1 with glob_tevent_reg := some (sk.erase a) } := by
  simp [init_thread_remove_handlers, hr]

@[simp] theorem free_fired (s : State) (a : Nat) : (s.free a).fired = s.fired := by
  unfold State.free; split <;> rfl
@[simp] theorem free_tls (s : State) (a : Nat) : (s.free a).tls = s.tls := by
  unfold State.free; split <;> rfl
@[simp] theorem free_key (s : State) (a : Nat) :
    (s.free a).destructor_key = s.destructor_key := by
  unfold State.free; split <;> rfl
@[simp] theorem free_nextSlot (s : State) (a : Nat) : (s.free a).nextSlot = s.nextSlot := by
  unfold State.free; split <;> rfl
@[simp] theorem free_nextRec (s : State) (a : Nat) : (s.free a).nextRec = s.nextRec := by
  unfold State.free; split <;> rfl
@[simp] theorem free_nextKey (s : State) (a : Nat) : (s.free a).nextKey = s.nextKey := by
  unfold State.free; split <;> rfl
@[simp] theorem free_once (s : State) (a : Nat) : (s.free a).once = s.once := by
  unfold State.free; split <;> rfl
@[simp] theorem free_glob (s : State) (a : Nat) :
    (s.free a).glob_tevent_reg = s.glob_tevent_reg := by
  unfold State.free; split <;> rfl

theorem free_loc_nil (s : State) (a b : Nat) (hb : s.loc b = []) : (s.free a).loc b = [] := by
  simp only [State.loc, free_heap] at hb ⊢
  split
  · rfl
  · exact hb

theorem retire_spec {s : State} (h : PtrInv s) (e : Env) (a : Nat)
    (hta : ∀ t, s.tls t ≠ 0 → s.tls t ≠ a) (hla : s.loc a = []) :
    PtrInv (retire e a s) ∧
    (retire e a s).fired = s.fired ∧
    (retire e a s).tls = s.tls ∧
    (retire e a s).destructor_key = s.destructor_key ∧
    (retire e a s).nextSlot = s.nextSlot ∧
    (retire e a s).nextRec = s.nextRec ∧
    (retire e a s).nextKey = s.nextKey ∧
    (∀ b, (retire e a s).heap b = if b = a ∧ a ≠ 0 then none else s.heap b) ∧
    (retire e a s).once = (get_global_tevent_register e s).1.once ∧
    (retire e a s).glob_tevent_reg =
      (get_global_tevent_register e s).1.glob_tevent_reg.map (fun sk => sk.erase a) := by
  have hg := h.get_global e
  have hsnd := h.get_global_snd e
  unfold retire
  cases hr : (get_global_tevent_register e s).2 with
  | none =>
    rw [hr] at hsnd
    rw [remove_none e a s hr]
    have hgn := hsnd.symm
    refine ⟨?_, by simp, by simp, by simp, by simp, by simp, by simp, ?_, by simp, ?_⟩
    · refine ⟨by simpa using h.nz, ?_, ?_, ?_, ?_, ?_, ?_, ?_⟩
      · intro b hb; rw [free_heap]; split
        · rfl
        · exact hg.fresh b (by simpa using hb)
      · rw [free_heap]; split
        · rfl
        · exact hg.null
      · intro sk hsk; rw [free_glob, hgn] at hsk; simp at hsk
      · intro sk hsk; rw [free_glob, hgn] at hsk; simp at hsk
      · intro t ht; rw [free_tls] at ht; exact absurd (hg.tls_of_glob_none hgn t) ht
      · rw [free_tls]; exact hg.inj
      · intro b hb
        exact absurd (free_loc_nil _ a b (hg.loc_of_glob_none hgn b)) hb
    · intro b; rw [free_heap]; simp
    · rw [free_glob, ← hsnd]; rfl
  | some sk =>
    rw [hr] at hsnd
    rw [remove_some e a s hr]
    obtain ⟨r0, rnd, rlive⟩ := hg.reg sk hsnd.symm
    refine ⟨?_, by simp, by simp, by simp, by simp, by simp, by simp, ?_, by simp, ?_⟩
    · refine ⟨by simpa using h.nz, ?_, ?_, ?_, ?_, ?_, ?_, ?_⟩
      · intro b hb; rw [free_heap]; split
        · rfl
        · exact hg.fresh b (by simpa using hb)
      · rw [free_heap]; split
        · rfl
        · exact hg.null
      · intro sk2 hsk2
        rw [free_glob] at hsk2
        simp only [Option.some.injEq] at hsk2
        subst hsk2
        refine ⟨fun hc => r0 (List.mem_of_mem_erase hc), rnd.erase a, ?_⟩
        intro b hb
        have hba : b ≠ a := fun hc => by
          subst hc; exact (List.Nodup.not_mem_erase rnd) hb
        rw [free_heap]
        simp only [hba, false_and, if_false]
        exact rlive b (List.mem_of_mem_erase hb)
      · intro sk2 _; rw [free_once]; exact hg.ran sk hsnd.symm
      · intro t ht
        rw [free_tls] at ht ⊢
        rw [free_key, free_glob]
        have ht2 : s.tls t ≠ 0 := by simpa using ht
        obtain ⟨hk, sk2, hsk2, hmem⟩ := hg.tls t (by simpa using ht2)
        rw [← hsnd] at hsk2
        simp only [Option.some.injEq] at hsk2
        subst hsk2
        refine ⟨hk, sk.erase a, rfl, ?_⟩
        simp only [get_global_tls] at hmem ⊢
        exact (List.mem_erase_of_ne (hta t ht2)).mpr hmem
      · rw [free_tls]; exact hg.inj
      · intro b hb
        rw [free_glob]
        have hb2 : s.loc b ≠ [] := by
          intro hc
          exact hb (free_loc_nil _ a b (by simpa [State.loc] using hc))
        have hba : b ≠ a := fun hc => hb2 (hc ▸ hla)
        obtain ⟨sk2, hsk2, hmem⟩ := hg.recs b (by simpa using hb2)
        rw [← hsnd] at hsk2
        simp only [Option.some.injEq] at hsk2
        subst hsk2
        exact ⟨sk.erase a, rfl, (List.mem_erase_of_ne hba).mpr hmem⟩
    · intro b; rw [free_heap]; simp
    · rw [free_glob, ← hsnd]; rfl

@[simp] theorem selected_zero (c : THREAD_EVENT_HANDLER) : selected 0 c = true := by
  simp [selected]

theorem OPENSSL_thread_stop_eq (e : Env) (t : Nat) (s : State)
    (hk : s.destructor_key ≠ -1) : OPENSSL_thread_stop e t s = stop_body e t s := by
  simp [OPENSSL_thread_stop, hk, clear_thread_local, manage_thread_local,
    set_thread_event_handler, get_thread_event_handler, stop_body, retire]

theorem thread_exit_eq (e : Env) (t : Nat) (s : State)
    (hk : s.destructor_key ≠ -1) (ht : s.tls t ≠ 0) : thread_exit e t s = stop_body e t s := by
  simp [thread_exit, hk, ht, init_thread_destructor, stop_body, retire]

theorem PtrInv.once_of_tls {s : State} (h : PtrInv s) {t : Nat} (ht : s.tls t ≠ 0) :
    s.once = some true := by
  obtain ⟨_, sk, hsk, _⟩ := h.tls t ht
  exact h.ran sk hsk

theorem PtrInv.live_of_tls {s : State} (h : PtrInv s) {t : Nat} (ht : s.tls t ≠ 0) :
    (s.heap (s.tls t)).isSome = true := by
  obtain ⟨_, sk, hsk, hm⟩ := h.tls t ht
  exact (h.reg sk hsk).2.2 _ hm

theorem stop_body_spec {s : State} (h : PtrInv s) (e : Env) (t : Nat) :
    PtrInv (stop_body e t s) ∧
    (stop_body e t s).fired = s.fired ++ s.loc (s.tls t) ∧
    (stop_body e t s).tls = Function.update s.tls t 0 ∧
    (stop_body e t s).destructor_key = s.destructor_key ∧
    (stop_body e t s).nextSlot = s.nextSlot ∧
    (stop_body e t s).nextRec = s.nextRec ∧
    (stop_body e t s).nextKey = s.nextKey ∧
    (∀ b, (stop_body e t s).heap b = if b = s.tls t ∧ s.tls t ≠ 0 then none else s.heap b) ∧
    (s.once ≠ none → (stop_body e t s).once = s.once ∧
      (stop_body e t s).glob_tevent_reg = s.glob_tevent_reg.map (fun sk => sk.erase (s.tls t))) ∧
    (s.once = none → (stop_body e t s).once = some e.creates ∧
      (stop_body e t s).glob_tevent_reg = if e.creates then some [] else none) := by
  have h1 := h.clear_tls t
  have hlive : s.tls t ≠ 0 →
      (({ s with tls := Function.update s.tls t 0 } : State).heap (s.tls t)).isSome = true :=
    fun ht => h.live_of_tls ht
  obtain ⟨p2, s2f, s2l, s2h, -, s2t, s2k, s2n, s2r, s2q, s2o⟩ :=
    init_thread_stop_spec h1 e 0 (s.tls t) hlive
  have hta : ∀ u, (init_thread_stop e 0 (s.tls t)
      { s with tls := Function.update s.tls t 0 }).tls u ≠ 0 →
      (init_thread_stop e 0 (s.tls t)
        { s with tls := Function.update s.tls t 0 }).tls u ≠ s.tls t := by
    intro u hu
    rw [s2t] at hu ⊢
    simp only at hu ⊢
    by_cases hut : u = t
    · subst hut; simp at hu
    · rw [Function.update_noteq hut] at hu ⊢
      intro hc
      exact hut (h.inj u t hc hu)
  have hla : (init_thread_stop e 0 (s.tls t)
      { s with tls := Function.update s.tls t 0 }).loc (s.tls t) = [] := by
    rw [s2l]; simp
  obtain ⟨p3, r1, r2, r3, r4, r5, r6, r7, r8, r9⟩ := retire_spec p2 e (s.tls t) hta hla
  unfold stop_body
  refine ⟨p3, ?_, ?_, ?_, ?_, ?_, ?_, ?_, ?_, ?_⟩
  · rw [r1, s2f]; simp [State.loc]
  · rw [r2, s2t]
  · rw [r3, s2k]
  · rw [r4, s2n]
  · rw [r5, s2r]
  · rw [r6, s2q]
  · intro b
    rw [r7 b]
    by_cases hb : b = s.tls t ∧ s.tls t ≠ 0
    · simp [hb]
    · rw [if_neg hb, if_neg hb]
      by_cases hb2 : b = s.tls t
      · have h0 : s.tls t = 0 := by
          by_contra hc; exact hb ⟨hb2, hc⟩
        rw [hb2, h0]
        have := init_thread_stop_null e 0 { s with tls := Function.update s.tls t 0 }
        rw [this]
      · rw [s2h b hb2]
  · intro ho
    obtain ⟨o1, o2⟩ := s2o ho
    have ho2 : (init_thread_stop e 0 (s.tls t)
        { s with tls := Function.update s.tls t 0 }).once ≠ none := by rw [o1]; exact ho
    rw [r8, r9, p2.get_global_ran e ho2]
    exact ⟨o1, by rw [o2]⟩
  · intro ho
    have ht0 : s.tls t = 0 := by
      by_contra hc
      have := h.once_of_tls hc
      rw [ho] at this; simp at this
    rw [r8, r9, ht0, init_thread_stop_null]
    have hn : ({ s with tls := Function.update s.tls t 0 } : State).once = none := ho
    rw [get_global_none e _ hn]
    cases e.creates <;> simp

@[simp] theorem store_fired (s : State) (a : Nat) (l : List THREAD_EVENT_HANDLER) :
    (s.store a l).fired = s.fired := rfl
@[simp] theorem store_tls (s : State) (a : Nat) (l : List THREAD_EVENT_HANDLER) :
    (s.store a l).tls = s.tls := rfl
@[simp] theorem store_key (s : State) (a : Nat) (l : List THREAD_EVENT_HANDLER) :
    (s.store a l).destructor_key = s.destructor_key := rfl
@[simp] theorem store_nextSlot (s : State) (a : Nat) (l : List THREAD_EVENT_HANDLER) :
    (s.store a l).nextSlot = s.nextSlot := rfl
@[simp] theorem store_nextRec (s : State) (a : Nat) (l : List THREAD_EVENT_HANDLER) :
    (s.store a l).nextRec = s.nextRec := rfl
@[simp] theorem store_nextKey (s : State) (a : Nat) (l : List THREAD_EVENT_HANDLER) :
    (s.store a l).nextKey = s.nextKey := rfl
@[simp] theorem store_once (s : State) (a : Nat) (l : List THREAD_EVENT_HANDLER) :
    (s.store a l).once = s.once := rfl
@[simp] theorem store_glob (s : State) (a : Nat) (l : List THREAD_EVENT_HANDLER) :
    (s.store a l).glob_tevent_reg = s.glob_tevent_reg := rfl

theorem store_heap (s : State) (a b : Nat) (l : List THREAD_EVENT_HANDLER) :
    (s.store a l).heap b = if b = a then some l else s.heap b := by
  unfold State.store
  by_cases hb : b = a
  · subst hb; simp
  · simp [hb, Function.update_noteq hb]

/-- Result of the sweep over stack entries none of which is null. -/
theorem deregister_sweep_spec (index : Nat) (all : Bool) (rest : List Nat) (s : State)
    (h0 : 0 ∉ rest) :
    (deregister_sweep index all rest s).2 = true ∧
    (deregister_sweep index all rest s).1.once = s.once ∧
    (deregister_sweep index all rest s).1.glob_tevent_reg = s.glob_tevent_reg ∧
    (deregister_sweep index all rest s).1.destructor_key = s.destructor_key ∧
    (deregister_sweep index all rest s).1.tls = s.tls ∧
    (deregister_sweep index all rest s).1.nextSlot = s.nextSlot ∧
    (deregister_sweep index all rest s).1.nextRec = s.nextRec ∧
    (deregister_sweep index all rest s).1.nextKey = s.nextKey ∧
    (deregister_sweep index all rest s).1.fired = s.fired ∧
    (∀ b, (deregister_sweep index all rest s).1.heap b =
      if b ∈ rest then
        (if all = true then none
         else some ((s.loc b).filter (fun c => !dropped index all c)))
      else s.heap b) := by
  induction rest generalizing s with
  | nil => simp [deregister_sweep]
  | cons hands rest ih =>
    have hh : hands ≠ 0 := fun hc => h0 (by simp [hc])
    have hr : 0 ∉ rest := fun hc => h0 (by simp [hc])
    unfold deregister_sweep
    rw [if_neg hh]
    simp only [deregister_walk_eq, List.nil_append]
    cases all with
    | true =>
      obtain ⟨i1, i2, i3, i4, i5, i6, i7, i8, i9, i10⟩ :=
        ih ((s.store hands ((s.loc hands).filter (fun c => !dropped index true c))).free hands) hr
      simp only [if_true] at i1 i2 i3 i4 i5 i6 i7 i8 i9 i10 ⊢
      refine ⟨i1, by rw [i2]; simp, by rw [i3]; simp, by rw [i4]; simp, by rw [i5]; simp,
        by rw [i6]; simp, by rw [i7]; simp, by rw [i8]; simp, by rw [i9]; simp, ?_⟩
      intro b
      rw [i10 b]
      by_cases hb : b ∈ rest
      · simp [hb]
      · by_cases hbh : b = hands
        · subst hbh; simp [hb, free_heap, hh]
        · simp [hb, hbh, free_heap, store_heap]
    | false =>
      obtain ⟨i1, i2, i3, i4, i5, i6, i7, i8, i9, i10⟩ :=
        ih (s.store hands ((s.loc hands).filter (fun c => !dropped index false c))) hr
      simp only [Bool.false_eq_true, if_false] at i1 i2 i3 i4 i5 i6 i7 i8 i9 i10 ⊢
      refine ⟨i1, by rw [i2]; simp, by rw [i3]; simp, by rw [i4]; simp, by rw [i5]; simp,
        by rw [i6]; simp, by rw [i7]; simp, by rw [i8]; simp, by rw [i9]; simp, ?_⟩
      intro b
      rw [i10 b]
      by_cases hb : b ∈ rest
      · by_cases hbh : b = hands
        · subst hbh; simp [hb, List.filter_filter]
        · simp [hb, hbh, store_loc_ne _ _ hbh]
      · by_cases hbh : b = hands
        · subst hbh; simp [hb, store_heap]
        · simp [hb, hbh, store_heap]

theorem deregister_none (e : Env) (index : Nat) (all : Bool) (s : State)
    (hr : (get_global_tevent_register e s).2 = none) :
    init_thread_deregister e index all s = ((get_global_tevent_register e s).1, false) := by
  simp [init_thread_deregister, hr]

@[simp] theorem withoutReg_fired (s : State) : s.withoutReg.fired = s.fired := rfl
@[simp] theorem withoutReg_tls (s : State) : s.withoutReg.tls = s.tls := rfl
@[simp] theorem withoutReg_key (s : State) :
    s.withoutReg.destructor_key = s.destructor_key := rfl
@[simp] theorem withoutReg_nextSlot (s : State) : s.withoutReg.nextSlot = s.nextSlot := rfl
@[simp] theorem withoutReg_nextRec (s : State) : s.withoutReg.nextRec = s.nextRec := rfl
@[simp] theorem withoutReg_nextKey (s : State) : s.withoutReg.nextKey = s.nextKey := rfl
@[simp] theorem withoutReg_once (s : State) : s.withoutReg.once = s.once := rfl
@[simp] theorem withoutReg_glob (s : State) : s.withoutReg.glob_tevent_reg = none := rfl
@[simp] theorem withoutReg_heap (s : State) : s.withoutReg.heap = s.heap := rfl
@[simp] theorem withoutReg_loc (s : State) (a : Nat) : s.withoutReg.loc a = s.loc a := rfl

theorem deregister_some (e : Env) (index : Nat) (all : Bool) (s : State) {sk : List Nat}
    (hr : (get_global_tevent_register e s).2 = some sk) :
    init_thread_deregister e index all s =
      deregister_sweep index all sk
        (if all = true then (get_global_tevent_register e s).1.withoutReg
         else (get_global_tevent_register e s).1) := by
  simp [init_thread_deregister, hr, State.withoutReg]

/-- What `ossl_init_thread_deregister` does to a state that keeps the pointer
discipline. -/
theorem deregister_spec {s : State} (h : PtrInv s) (e : Env) (index : Nat) :
    PtrInv (ossl_init_thread_deregister e index s).1 ∧
    (ossl_init_thread_deregister e index s).1.fired = s.fired ∧
    (ossl_init_thread_deregister e index s).1.tls = s.tls ∧
    (ossl_init_thread_deregister e index s).1.destructor_key = s.destructor_key ∧
    (ossl_init_thread_deregister e index s).1.nextSlot = s.nextSlot ∧
    (ossl_init_thread_deregister e index s).1.nextRec = s.nextRec ∧
    (ossl_init_thread_deregister e index s).1.nextKey = s.nextKey ∧
    (ossl_init_thread_deregister e index s).1.once = (get_global_tevent_register e s).1.once ∧
    (ossl_init_thread_deregister e index s).1.glob_tevent_reg =
      (get_global_tevent_register e s).1.glob_tevent_reg ∧
    (∀ b, (ossl_init_thread_deregister e index s).1.loc b =
      (s.loc b).filter (fun c => !dropped index false c)) ∧
    (∀ b, ((ossl_init_thread_deregister e index s).1.heap b).isSome = (s.heap b).isSome) ∧
    (ossl_init_thread_deregister e index s).2 =
      (get_global_tevent_register e s).1.glob_tevent_reg.isSome := by
  have hg := h.get_global e
  have hsnd := h.get_global_snd e
  unfold ossl_init_thread_deregister
  cases hr : (get_global_tevent_register e s).2 with
  | none =>
    rw [hr] at hsnd
    rw [deregister_none e index false s hr]
    refine ⟨hg, by simp, by simp, by simp, by simp, by simp, by simp, rfl, rfl, ?_, by simp,
      by rw [← hsnd]; rfl⟩
    intro b
    have := hg.loc_of_glob_none hsnd.symm b
    simp only [get_global_loc] at this ⊢
    rw [this]; rfl
  | some sk =>
    rw [hr] at hsnd
    rw [deregister_some e index false s hr]
    simp only [Bool.false_eq_true, if_false]
    obtain ⟨r0, rnd, rlive⟩ := hg.reg sk hsnd.symm
    obtain ⟨i1, i2, i3, i4, i5, i6, i7, i8, i9, i10⟩ :=
      deregister_sweep_spec index false sk (get_global_tevent_register e s).1 r0
    simp only [Bool.false_eq_true, if_false, get_global_loc, get_global_heap] at i10
    have hloc : ∀ b, (deregister_sweep index false sk (get_global_tevent_register e s).1).1.loc b =
        (s.loc b).filter (fun c => !dropped index false c) := by
      intro b
      unfold State.loc at *
      rw [i10 b]
      by_cases hb : b ∈ sk
      · simp [hb]
      · have : s.loc b = [] := by
          by_contra hc
          obtain ⟨sk2, hsk2, hm⟩ := hg.recs b (by simpa using hc)
          rw [← hsnd] at hsk2
          simp only [Option.some.injEq] at hsk2
          exact hb (hsk2 ▸ hm)
        unfold State.loc at this
        simp [hb, this]
    have hlive : ∀ b, ((deregister_sweep index false sk
        (get_global_tevent_register e s).1).1.heap b).isSome = (s.heap b).isSome := by
      intro b
      rw [i10 b]
      by_cases hb : b ∈ sk
      · have := rlive b hb
        simp only [get_global_heap] at this
        simp [hb, this]
      · simp [hb]
    refine ⟨?_, by simp [i9], by simp [i5], by simp [i4], by simp [i6], by simp [i7],
      by simp [i8], i2, i3, hloc, hlive, by rw [← hsnd, i1]; rfl⟩
    refine hg.of_shrink i2 i3 i4 i5 i6 (by simpa using hlive) ?_
    intro b hb
    rw [hloc b]
    simp only [get_global_loc] at hb
    rw [hb]; rfl

/-- What `ossl_cleanup_thread` does to a state that keeps the pointer
discipline. -/
theorem cleanup_spec {s : State} (h : PtrInv s) (e : Env) :
    PtrInv (ossl_cleanup_thread e s) ∧
    (ossl_cleanup_thread e s).fired = s.fired ∧
    (ossl_cleanup_thread e s).glob_tevent_reg = none ∧
    (ossl_cleanup_thread e s).destructor_key = -1 ∧
    (ossl_cleanup_thread e s).tls = (fun _ => 0) ∧
    (ossl_cleanup_thread e s).nextSlot = s.nextSlot ∧
    (ossl_cleanup_thread e s).nextRec = s.nextRec ∧
    (ossl_cleanup_thread e s).nextKey = s.nextKey ∧
    (ossl_cleanup_thread e s).once = (get_global_tevent_register e s).1.once ∧
    (∀ b, (ossl_cleanup_thread e s).loc b = []) ∧
    (∀ b, (ossl_cleanup_thread e s).heap b =
      if b ∈ ((get_global_tevent_register e s).1.glob_tevent_reg).getD [] then none
      else s.heap b) := by
  have hg := h.get_global e
  have hsnd := h.get_global_snd e
  suffices hmain :
      (ossl_cleanup_thread e s).fired = s.fired ∧
      (ossl_cleanup_thread e s).glob_tevent_reg = none ∧
      (ossl_cleanup_thread e s).destructor_key = -1 ∧
      (ossl_cleanup_thread e s).tls = (fun _ => 0) ∧
      (ossl_cleanup_thread e s).nextSlot = s.nextSlot ∧
      (ossl_cleanup_thread e s).nextRec = s.nextRec ∧
      (ossl_cleanup_thread e s).nextKey = s.nextKey ∧
      (ossl_cleanup_thread e s).once = (get_global_tevent_register e s).1.once ∧
      (∀ b, (ossl_cleanup_thread e s).loc b = []) ∧
      (∀ b, (ossl_cleanup_thread e s).heap b =
        if b ∈ ((get_global_tevent_register e s).1.glob_tevent_reg).getD [] then none
        else s.heap b) by
    obtain ⟨c1, c2, c3, c4, c5, c6, c7, c8, c9, c10⟩ := hmain
    refine ⟨?_, c1, c2, c3, c4, c5, c6, c7, c8, c9, c10⟩
    refine ⟨c5 ▸ h.nz, ?_, ?_, ?_, ?_, ?_, ?_, ?_⟩
    · intro b hb
      rw [c10 b]; split
      · rfl
      · exact h.fresh b (c5 ▸ hb)
    · rw [c10 0]; split
      · rfl
      · exact h.null
    · intro sk hsk; rw [c2] at hsk; simp at hsk
    · intro sk hsk; rw [c2] at hsk; simp at hsk
    · intro t ht; rw [c4] at ht; simp at ht
    · intro t u _ ht; rw [c4] at ht; simp at ht
    · intro b hb; exact absurd (c9 b) hb
  unfold ossl_cleanup_thread
  cases hr : (get_global_tevent_register e s).2 with
  | none =>
    rw [hr] at hsnd
    rw [deregister_none e 0 true s hr]
    refine ⟨by simp, by simp [← hsnd], rfl, rfl, by simp, by simp, by simp, rfl, ?_, ?_⟩
    · intro b
      have := hg.loc_of_glob_none hsnd.symm b
      simpa [State.loc] using this
    · intro b; simp [← hsnd]
  | some sk =>
    rw [hr] at hsnd
    rw [deregister_some e 0 true s hr]
    rw [if_pos rfl]
    obtain ⟨r0, rnd, rlive⟩ := hg.reg sk hsnd.symm
    obtain ⟨i1, i2, i3, i4, i5, i6, i7, i8, i9, i10⟩ :=
      deregister_sweep_spec 0 true sk (get_global_tevent_register e s).1.withoutReg r0
    simp only [if_true, get_global_heap, withoutReg_heap] at i10
    refine ⟨by simp [i9], by simp [i3], by simp, by simp, by simp [i6], by simp [i7],
      by simp [i8], by simp [i2], ?_, ?_⟩
    · intro b
      simp only [State.loc]
      rw [i10 b]
      by_cases hb : b ∈ sk
      · simp [hb]
      · have : s.loc b = [] := by
          by_contra hc
          obtain ⟨sk2, hsk2, hm⟩ := hg.recs b (by simpa using hc)
          rw [← hsnd] at hsk2
          simp only [Option.some.injEq] at hsk2
          exact hb (hsk2 ▸ hm)
        unfold State.loc at this
        simp [hb, this]
    · intro b
      simp only
      rw [i10 b, ← hsnd]; rfl

theorem get_global_congr (e : Env) (s s' : State) (ho : s'.once = s.once)
    (hg : s'.glob_tevent_reg = s.glob_tevent_reg) :
    (get_global_tevent_register e s').2 = (get_global_tevent_register e s).2 ∧
    (get_global_tevent_register e s').1.once = (get_global_tevent_register e s).1.once ∧
    (get_global_tevent_register e s').1.glob_tevent_reg =
      (get_global_tevent_register e s).1.glob_tevent_reg := by
  rcases hs : s.once with _ | _ | _
  · rw [get_global_none e s hs, get_global_none e s' (ho.trans hs)]; simp
  · rw [get_global_false e s hs, get_global_false e s' (ho.trans hs)]; simp [ho, hg]
  · rw [get_global_true e s hs, get_global_true e s' (ho.trans hs)]; simp [ho, hg]

/-- A state with the same registry, key and thread-local values, the same
heap and a slot counter that is not smaller keeps the pointer discipline. -/
theorem PtrInv.congr {s s' : State} (h : PtrInv s)
    (ho : s'.once = s.once) (hg : s'.glob_tevent_reg = s.glob_tevent_reg)
    (hk : s'.destructor_key = s.destructor_key) (ht : ∀ t, s'.tls t = s.tls t)
    (hn : s.nextSlot ≤ s'.nextSlot) (hh : ∀ a, s'.heap a = s.heap a) : PtrInv s' := by
  have hl : ∀ a, s'.loc a = s.loc a := fun a => by simp [State.loc, hh a]
  refine ⟨le_trans h.nz hn, ?_, by rw [hh]; exact h.null, ?_, ?_, ?_, ?_, ?_⟩
  · intro a ha; rw [hh]; exact h.fresh a (le_trans hn ha)
  · intro sk hsk
    obtain ⟨h0, hnd, hlive⟩ := h.reg sk (hg ▸ hsk)
    exact ⟨h0, hnd, fun a ha => by rw [hh a]; exact hlive a ha⟩
  · intro sk hsk; rw [ho]; exact h.ran sk (hg ▸ hsk)
  · intro t htt
    rw [ht] at htt ⊢
    rw [hk, hg]; exact h.tls t htt
  · intro t u htu htt
    rw [ht, ht] at htu
    rw [ht] at htt
    exact h.inj t u htu htt
  · intro a ha
    rw [hg]
    exact h.recs a (by rw [← hl]; exact ha)

/-- Installing and registering a fresh, empty slot for a thread without one
keeps the pointer discipline. -/
theorem PtrInv.register_new {s s' : State} (h : PtrInv s) (t : Nat) (sk : List Nat)
    (hk : s.destructor_key ≠ -1) (hsk : s.glob_tevent_reg = some sk)
    (ho : s'.once = s.once) (hg : s'.glob_tevent_reg = some (sk ++ [s.nextSlot]))
    (hk' : s'.destructor_key = s.destructor_key)
    (ht : ∀ u, s'.tls u = if u = t then s.nextSlot else s.tls u)
    (hn : s'.nextSlot = s.nextSlot + 1)
    (hh : ∀ a, s'.heap a = if a = s.nextSlot then some [] else s.heap a) : PtrInv s' := by
  obtain ⟨r0, rnd, rlive⟩ := h.reg sk hsk
  have hfresh : s.heap s.nextSlot = none := h.fresh _ le_rfl
  have hnotin : s.nextSlot ∉ sk := by
    intro hc
    have := rlive _ hc
    rw [hfresh] at this; simp at this
  have hnz : s.nextSlot ≠ 0 := by have := h.nz; omega
  have hl : ∀ a, s'.loc a = s.loc a := by
    intro a
    simp only [State.loc, hh a]
    split
    · next ha => rw [ha, hfresh]; rfl
    · rfl
  refine ⟨by rw [hn]; omega, ?_, ?_, ?_, ?_, ?_, ?_, ?_⟩
  · intro a ha
    rw [hn] at ha
    rw [hh a, if_neg (by omega)]
    exact h.fresh a (by omega)
  · rw [hh 0, if_neg (Ne.symm hnz)]; exact h.null
  · intro sk2 hsk2
    rw [hg] at hsk2
    simp only [Option.some.injEq] at hsk2
    subst hsk2
    refine ⟨?_, ?_, ?_⟩
    · simp only [List.mem_append, List.mem_singleton, not_or]
      exact ⟨r0, Ne.symm hnz⟩
    · rw [List.nodup_append]
      refine ⟨rnd, List.nodup_singleton _, ?_⟩
      intro a ha hb
      simp only [List.mem_singleton] at hb
      exact hnotin (hb ▸ ha)
    · intro a ha
      rw [hh a]
      split
      · rfl
      · simp only [List.mem_append, List.mem_singleton] at ha
        rcases ha with ha | ha
        · exact rlive a ha
        · contradiction
  · intro sk2 _; rw [ho]; exact h.ran sk hsk
  · intro u hu
    rw [hk', hg]
    refine ⟨hk, _, rfl, ?_⟩
    rw [ht u] at hu ⊢
    split
    · simp
    · next hut =>
      rw [if_neg hut] at hu
      obtain ⟨_, sk2, hsk2, hm⟩ := h.tls u hu
      rw [hsk] at hsk2
      simp only [Option.some.injEq] at hsk2
      subst hsk2
      simp [hm]
  · intro u v huv hu
    have hreg : ∀ w, w ≠ t → s.tls w ≠ 0 → s.tls w ≠ s.nextSlot := by
      intro w _ hw hc
      obtain ⟨_, sk2, hsk2, hm⟩ := h.tls w hw
      rw [hsk] at hsk2
      simp only [Option.some.injEq] at hsk2
      subst hsk2
      exact hnotin (hc ▸ hm)
    rw [ht u, ht v] at huv
    rw [ht u] at hu
    by_cases hut : u = t
    · by_cases hvt : v = t
      · rw [hut, hvt]
      · rw [if_pos hut, if_neg hvt] at huv
        have hv0 : s.tls v ≠ 0 := by rw [← huv]; exact hnz
        exact absurd huv.symm (hreg v hvt hv0)
    · rw [if_neg hut] at huv hu
      by_cases hvt : v = t
      · rw [if_pos hvt] at huv
        exact absurd huv (hreg u hut hu)
      · rw [if_neg hvt] at huv
        exact h.inj u v huv hu
  · intro a ha
    rw [hl] at ha
    obtain ⟨sk2, hsk2, hm⟩ := h.recs a ha
    rw [hsk] at hsk2
    simp only [Option.some.injEq] at hsk2
    subst hsk2
    exact ⟨_, hg, by simp [hm]⟩

theorem alloc_have (e : Env) (t : Nat) (s : State) (hk : s.destructor_key ≠ -1)
    (ht : s.tls t ≠ 0) : alloc_thread_local e t s = (s, s.tls t) := by
  simp [alloc_thread_local, manage_thread_local, get_thread_event_handler, hk, ht]

theorem alloc_nomem (e : Env) (t : Nat) (s : State)
    (ht : get_thread_event_handler t s = 0) (ha : e.slotAlloc = false) :
    alloc_thread_local e t s = (s, 0) := by
  simp [alloc_thread_local, manage_thread_local, ht, ha]

theorem alloc_noset (e : Env) (t : Nat) (s : State)
    (ht : get_thread_event_handler t s = 0) (ha : e.slotAlloc = true)
    (hs : s.destructor_key = -1 ∨ e.setLocal = false) :
    alloc_thread_local e t s = (s.newCell.free s.nextSlot, 0) := by
  rcases hs with hs | hs
  · simp [alloc_thread_local, manage_thread_local, ht, ha, set_thread_event_handler, hs,
      State.newCell]
  · by_cases hk : s.destructor_key = -1
    · simp [alloc_thread_local, manage_thread_local, ht, ha, set_thread_event_handler, hk,
        State.newCell]
    · simp [alloc_thread_local, manage_thread_local, ht, ha, set_thread_event_handler, hk, hs,
        State.newCell]

theorem alloc_nopush (e : Env) (t : Nat) (s : State)
    (ht : get_thread_event_handler t s = 0) (ha : e.slotAlloc = true)
    (hk : s.destructor_key ≠ -1) (hs : e.setLocal = true)
    (hp : (get_global_tevent_register e s).2 = none ∨ e.push = false) :
    alloc_thread_local e t s =
      ({ (get_global_tevent_register e
            { s.newCell with tls := Function.update s.tls t s.nextSlot }).1 with
          tls := Function.update (Function.update s.tls t s.nextSlot) t 0 }.free s.nextSlot,
        0) := by
  have hc := (get_global_congr e s
    { s.newCell with tls := Function.update s.tls t s.nextSlot } rfl rfl).1
  rcases hp with hp | hp
  · rw [hp] at hc
    simp [alloc_thread_local, manage_thread_local, ht, ha, set_thread_event_handler, hk, hs,
      State.newCell, init_thread_push_handlers] at hc ⊢
    simp [hc, hk]
  · cases hr : (get_global_tevent_register e s).2 with
    | none =>
      rw [hr] at hc
      simp [alloc_thread_local, manage_thread_local, ht, ha, set_thread_event_handler, hk, hs,
        State.newCell, init_thread_push_handlers] at hc ⊢
      simp [hc, hk]
    | some sk =>
      rw [hr] at hc
      simp [alloc_thread_local, manage_thread_local, ht, ha, set_thread_event_handler, hk, hs,
        State.newCell, init_thread_push_handlers] at hc ⊢
      simp [hc, hp, hk]

theorem alloc_push (e : Env) (t : Nat) (s : State) {sk : List Nat}
    (ht : get_thread_event_handler t s = 0) (ha : e.slotAlloc = true)
    (hk : s.destructor_key ≠ -1) (hs : e.setLocal = true)
    (hr : (get_global_tevent_register e s).2 = some sk) (hp : e.push = true) :
    alloc_thread_local e t s =
      ({ (get_global_tevent_register e
            { s.newCell with tls := Function.update s.tls t s.nextSlot }).1 with
          glob_tevent_reg := some (sk ++ [s.nextSlot]) },
        s.nextSlot) := by
  have hc := (get_global_congr e s
    { s.newCell with tls := Function.update s.tls t s.nextSlot } rfl rfl).1
  rw [hr] at hc
  simp [alloc_thread_local, manage_thread_local, ht, ha, set_thread_event_handler, hk, hs,
    State.newCell, init_thread_push_handlers] at hc ⊢
  simp [hc, hp, hk]

theorem get_handler_zero {s : State} {t : Nat} (ht : s.tls t = 0) :
    get_thread_event_handler t s = 0 := by
  unfold get_thread_event_handler; split
  · exact ht
  · rfl

theorem newCell_free_heap {s : State} (h : PtrInv s) (b : Nat) :
    (s.newCell.free s.nextSlot).heap b = s.heap b := by
  rw [free_heap]
  by_cases hb : b = s.nextSlot
  · have hz : s.nextSlot ≠ 0 := by have := h.nz; omega
    rw [if_pos ⟨hb, hz⟩, hb]
    exact (h.fresh _ le_rfl).symm
  · rw [if_neg (fun hc => hb hc.1)]
    simp [State.newCell, Function.update_noteq hb]

/-- What `alloc_thread_local` does to a state that keeps the pointer
discipline. -/
theorem alloc_spec {s : State} (h : PtrInv s) (e : Env) (t : Nat) :
    PtrInv (alloc_thread_local e t s).1 ∧
    (alloc_thread_local e t s).1.fired = s.fired ∧
    (alloc_thread_local e t s).1.nextRec = s.nextRec ∧
    (alloc_thread_local e t s).1.destructor_key = s.destructor_key ∧
    (alloc_thread_local e t s).1.nextKey = s.nextKey ∧
    (∀ b, (alloc_thread_local e t s).1.loc b = s.loc b) ∧
    (∀ u, u ≠ t → (alloc_thread_local e t s).1.tls u = s.tls u) ∧
    ((alloc_thread_local e t s).2 = 0 → (alloc_thread_local e t s).1.tls t = s.tls t) ∧
    ((alloc_thread_local e t s).2 ≠ 0 →
      s.destructor_key ≠ -1 ∧
      (alloc_thread_local e t s).1.tls t = (alloc_thread_local e t s).2 ∧
      (∃ sk, (alloc_thread_local e t s).1.glob_tevent_reg = some sk ∧
        (alloc_thread_local e t s).2 ∈ sk)) ∧
    (s.tls t ≠ 0 → alloc_thread_local e t s = (s, s.tls t)) ∧
    (s.tls t = 0 → (alloc_thread_local e t s).2 ≠ 0 →
      (alloc_thread_local e t s).2 = s.nextSlot ∧
      (alloc_thread_local e t s).1.once = some true ∧
      ∃ sk, (get_global_tevent_register e s).1.glob_tevent_reg = some sk ∧
        (alloc_thread_local e t s).1.glob_tevent_reg = some (sk ++ [s.nextSlot])) := by
  by_cases ht : s.tls t = 0
  swap
  · obtain ⟨hk, sk, hsk, hm⟩ := h.tls t ht
    rw [alloc_have e t s hk ht]
    exact ⟨h, rfl, rfl, rfl, rfl, fun _ => rfl, fun _ _ => rfl, fun _ => rfl,
      fun _ => ⟨hk, rfl, sk, hsk, hm⟩, fun _ => rfl, fun h0 => absurd h0 ht⟩
  have hget := get_handler_zero ht
  have hz : s.nextSlot ≠ 0 := by have := h.nz; omega
  by_cases ha : e.slotAlloc = true
  swap
  · rw [alloc_nomem e t s hget (by simpa using ha)]
    exact ⟨h, rfl, rfl, rfl, rfl, fun _ => rfl, fun _ _ => rfl, fun _ => rfl,
      fun hc => absurd rfl hc, fun hc => absurd ht hc, fun _ hc => absurd rfl hc⟩
  by_cases hs : s.destructor_key = -1 ∨ e.setLocal = false
  · rw [alloc_noset e t s hget ha hs]
    have hheap := newCell_free_heap h
    refine ⟨?_, by simp [State.newCell], by simp [State.newCell], by simp [State.newCell],
      by simp [State.newCell], ?_, ?_, ?_, fun hc => absurd rfl hc, fun hc => absurd ht hc,
      fun _ hc => absurd rfl hc⟩
    · exact h.congr (by simp [State.newCell]) (by simp [State.newCell])
        (by simp [State.newCell]) (by simp [State.newCell]) (by simp [State.newCell]) hheap
    · intro b; simp only [State.loc, hheap b]
    · intro u _; simp [State.newCell]
    · intro _; simp [State.newCell]
  have hk : s.destructor_key ≠ -1 := fun hc => hs (Or.inl hc)
  have hset : e.setLocal = true := by
    by_contra hc; exact hs (Or.inr (by simpa using hc))
  have hg := h.get_global e
  have hsnd := h.get_global_snd e
  obtain ⟨c1, c2, c3⟩ := get_global_congr e s
    { s.newCell with tls := Function.update s.tls t s.nextSlot } rfl rfl
  by_cases hp : (get_global_tevent_register e s).2 = none ∨ e.push = false
  · rw [alloc_nopush e t s hget ha hk hset hp]
    have hheap : ∀ b, ({ (get_global_tevent_register e
        { s.newCell with tls := Function.update s.tls t s.nextSlot }).1 with
        tls := Function.update (Function.update s.tls t s.nextSlot) t 0 }.free s.nextSlot).heap b
        = s.heap b := by
      intro b
      have := newCell_free_heap h b
      rw [free_heap] at this ⊢
      simpa using this
    have htls : ∀ u, Function.update (Function.update s.tls t s.nextSlot) t 0 u = s.tls u := by
      intro u
      by_cases hu : u = t
      · subst hu; simp [ht]
      · simp [Function.update_noteq hu]
    refine ⟨?_, by simp [State.newCell], by simp [State.newCell], by simp [State.newCell],
      by simp [State.newCell], ?_, ?_, ?_, fun hc => absurd rfl hc, fun hc => absurd ht hc,
      fun _ hc => absurd rfl hc⟩
    · refine hg.congr (by simpa using c2) (by simpa using c3) (by simp [State.newCell])
        (by simpa using htls) (by simp [State.newCell]) (by simpa using hheap)
    · intro b; simp only [State.loc, hheap b]
    · intro u _; simpa using htls u
    · intro _; simpa using htls t
  · have hpush : e.push = true := by
      by_contra hc; exact hp (Or.inr (by simpa using hc))
    cases hr : (get_global_tevent_register e s).2 with
    | none => exact absurd (Or.inl hr) hp
    | some sk =>
      rw [hr] at hsnd
      rw [alloc_push e t s hget ha hk hset hr hpush]
      have hfresh : s.heap s.nextSlot = none := h.fresh _ le_rfl
      refine ⟨?_, by simp [State.newCell], by simp [State.newCell], by simp [State.newCell],
        by simp [State.newCell], ?_, ?_, fun hc => absurd hc hz, ?_, fun hc => absurd ht hc, ?_⟩
      · refine hg.register_new t sk (by simpa using hk) hsnd.symm
          (by simpa using c2) (by simp) (by simp [State.newCell]) ?_ (by simp [State.newCell]) ?_
        · intro u
          by_cases hu : u = t
          · subst hu; simp
          · simp [hu, Function.update_noteq hu]
        · intro a
          by_cases ha2 : a = s.nextSlot
          · subst ha2; simp [State.newCell]
          · simp [ha2, State.newCell, Function.update_noteq ha2]
      · intro b
        by_cases hb : b = s.nextSlot
        · subst hb; simp [State.loc, State.newCell, hfresh]
        · simp [State.loc, State.newCell, Function.update_noteq hb]
      · intro u hu; simp [Function.update_noteq hu]
      · intro _
        exact ⟨hk, by simp, _, rfl, by simp⟩
      · intro _ _
        refine ⟨rfl, ?_, sk, hsnd.symm, rfl⟩
        have := hg.ran sk hsnd.symm
        simpa [c2] using this

/-- Writing a list into a registered slot keeps the pointer discipline. -/
theorem PtrInv.store_reg {s : State} (h : PtrInv s) {sk : List Nat} {a : Nat}
    (hsk : s.glob_tevent_reg = some sk) (ha : a ∈ sk) (l : List THREAD_EVENT_HANDLER)
    (n : Nat) : PtrInv { s.store a l with nextRec := n } := by
  obtain ⟨r0, rnd, rlive⟩ := h.reg sk hsk
  have hlive := rlive a ha
  have ha0 : a ≠ 0 := fun hc => r0 (hc ▸ ha)
  have hheap : ∀ b, ({ s.store a l with nextRec := n } : State).heap b =
      if b = a then some l else s.heap b := fun b => store_heap s a b l
  refine ⟨h.nz, ?_, ?_, ?_, h.ran, h.tls, h.inj, ?_⟩
  · intro b hb
    rw [hheap b]
    split
    · next hba =>
      subst hba
      have := h.fresh b hb
      rw [this] at hlive; simp at hlive
    · exact h.fresh b hb
  · rw [hheap 0, if_neg (Ne.symm ha0)]; exact h.null
  · intro sk2 hsk2
    have hsk3 : s.glob_tevent_reg = some sk2 := hsk2
    obtain ⟨q0, qnd, qlive⟩ := h.reg sk2 hsk3
    refine ⟨q0, qnd, fun b hb => ?_⟩
    rw [hheap b]
    split
    · rfl
    · exact qlive b hb
  · intro b hb
    by_cases hba : b = a
    · exact ⟨sk, hsk, hba ▸ ha⟩
    · refine h.recs b ?_
      have : ({ s.store a l with nextRec := n } : State).loc b = s.loc b := by
        have := store_heap s a b l
        rw [if_neg hba] at this
        simp only [State.loc, this]
      rw [← this]; exact hb

theorem start_fail_slot (e : Env) (t index arg handfn : Nat) (s : State)
    (h0 : (alloc_thread_local e t s).2 = 0) :
    ossl_init_thread_start e t index arg handfn s = ((alloc_thread_local e t s).1, false) := by
  simp [ossl_init_thread_start, h0]

theorem start_fail_rec (e : Env) (t index arg handfn : Nat) (s : State)
    (hr : e.recAlloc = false) :
    ossl_init_thread_start e t index arg handfn s = ((alloc_thread_local e t s).1, false) := by
  unfold ossl_init_thread_start
  simp only [hr]
  split <;> simp

theorem start_ok (e : Env) (t index arg handfn : Nat) (s : State)
    (h0 : (alloc_thread_local e t s).2 ≠ 0) (hr : e.recAlloc = true) :
    ossl_init_thread_start e t index arg handfn s =
      ({ (alloc_thread_local e t s).1.store (alloc_thread_local e t s).2
            (⟨(alloc_thread_local e t s).1.nextRec, index, arg, handfn⟩ ::
              (alloc_thread_local e t s).1.loc (alloc_thread_local e t s).2) with
          nextRec := (alloc_thread_local e t s).1.nextRec + 1 }, true) := by
  simp [ossl_init_thread_start, h0, hr]

/-- What `ossl_init_thread_start` does to a state that keeps the pointer
discipline. -/
theorem start_spec {s : State} (h : PtrInv s) (e : Env) (t index arg handfn : Nat) :
    PtrInv (ossl_init_thread_start e t index arg handfn s).1 ∧
    (ossl_init_thread_start e t index arg handfn s).1.fired = s.fired ∧
    (ossl_init_thread_start e t index arg handfn s).1.destructor_key = s.destructor_key ∧
    (ossl_init_thread_start e t index arg handfn s).1.nextKey = s.nextKey ∧
    (∀ u, u ≠ t → (ossl_init_thread_start e t index arg handfn s).1.tls u = s.tls u) ∧
    ((ossl_init_thread_start e t index arg handfn s).2 = false →
      (ossl_init_thread_start e t index arg handfn s).1.nextRec = s.nextRec ∧
      ∀ b, (ossl_init_thread_start e t index arg handfn s).1.loc b = s.loc b) ∧
    ((ossl_init_thread_start e t index arg handfn s).2 = true →
      s.destructor_key ≠ -1 ∧
      (ossl_init_thread_start e t index arg handfn s).1.tls t ≠ 0 ∧
      (s.tls t ≠ 0 → (ossl_init_thread_start e t index arg handfn s).1.tls t = s.tls t) ∧
      (ossl_init_thread_start e t index arg handfn s).1.nextRec = s.nextRec + 1 ∧
      (ossl_init_thread_start e t index arg handfn s).1.loc
          ((ossl_init_thread_start e t index arg handfn s).1.tls t) =
        ⟨s.nextRec, index, arg, handfn⟩ :: s.loc (s.tls t) ∧
      (∀ b, b ≠ (ossl_init_thread_start e t index arg handfn s).1.tls t →
        (ossl_init_thread_start e t index arg handfn s).1.loc b = s.loc b) ∧
      (∃ sk, (ossl_init_thread_start e t index arg handfn s).1.glob_tevent_reg = some sk ∧
        (ossl_init_thread_start e t index arg handfn s).1.tls t ∈ sk) ∧
      s.loc ((ossl_init_thread_start e t index arg handfn s).1.tls t) = s.loc (s.tls t)) := by
  obtain ⟨a1, a2, a3, a4, a5, a6, a7, a8, a9, a10, a11⟩ := alloc_spec h e t
  by_cases h0 : (alloc_thread_local e t s).2 = 0
  · rw [start_fail_slot e t index arg handfn s h0]
    exact ⟨a1, a2, a4, a5, a7, fun _ => ⟨a3, a6⟩, fun hc => by simp at hc⟩
  by_cases hr : e.recAlloc = true
  swap
  · rw [start_fail_rec e t index arg handfn s (by simpa using hr)]
    exact ⟨a1, a2, a4, a5, a7, fun _ => ⟨a3, a6⟩, fun hc => by simp at hc⟩
  obtain ⟨b1, b2, sk, b3, b4⟩ := a9 h0
  rw [start_ok e t index arg handfn s h0 hr]
  have hold : s.loc (alloc_thread_local e t s).2 = s.loc (s.tls t) := by
    by_cases ht : s.tls t = 0
    · rw [(a11 ht h0).1, ht, h.loc_null]
      simp [State.loc, h.fresh _ le_rfl]
    · rw [a10 ht]
  refine ⟨a1.store_reg b3 b4 _ _, by simpa using a2, by simpa using a4, by simpa using a5,
    fun u hu => by simpa using a7 u hu, fun hc => by simp at hc, fun _ => ?_⟩
  refine ⟨b1, by simpa [b2] using h0, ?_, by simp [a3], ?_, ?_, ⟨sk, by simpa using b3,
    by simpa [b2] using b4⟩, by simpa [b2] using hold⟩
  · intro ht; simp [b2, a10 ht]
  · simp only [store_tls, b2]
    simp [State.loc, State.store, a3]
    have := a6 (alloc_thread_local e t s).2
    simp only [State.loc] at this hold
    rw [this, hold]
  · intro b hb
    simp only [store_tls, b2] at hb
    have := a6 b
    simp only [State.loc, State.store, Function.update_noteq hb] at this ⊢
    exact this

theorem ctx_stop_eq (e : Env) (t ctx : Nat) (s : State) (hk : s.destructor_key ≠ -1) :
    ossl_ctx_thread_stop e t ctx s = init_thread_stop e ctx (s.tls t) s := by
  simp [ossl_ctx_thread_stop, hk, fetch_thread_local, manage_thread_local,
    get_thread_event_handler]

theorem ctx_stop_off (e : Env) (t ctx : Nat) (s : State) (hk : s.destructor_key = -1) :
    ossl_ctx_thread_stop e t ctx s = s := by
  simp [ossl_ctx_thread_stop, hk]

theorem OPENSSL_thread_stop_off (e : Env) (t : Nat) (s : State)
    (hk : s.destructor_key = -1) : OPENSSL_thread_stop e t s = s := by
  simp [OPENSSL_thread_stop, hk]

theorem thread_exit_off (e : Env) (t : Nat) (s : State)
    (hk : s.destructor_key = -1 ∨ s.tls t = 0) : thread_exit e t s = s := by
  unfold thread_exit
  rw [if_neg]
  rcases hk with hk | hk <;> simp [hk]

theorem PtrInv.tls_zero_of_key {s : State} (h : PtrInv s) (hk : s.destructor_key = -1)
    (t : Nat) : s.tls t = 0 := by
  by_contra hc
  exact (h.tls t hc).1 hk

theorem PtrInv.ossl_init_thread {s : State} (h : PtrInv s) (e : Env) :
    PtrInv (ossl_init_thread e s).1 := by
  unfold InitThread.ossl_init_thread
  split
  · refine ⟨h.nz, h.fresh, h.null, h.reg, h.ran, ?_, ?_, h.recs⟩
    · intro t ht; simp at ht
    · intro t u _ ht; simp at ht
  · exact h

/-- Every call keeps the pointer discipline. -/
theorem PtrInv.keeps_step {s : State} (h : PtrInv s) (op : Op) : PtrInv (step s op) := by
  cases op with
  | init e =>
    simp only [InitThread.step]
    split
    · exact h.ossl_init_thread e
    · exact h
  | start e t index arg handfn => exact (start_spec h e t index arg handfn).1
  | deregister e index => exact (deregister_spec h e index).1
  | threadStop e t =>
    simp only [InitThread.step]
    by_cases hk : s.destructor_key = -1
    · rw [OPENSSL_thread_stop_off e t s hk]; exact h
    · rw [OPENSSL_thread_stop_eq e t s hk]; exact (stop_body_spec h e t).1
  | ctxStop e t ctx =>
    simp only [InitThread.step]
    by_cases hk : s.destructor_key = -1
    · rw [ctx_stop_off e t ctx s hk]; exact h
    · rw [ctx_stop_eq e t ctx s hk]
      exact (init_thread_stop_spec h e ctx (s.tls t) (fun ht => h.live_of_tls ht)).1
  | threadExit e t =>
    simp only [InitThread.step]
    by_cases hk : s.destructor_key = -1 ∨ s.tls t = 0
    · rw [thread_exit_off e t s hk]; exact h
    · rw [thread_exit_eq e t s (fun hc => hk (Or.inl hc)) (fun hc => hk (Or.inr hc))]
      exact (stop_body_spec h e t).1
  | cleanup e => exact (cleanup_spec h e).1

theorem PtrInv.keeps_run {s : State} (h : PtrInv s) (ops : List Op) : PtrInv (run s ops) := by
  induction ops generalizing s with
  | nil => exact h
  | cons op ops ih => exact ih (h.keeps_step op)

theorem Reachable.ptrInv {s : State} (h : Reachable s) : PtrInv s := by
  obtain ⟨ops, rfl⟩ := h
  exact PtrInv.holds_initially.keeps_run ops

theorem Reachable.after_step {s : State} (h : Reachable s) (op : Op) : Reachable (step s op) := by
  obtain ⟨ops, rfl⟩ := h
  exact ⟨ops ++ [op], by simp [InitThread.run, List.foldl_append]⟩

theorem run_append (s : State) (xs ys : List Op) : run s (xs ++ ys) = run (run s xs) ys := by
  simp [InitThread.run, List.foldl_append]

theorem Reachable.after_run {s : State} (h : Reachable s) (ops : List Op) :
    Reachable (run s ops) := by
  obtain ⟨xs, rfl⟩ := h
  exact ⟨xs ++ ops, (run_append _ xs ops).symm⟩

theorem RecInv.recs_initially : RecInv State.init := by
  constructor <;> simp [State.init, State.loc]

theorem RecInv.shrinks {s s' : State} (h : RecInv s) (hs : Shrinks s s') : RecInv s' := by
  obtain ⟨hl, hf, hn⟩ := hs
  refine ⟨?_, ?_, ?_, ?_, ?_, ?_⟩
  · intro a; exact (h.nodup a).sublist ((hl a).map _)
  · intro a b x hx y hy hxy
    exact h.sep a b x ((hl a).subset hx) y ((hl b).subset hy) hxy
  · intro a x hx; rw [hn]; exact h.bound a x ((hl a).subset hx)
  · rw [hf]; exact h.fnodup
  · intro x hx; rw [hn]; rw [hf] at hx; exact h.fbound x hx
  · intro x hx a k hk
    rw [hf] at hx
    exact h.gone x hx a k ((hl a).subset hk)

theorem RecInv.fires {s s' : State} (h : RecInv s) (hs : Fires s s') : RecInv s' := by
  obtain ⟨a, p, hla, hlb, hf, hn⟩ := hs
  have hsub : ∀ b, (s'.loc b).Sublist (s.loc b) := by
    intro b
    by_cases hb : b = a
    · subst hb; rw [hla]; exact List.filter_sublist _
    · rw [hlb b hb]
  have hX : ((s.loc a).filter p).Sublist (s.loc a) := List.filter_sublist _
  refine ⟨?_, ?_, ?_, ?_, ?_, ?_⟩
  · intro b; exact (h.nodup b).sublist ((hsub b).map _)
  · intro b c x hx y hy hxy
    exact h.sep b c x ((hsub b).subset hx) y ((hsub c).subset hy) hxy
  · intro b x hx; rw [hn]; exact h.bound b x ((hsub b).subset hx)
  · rw [hf, List.map_append, List.nodup_append]
    refine ⟨h.fnodup, (h.nodup a).sublist (hX.map _), ?_⟩
    intro r hr1 hr2
    obtain ⟨x, hx, rfl⟩ := List.mem_map.mp hr1
    obtain ⟨y, hy, hyx⟩ := List.mem_map.mp hr2
    exact h.gone x hx a y (hX.subset hy) hyx
  · intro x hx
    rw [hn]
    rw [hf, List.mem_append] at hx
    rcases hx with hx | hx
    · exact h.fbound x hx
    · exact h.bound a x (hX.subset hx)
  · intro x hx b k hk hkx
    rw [hf, List.mem_append] at hx
    rcases hx with hx | hx
    · exact h.gone x hx b k ((hsub b).subset hk) hkx
    · have hxa := hX.subset hx
      have hba : b = a := h.sep b a k ((hsub b).subset hk) x hxa hkx
      subst hba
      rw [hla] at hk
      have hkx2 : k = x :=
        List.inj_on_of_nodup_map (h.nodup b) ((List.filter_sublist _).subset hk) hxa hkx
      subst hkx2
      have h1 := (List.mem_filter.mp hk).2
      have h2 := (List.mem_filter.mp hx).2
      simp [h2] at h1

theorem RecInv.registers {s s' : State} (h : RecInv s) (hs : Registers s s') : RecInv s' := by
  obtain ⟨a, x, hx, hla, hlb, hf, hn⟩ := hs
  have hmem : ∀ b k, k ∈ s'.loc b → (b = a ∧ k = x) ∨ k ∈ s.loc b := by
    intro b k hk
    by_cases hb : b = a
    · subst hb
      rw [hla, List.mem_cons] at hk
      rcases hk with hk | hk
      · exact Or.inl ⟨rfl, hk⟩
      · exact Or.inr hk
    · rw [hlb b hb] at hk; exact Or.inr hk
  refine ⟨?_, ?_, ?_, ?_, ?_, ?_⟩
  · intro b
    by_cases hb : b = a
    · subst hb
      rw [hla, List.map_cons, List.nodup_cons]
      refine ⟨?_, h.nodup b⟩
      intro hc
      obtain ⟨y, hy, hyx⟩ := List.mem_map.mp hc
      have := h.bound b y hy
      omega
    · rw [hlb b hb]; exact h.nodup b
  · intro b c y hy z hz hyz
    rcases hmem b y hy with ⟨hb, hyx⟩ | hy2
    · rcases hmem c z hz with ⟨hc, _⟩ | hz2
      · rw [hb, hc]
      · have := h.bound c z hz2
        rw [hyx] at hyz; omega
    · rcases hmem c z hz with ⟨_, hzx⟩ | hz2
      · have := h.bound b y hy2
        rw [hzx] at hyz; omega
      · exact h.sep b c y hy2 z hz2 hyz
  · intro b y hy
    rw [hn]
    rcases hmem b y hy with ⟨_, hyx⟩ | hy2
    · rw [hyx, hx]; omega
    · have := h.bound b y hy2; omega
  · rw [hf]; exact h.fnodup
  · intro y hy; rw [hf] at hy; rw [hn]; have := h.fbound y hy; omega
  · intro y hy b k hk hky
    rw [hf] at hy
    rcases hmem b k hk with ⟨_, hkx⟩ | hk2
    · have := h.fbound y hy
      rw [hkx] at hky; omega
    · exact h.gone y hy b k hk2 hky

theorem RecInv.recs_recStep {s s' : State} (h : RecInv s) (hs : RecStep s s') : RecInv s' := by
  rcases hs with hs | hs | hs
  · exact h.shrinks hs
  · exact h.fires hs
  · exact h.registers hs

theorem Absent.absent_recStep {r : Nat} {s s' : State} (h : Absent r s) (hs : RecStep s s') :
    Absent r s' := by
  obtain ⟨h1, h2, h3⟩ := h
  rcases hs with ⟨hl, hf, hn⟩ | ⟨a, p, hla, hlb, hf, hn⟩ | ⟨a, x, hx, hla, hlb, hf, hn⟩
  · refine ⟨by omega, by rw [hf]; exact h2, ?_⟩
    intro b k hk; exact h3 b k ((hl b).subset hk)
  · refine ⟨by omega, ?_, ?_⟩
    · intro k hk
      rw [hf, List.mem_append] at hk
      rcases hk with hk | hk
      · exact h2 k hk
      · exact h3 a k ((List.filter_sublist _).subset hk)
    · intro b k hk
      by_cases hb : b = a
      · subst hb; rw [hla] at hk
        exact h3 b k ((List.filter_sublist _).subset hk)
      · rw [hlb b hb] at hk; exact h3 b k hk
  · refine ⟨by omega, by rw [hf]; exact h2, ?_⟩
    intro b k hk
    by_cases hb : b = a
    · subst hb
      rw [hla, List.mem_cons] at hk
      rcases hk with hk | hk
      · rw [hk, hx]; omega
      · exact h3 b k hk
    · rw [hlb b hb] at hk; exact h3 b k hk

theorem NoOld.old_recStep {K n m : Nat} {s s' : State} (h : NoOld K n m s) (hs : RecStep s s') :
    NoOld K n m s' := by
  obtain ⟨h1, h2, h3, h4⟩ := h
  rcases hs with ⟨hl, hf, hn⟩ | ⟨a, p, hla, hlb, hf, hn⟩ | ⟨a, x, hx, hla, hlb, hf, hn⟩
  · refine ⟨by omega, by rw [hf]; exact h2, ?_, by rw [hf]; exact h4⟩
    intro b k hk; exact h3 b k ((hl b).subset hk)
  · refine ⟨by omega, by rw [hf, List.length_append]; omega, ?_, ?_⟩
    · intro b k hk
      by_cases hb : b = a
      · subst hb; rw [hla] at hk
        exact h3 b k ((List.filter_sublist _).subset hk)
      · rw [hlb b hb] at hk; exact h3 b k hk
    · intro k hk
      rw [hf, List.drop_append_of_le_length h2, List.mem_append] at hk
      rcases hk with hk | hk
      · exact h4 k hk
      · exact h3 a k ((List.filter_sublist _).subset hk)
  · refine ⟨by omega, by rw [hf]; exact h2, ?_, by rw [hf]; exact h4⟩
    intro b k hk hkK
    by_cases hb : b = a
    · subst hb
      rw [hla, List.mem_cons] at hk
      rcases hk with hk | hk
      · rw [hk, hx]; exact h1
      · exact h3 b k hk hkK
    · rw [hlb b hb] at hk; exact h3 b k hk hkK

theorem Shrinks.rfl_of_eq {s s' : State} (hh : ∀ b, s'.loc b = s.loc b)
    (hf : s'.fired = s.fired) (hn : s'.nextRec = s.nextRec) : Shrinks s s' :=
  ⟨fun b => by rw [hh b], hf, hn⟩

theorem stop_body_fires {s : State} (h : PtrInv s) (e : Env) (t : Nat) :
    Fires s (stop_body e t s) := by
  obtain ⟨-, f1, -, -, -, f5, -, f7, -, -⟩ := stop_body_spec h e t
  refine ⟨s.tls t, fun _ => true, ?_, ?_, ?_, f5⟩
  · simp only [State.loc, f7 (s.tls t)]
    by_cases ht : s.tls t = 0
    · rw [ht, h.null]; simp
    · simp [ht]
  · intro b hb
    simp only [State.loc, f7 b]
    rw [if_neg (fun hc => hb hc.1)]
  · rw [f1]; simp

/-- Record-level effect of every call made in a state that keeps the pointer
discipline. -/
theorem step_rec {s : State} (h : PtrInv s) (op : Op) : RecStep s (step s op) := by
  cases op with
  | init e =>
    left
    simp only [step]
    split
    · unfold ossl_init_thread
      split
      · exact Shrinks.rfl_of_eq (fun _ => rfl) rfl rfl
      · exact Shrinks.rfl_of_eq (fun _ => rfl) rfl rfl
    · exact Shrinks.rfl_of_eq (fun _ => rfl) rfl rfl
  | start e t index arg handfn =>
    obtain ⟨-, s1, -, -, -, s5, s6⟩ := start_spec h e t index arg handfn
    simp only [step]
    cases hr : (ossl_init_thread_start e t index arg handfn s).2 with
    | false =>
      obtain ⟨a1, a2⟩ := s5 hr
      exact Or.inl (Shrinks.rfl_of_eq a2 s1 a1)
    | true =>
      obtain ⟨-, -, -, b4, b5, b6, -, b8⟩ := s6 hr
      right; right
      refine ⟨_, ⟨s.nextRec, index, arg, handfn⟩, rfl, ?_, b6, s1, b4⟩
      rw [b5, b8]
  | deregister e index =>
    obtain ⟨-, d1, -, -, -, d5, -, -, -, d9, -, -⟩ := deregister_spec h e index
    left
    refine ⟨fun b => ?_, d1, d5⟩
    show ((ossl_init_thread_deregister e index s).1.loc b).Sublist (s.loc b)
    rw [d9 b]; exact List.filter_sublist _
  | threadStop e t =>
    simp only [step]
    by_cases hk : s.destructor_key = -1
    · rw [OPENSSL_thread_stop_off e t s hk]
      exact Or.inl (Shrinks.rfl_of_eq (fun _ => rfl) rfl rfl)
    · rw [OPENSSL_thread_stop_eq e t s hk]
      exact Or.inr (Or.inl (stop_body_fires h e t))
  | ctxStop e t ctx =>
    simp only [step]
    by_cases hk : s.destructor_key = -1
    · rw [ctx_stop_off e t ctx s hk]
      exact Or.inl (Shrinks.rfl_of_eq (fun _ => rfl) rfl rfl)
    · rw [ctx_stop_eq e t ctx s hk]
      obtain ⟨-, c1, c2, c3, -, -, -, -, c8, -, -⟩ :=
        init_thread_stop_spec h e ctx (s.tls t) (fun ht => h.live_of_tls ht)
      right; left
      refine ⟨s.tls t, fun c => selected ctx c, c2, ?_, c1, c8⟩
      intro b hb
      simp only [State.loc, c3 b hb]
  | threadExit e t =>
    simp only [step]
    by_cases hk : s.destructor_key = -1 ∨ s.tls t = 0
    · rw [thread_exit_off e t s hk]
      exact Or.inl (Shrinks.rfl_of_eq (fun _ => rfl) rfl rfl)
    · rw [thread_exit_eq e t s (fun hc => hk (Or.inl hc)) (fun hc => hk (Or.inr hc))]
      exact Or.inr (Or.inl (stop_body_fires h e t))
  | cleanup e =>
    obtain ⟨-, c1, -, -, -, -, c6, -, -, c9, -⟩ := cleanup_spec h e
    left
    exact ⟨fun b => by rw [show (step s (Op.cleanup e)).loc b = [] from c9 b]; exact List.nil_sublist _,
      c1, c6⟩

theorem RecInv.recs_run {s : State} (hp : PtrInv s) (h : RecInv s) (ops : List Op) :
    RecInv (run s ops) := by
  induction ops generalizing s with
  | nil => exact h
  | cons op ops ih => exact ih (hp.keeps_step op) (h.recs_recStep (step_rec hp op))

theorem Absent.absent_run {r : Nat} {s : State} (hp : PtrInv s) (h : Absent r s) (ops : List Op) :
    Absent r (run s ops) := by
  induction ops generalizing s with
  | nil => exact h
  | cons op ops ih => exact ih (hp.keeps_step op) (h.absent_recStep (step_rec hp op))

theorem NoOld.old_run {K n m : Nat} {s : State} (hp : PtrInv s) (h : NoOld K n m s)
    (ops : List Op) : NoOld K n m (run s ops) := by
  induction ops generalizing s with
  | nil => exact h
  | cons op ops ih => exact ih (hp.keeps_step op) (h.old_recStep (step_rec hp op))

theorem Reachable.recInv {s : State} (h : Reachable s) : RecInv s := by
  obtain ⟨ops, rfl⟩ := h
  exact RecInv.recs_initially.recs_run PtrInv.holds_initially ops

/-! ## Claims -/

theorem firedSince_append (s' : State) (l x : List THREAD_EVENT_HANDLER)
    (h : s'.fired = l ++ x) : s'.firedSince l.length = x := by
  simp [State.firedSince, h]

theorem start_other {s : State} (h : PtrInv s) (e : Env) (t index arg handfn : Nat)
    (hok : (ossl_init_thread_start e t index arg handfn s).2 = true) (u : Nat) (hu : u ≠ t) :
    (ossl_init_thread_start e t index arg handfn s).1.tls u = s.tls u ∧
    (ossl_init_thread_start e t index arg handfn s).1.loc
        ((ossl_init_thread_start e t index arg handfn s).1.tls u) = s.loc (s.tls u) := by
  obtain ⟨p, -, -, -, s4, -, s6⟩ := start_spec h e t index arg handfn
  obtain ⟨-, b2, -, -, -, b6, -, -⟩ := s6 hok
  have htu := s4 u hu
  refine ⟨htu, ?_⟩
  rw [htu]
  apply b6
  intro hc
  have h1 : (ossl_init_thread_start e t index arg handfn s).1.tls t =
      (ossl_init_thread_start e t index arg handfn s).1.tls u := by rw [htu, hc]
  exact hu (p.inj t u h1 b2).symm

theorem startAll_spec {s : State} (h : PtrInv s) (cs : List StartCall)
    (hok : (startAll s cs).2 = true) :
    PtrInv (startAll s cs).1 ∧
    (startAll s cs).1.fired = s.fired ∧
    ∀ t, ((startAll s cs).1.loc ((startAll s cs).1.tls t)).map THREAD_EVENT_HANDLER.call =
      ((cs.filter (fun c => decide (c.t = t))).reverse.map (fun c => (c.handfn, c.arg))) ++
        (s.loc (s.tls t)).map THREAD_EVENT_HANDLER.call := by
  induction cs generalizing s with
  | nil => simp [startAll, h]
  | cons c cs ih =>
    simp only [startAll, Bool.and_eq_true] at hok ⊢
    obtain ⟨hq, hz⟩ := hok
    obtain ⟨p, s1, -, -, -, -, s6⟩ := start_spec h c.e c.t c.index c.arg c.handfn
    obtain ⟨-, -, -, -, b5, -, -, -⟩ := s6 hq
    obtain ⟨i1, i2, i3⟩ := ih p hz
    refine ⟨i1, i2.trans s1, fun t => ?_⟩
    rw [i3 t]
    by_cases hct : c.t = t
    · subst hct
      rw [b5]
      simp [List.filter_cons, THREAD_EVENT_HANDLER.call]
    · have := (start_other h c.e c.t c.index c.arg c.handfn hq t (Ne.symm hct)).2
      rw [this]
      simp [List.filter_cons, hct]

/-- C1: after any sequence of successful `ossl_init_thread_start` calls, a
following `OPENSSL_thread_stop` on thread `t` invokes the callbacks that `t`
registered in the reverse of their registration order (followed by those of
the records its slot held before). -/
theorem C1_thread_stop_fires_in_reverse_order (s : State) (hs : Reachable s)
    (cs : List StartCall) (hok : (startAll s cs).2 = true) (e : Env) (t : Nat) :
    ((OPENSSL_thread_stop e t (startAll s cs).1).firedSince s.fired.length).map
        THREAD_EVENT_HANDLER.call =
      ((cs.filter (fun c => decide (c.t = t))).reverse.map (fun c => (c.handfn, c.arg))) ++
        (s.loc (s.tls t)).map THREAD_EVENT_HANDLER.call := by
  obtain ⟨p, hf, hl⟩ := startAll_spec hs.ptrInv cs hok
  rw [← hl t]
  by_cases hk : (startAll s cs).1.destructor_key = -1
  · rw [OPENSSL_thread_stop_off e t _ hk, p.tls_zero_of_key hk t, p.loc_null]
    simp [State.firedSince, hf]
  · rw [OPENSSL_thread_stop_eq e t _ hk]
    obtain ⟨-, f1, -⟩ := stop_body_spec p e t
    rw [hf] at f1
    rw [firedSince_append _ _ _ f1]

/-- C1, witness: thread 1 registers callback 30 and then callback 31, both
with argument 20; stopping the thread invokes 31 before 30. -/
theorem C1_thread_stop_fires_in_reverse_order_witness :
    ((OPENSSL_thread_stop Env.ok 1
        (startAll (run State.init [Op.init Env.ok])
          [⟨Env.ok, 1, 10, 20, 30⟩, ⟨Env.ok, 1, 11, 20, 31⟩]).1).firedSince
        (run State.init [Op.init Env.ok]).fired.length).map THREAD_EVENT_HANDLER.call =
      [(31, 20), (30, 20)] :=
  C1_thread_stop_fires_in_reverse_order (run State.init [Op.init Env.ok])
    ⟨[Op.init Env.ok], rfl⟩ [⟨Env.ok, 1, 10, 20, 30⟩, ⟨Env.ok, 1, 11, 20, 31⟩] (by decide)
    Env.ok 1

/-- The invoked records and the list left behind by `init_thread_stop`, with
no assumption on the slot address. -/
theorem init_thread_stop_effect {s : State} (h : PtrInv s) (e : Env) (arg hands : Nat) :
    (init_thread_stop e arg hands s).fired =
      s.fired ++ (s.loc hands).filter (fun c => selected arg c) ∧
    (init_thread_stop e arg hands s).loc hands =
      (s.loc hands).filter (fun c => !selected arg c) := by
  by_cases h0 : hands = 0
  · subst h0
    simp [init_thread_stop_null, h.loc_null]
  · cases hr : (get_global_tevent_register e s).2 with
    | none =>
      have hsnd := h.get_global_snd e
      rw [hr] at hsnd
      have hl : s.loc hands = [] := by
        have := (h.get_global e).loc_of_glob_none hsnd.symm hands
        simpa using this
      rw [init_thread_stop_none e arg s h0 hr]
      simp [hl]
    | some sk =>
      rw [init_thread_stop_some e arg s h0 hr]
      simp [State.loc, State.store]

theorem PtrInv.live_of_loc {s : State} (h : PtrInv s) {a : Nat} (ha : s.loc a ≠ []) :
    (s.heap a).isSome = true := by
  obtain ⟨sk, hsk, hm⟩ := h.recs a ha
  exact (h.reg sk hsk).2.2 a hm

/-- C2: `init_thread_stop(f, hands)` invokes, in list order, exactly the
records of the slot whose `arg` equals `f` (all of them when `f` is null),
leaves exactly the other records in the slot in their original order, and a
record left behind is invoked by a later stop whose filter is null or equals
the record's `arg`. -/
theorem C2_init_thread_stop_fires_matching_records (s : State) (hs : Reachable s)
    (e : Env) (f hands : Nat) :
    (init_thread_stop e f hands s).firedSince s.fired.length =
      (s.loc hands).filter (fun c => decide (f = 0 ∨ c.arg = f)) ∧
    (init_thread_stop e f hands s).loc hands =
      (s.loc hands).filter (fun c => !decide (f = 0 ∨ c.arg = f)) ∧
    ∀ h ∈ (init_thread_stop e f hands s).loc hands, ∀ (e2 : Env) (g : Nat),
      g = 0 ∨ g = h.arg →
      h ∈ (init_thread_stop e2 g hands (init_thread_stop e f hands s)).firedSince
        (init_thread_stop e f hands s).fired.length := by
  have hp := hs.ptrInv
  obtain ⟨e1, e2'⟩ := init_thread_stop_effect hp e f hands
  refine ⟨firedSince_append _ _ _ e1, e2', ?_⟩
  intro h hh e2 g hg
  have hne : s.loc hands ≠ [] := by
    intro hc
    rw [e2', hc] at hh
    simp at hh
  have hp2 := (init_thread_stop_spec hp e f hands (fun _ => hp.live_of_loc hne)).1
  obtain ⟨f1, -⟩ := init_thread_stop_effect hp2 e2 g hands
  rw [firedSince_append _ _ _ f1, List.mem_filter]
  refine ⟨hh, ?_⟩
  unfold selected
  rw [decide_eq_true_iff]
  rcases hg with hg | hg
  · exact Or.inl hg
  · exact Or.inr hg.symm

/-- C2, witness: thread 1 holds a record with argument 21 on top of one with
argument 20; a stop filtered by 20 invokes only the record with argument 20,
and the record with argument 21 stays in the slot. -/
theorem C2_init_thread_stop_fires_matching_records_witness :
    (init_thread_stop Env.ok 20 1
        (run State.init [Op.init Env.ok, Op.start Env.ok 1 10 20 30,
          Op.start Env.ok 1 11 21 31])).firedSince 0 = [⟨0, 10, 20, 30⟩] ∧
    (init_thread_stop Env.ok 20 1
        (run State.init [Op.init Env.ok, Op.start Env.ok 1 10 20 30,
          Op.start Env.ok 1 11 21 31])).loc 1 = [⟨1, 11, 21, 31⟩] :=
  ⟨(C2_init_thread_stop_fires_matching_records _ ⟨[Op.init Env.ok,
      Op.start Env.ok 1 10 20 30, Op.start Env.ok 1 11 21 31], rfl⟩ Env.ok 20 1).1,
   (C2_init_thread_stop_fires_matching_records _ ⟨[Op.init Env.ok,
      Op.start Env.ok 1 10 20 30, Op.start Env.ok 1 11 21 31], rfl⟩ Env.ok 20 1).2.1⟩

theorem not_dropped_iff (K : Nat) (c : THREAD_EVENT_HANDLER) :
    (!dropped K false c) = decide (c.index ≠ K) := by
  unfold dropped
  by_cases h : c.index = K <;> simp [h]

theorem deregister_loc {s : State} (h : PtrInv s) (e : Env) (K : Nat) (b : Nat) :
    (ossl_init_thread_deregister e K s).1.loc b =
      (s.loc b).filter (fun c => decide (c.index ≠ K)) := by
  obtain ⟨-, -, -, -, -, -, -, -, -, d9, -, -⟩ := deregister_spec h e K
  rw [d9 b]
  exact List.filter_congr (fun c _ => not_dropped_iff K c)

/-- C3: after `ossl_init_thread_deregister(K)` has returned (with success or
not), no later call, in particular no `OPENSSL_thread_stop`, thread exit or
context stop of any thread, invokes a record that carries index `K` and was
registered before the deregister call. -/
theorem C3_deregistered_records_are_not_fired (s : State) (hs : Reachable s) (e : Env)
    (K : Nat) (ops : List Op) :
    ∀ h ∈ (run (ossl_init_thread_deregister e K s).1 ops).firedSince s.fired.length,
      ¬ (h.index = K ∧ h.rid < s.nextRec) := by
  have hp := hs.ptrInv
  obtain ⟨p, d1, -, -, -, d5, -, -, -, -, -, -⟩ := deregister_spec hp e K
  have h0 : NoOld K s.nextRec s.fired.length (ossl_init_thread_deregister e K s).1 := by
    refine ⟨by rw [d5], by rw [d1], ?_, ?_⟩
    · intro a h hh hK
      rw [deregister_loc hp e K a, List.mem_filter] at hh
      simp [hK] at hh
    · rw [d1]; simp
  have h1 := h0.old_run p ops
  intro h hh hc
  have := h1.2.2.2 h hh hc.1
  omega

/-- C3, witness: thread 1 registers records with index 10 and index 11, index
10 is deregistered, and the thread is stopped; the record the stop invokes is
not one with index 10 from before the deregister call. -/
theorem C3_deregistered_records_are_not_fired_witness :
    ¬ ((⟨1, 11, 20, 31⟩ : THREAD_EVENT_HANDLER).index = 10 ∧
      (⟨1, 11, 20, 31⟩ : THREAD_EVENT_HANDLER).rid <
        (run State.init [Op.init Env.ok, Op.start Env.ok 1 10 20 30,
          Op.start Env.ok 1 11 20 31]).nextRec) :=
  C3_deregistered_records_are_not_fired
    (run State.init [Op.init Env.ok, Op.start Env.ok 1 10 20 30, Op.start Env.ok 1 11 20 31])
    ⟨[Op.init Env.ok, Op.start Env.ok 1 10 20 30, Op.start Env.ok 1 11 20 31], rfl⟩
    Env.ok 10 [Op.threadStop Env.ok 1] ⟨1, 11, 20, 31⟩ (by decide)

/-- C4: with the registry available, `ossl_init_thread_deregister(K)` returns
1, invokes no callback, leaves the registry's slot sequence and every
thread's slot reference unchanged, and replaces the list of every registered
slot, whichever thread owns it, by that list without the records whose index
is `K`, the others in their original order. -/
theorem C4_deregister_removes_exactly_the_index (s : State) (hs : Reachable s)
    (sk : List Nat) (hreg : s.glob_tevent_reg = some sk) (e : Env) (K : Nat) :
    (ossl_init_thread_deregister e K s).2 = true ∧
    (ossl_init_thread_deregister e K s).1.fired = s.fired ∧
    (ossl_init_thread_deregister e K s).1.glob_tevent_reg = some sk ∧
    (∀ a ∈ sk, (ossl_init_thread_deregister e K s).1.loc a =
      (s.loc a).filter (fun c => decide (c.index ≠ K))) ∧
    (∀ t, (ossl_init_thread_deregister e K s).1.tls t = s.tls t ∧
      (ossl_init_thread_deregister e K s).1.loc
          ((ossl_init_thread_deregister e K s).1.tls t) =
        (s.loc (s.tls t)).filter (fun c => decide (c.index ≠ K))) := by
  have hp := hs.ptrInv
  obtain ⟨-, d1, d2, -, -, -, -, -, d8, -, -, d11⟩ := deregister_spec hp e K
  have hran : s.once ≠ none := by rw [hp.ran sk hreg]; simp
  rw [hp.get_global_ran e hran] at d8 d11
  simp only at d8 d11
  refine ⟨by rw [d11, hreg]; rfl, d1, by rw [d8, hreg], fun a _ => deregister_loc hp e K a, ?_⟩
  intro t
  refine ⟨by rw [d2], ?_⟩
  rw [d2]
  exact deregister_loc hp e K _

/-- C4, witness: threads 1 and 2 hold records with index 10, thread 1 also
one with index 11; deregistering 10 leaves thread 1 with the record of index
11 only. -/
theorem C4_deregister_removes_exactly_the_index_witness :
    (ossl_init_thread_deregister Env.ok 10
      (run State.init [Op.init Env.ok, Op.start Env.ok 1 10 20 30,
        Op.start Env.ok 1 11 20 31, Op.start Env.ok 2 10 21 32])).1.loc 1 =
      [⟨1, 11, 20, 31⟩] :=
  (C4_deregister_removes_exactly_the_index _
    ⟨[Op.init Env.ok, Op.start Env.ok 1 10 20 30, Op.start Env.ok 1 11 20 31,
      Op.start Env.ok 2 10 21 32], rfl⟩ [1, 2] (by decide) Env.ok 10).2.2.2.1 1 (by decide)

/-- C5: in every sequential run each record is invoked at most once: the log
holds no allocation identity twice, an invoked record is in no slot any more,
two records in slots never share an identity, and a record that
`ossl_init_thread_deregister` removed from a slot is not in the log of any
continuation of the run. -/
theorem C5_each_record_fires_at_most_once (ops : List Op) :
    ((run State.init ops).fired.map (fun h => h.rid)).Nodup ∧
    (∀ h ∈ (run State.init ops).fired, ∀ a, ∀ k ∈ (run State.init ops).loc a,
      k.rid ≠ h.rid) ∧
    (∀ a b, ∀ h ∈ (run State.init ops).loc a, ∀ k ∈ (run State.init ops).loc b,
      h.rid = k.rid → a = b ∧ h = k) ∧
    (∀ (e : Env) (K a : Nat), ∀ h ∈ (run State.init ops).loc a,
      h ∉ (ossl_init_thread_deregister e K (run State.init ops)).1.loc a →
      ∀ (more : List Op),
        ∀ k ∈ (run (ossl_init_thread_deregister e K (run State.init ops)).1 more).fired,
          k.rid ≠ h.rid) := by
  have hr : Reachable (run State.init ops) := ⟨ops, rfl⟩
  have hp := hr.ptrInv
  have hi := hr.recInv
  refine ⟨hi.fnodup, hi.gone, ?_, ?_⟩
  · intro a b h hh k hk hhk
    have hab := hi.sep a b h hh k hk hhk
    subst hab
    exact ⟨rfl, List.inj_on_of_nodup_map (hi.nodup a) hh hk hhk⟩
  · intro e K a h hh hgone more
    obtain ⟨p, d1, -, -, -, d5, -, -, -, -, -, -⟩ := deregister_spec hp e K
    have habs : Absent h.rid (ossl_init_thread_deregister e K (run State.init ops)).1 := by
      refine ⟨by rw [d5]; exact hi.bound a h hh, ?_, ?_⟩
      · intro k hk hkh
        rw [d1] at hk
        exact hi.gone k hk a h hh hkh.symm
      · intro b k hk hkh
        rw [deregister_loc hp e K b] at hk
        have hk2 := (List.mem_filter.mp hk).1
        have hba := hi.sep b a k hk2 h hh hkh
        subst hba
        have hkh2 : k = h := List.inj_on_of_nodup_map (hi.nodup b) hk2 hh hkh
        subst hkh2
        rw [deregister_loc hp e K b] at hgone
        exact hgone hk
    exact (habs.absent_run p more).2.1

/-- C6: thread `T`, which holds no slot, registers `F1` under key `K1` and
then `F2` under key `K2`, both with argument `C1`; key `K1` is deregistered;
`T` exits.  Then the only invocation made is `F2(C1)`, made once, the record
of `F1` is never invoked, and `T`'s slot is released and no longer in the
registry. -/
theorem C6_end_to_end_scenario (s : State) (hs : Reachable s) (T K1 K2 C1 F1 F2 : Nat)
    (hK : K1 ≠ K2) (hT : s.tls T = 0) (e1 e2 e3 e4 : Env)
    (h1 : (ossl_init_thread_start e1 T K1 C1 F1 s).2 = true)
    (h2 : (ossl_init_thread_start e2 T K2 C1 F2
      (ossl_init_thread_start e1 T K1 C1 F1 s).1).2 = true) :
    (thread_exit e4 T (ossl_init_thread_deregister e3 K1
      (ossl_init_thread_start e2 T K2 C1 F2
        (ossl_init_thread_start e1 T K1 C1 F1 s).1).1).1).firedSince s.fired.length =
      [⟨s.nextRec + 1, K2, C1, F2⟩] ∧
    (∀ h ∈ (thread_exit e4 T (ossl_init_thread_deregister e3 K1
      (ossl_init_thread_start e2 T K2 C1 F2
        (ossl_init_thread_start e1 T K1 C1 F1 s).1).1).1).fired, h.rid ≠ s.nextRec) ∧
    (∃ sk, (thread_exit e4 T (ossl_init_thread_deregister e3 K1
      (ossl_init_thread_start e2 T K2 C1 F2
        (ossl_init_thread_start e1 T K1 C1 F1 s).1).1).1).glob_tevent_reg = some sk ∧
      (ossl_init_thread_start e1 T K1 C1 F1 s).1.tls T ∉ sk) ∧
    (thread_exit e4 T (ossl_init_thread_deregister e3 K1
      (ossl_init_thread_start e2 T K2 C1 F2
        (ossl_init_thread_start e1 T K1 C1 F1 s).1).1).1).heap
      ((ossl_init_thread_start e1 T K1 C1 F1 s).1.tls T) = none ∧
    (thread_exit e4 T (ossl_init_thread_deregister e3 K1
      (ossl_init_thread_start e2 T K2 C1 F2
        (ossl_init_thread_start e1 T K1 C1 F1 s).1).1).1).tls T = 0 := by
  have hp := hs.ptrInv
  have hi := hs.recInv
  obtain ⟨p1, f1, k1, -, -, -, a6⟩ := start_spec hp e1 T K1 C1 F1
  obtain ⟨hk, t1, -, n1, l1, -, -, -⟩ := a6 h1
  generalize ossl_init_thread_start e1 T K1 C1 F1 s = q1 at *
  obtain ⟨p2, f2, k2, -, -, -, b6⟩ := start_spec p1 e2 T K2 C1 F2
  obtain ⟨-, t2, t2', n2, l2, -, -, -⟩ := b6 h2
  have t2e := t2' t1
  generalize ossl_init_thread_start e2 T K2 C1 F2 q1.1 = q2 at *
  obtain ⟨p3, f3, d2, k3, -, -, -, -, -, -, -, -⟩ := deregister_spec p2 e3 K1
  have l3 := deregister_loc p2 e3 K1 (q2.1.tls T)
  generalize ossl_init_thread_deregister e3 K1 q2.1 = q3 at *
  have hk3 : q3.1.destructor_key ≠ -1 := by rw [k3, k2, k1]; exact hk
  have ht3 : q3.1.tls T ≠ 0 := by rw [d2]; exact t2
  rw [thread_exit_eq e4 T q3.1 hk3 ht3]
  obtain ⟨p4, g1, g2, -, -, -, -, g7, g8, -⟩ := stop_body_spec p3 e4 T
  have hloc : q3.1.loc (q3.1.tls T) = [⟨s.nextRec + 1, K2, C1, F2⟩] := by
    rw [d2, l3, l2, l1, hT, hp.loc_null, n1]
    simp [List.filter_cons, hK, Ne.symm hK]
  have hfired : (stop_body e4 T q3.1).fired = s.fired ++ [⟨s.nextRec + 1, K2, C1, F2⟩] := by
    rw [g1, hloc, f3, f2, f1]
  have hslot : q3.1.tls T = q1.1.tls T := by rw [d2, t2e]
  refine ⟨firedSince_append _ _ _ hfired, ?_, ?_, ?_, ?_⟩
  · intro h hh
    rw [hfired, List.mem_append] at hh
    rcases hh with hh | hh
    · have := hi.fbound h hh; omega
    · simp only [List.mem_singleton] at hh
      rw [hh]; simp
  · obtain ⟨-, sk, hsk, hm⟩ := p3.tls T ht3
    have hran : q3.1.once ≠ none := by rw [p3.ran sk hsk]; simp
    obtain ⟨-, o2⟩ := g8 hran
    refine ⟨sk.erase (q3.1.tls T), by rw [o2, hsk]; rfl, ?_⟩
    rw [← hslot]
    exact List.Nodup.not_mem_erase (p3.reg sk hsk).2.1
  · rw [g7, ← hslot]; simp [ht3]
  · rw [g2]; simp

/-- C6, witness: the scenario with thread 7, keys 1 and 2, context 5 and
callbacks 100 and 200, run right after library initialisation. -/
theorem C6_end_to_end_scenario_witness :
    (thread_exit Env.ok 7 (ossl_init_thread_deregister Env.ok 1
      (ossl_init_thread_start Env.ok 7 2 5 200
        (ossl_init_thread_start Env.ok 7 1 5 100
          (run State.init [Op.init Env.ok])).1).1).1).firedSince
        (run State.init [Op.init Env.ok]).fired.length = [⟨1, 2, 5, 200⟩] :=
  (C6_end_to_end_scenario (run State.init [Op.init Env.ok]) ⟨[Op.init Env.ok], rfl⟩
    7 1 2 5 100 200 (by decide) (by decide) Env.ok Env.ok Env.ok Env.ok
    (by decide) (by decide)).1

/-- C7, counterexample: threads 1, 2 and 3 each hold one registered record and
the registry is available; after `ossl_cleanup_thread` the log is empty, so
none of the three callbacks has been invoked. -/
theorem C7_teardown_fires_every_handler_counterexample :
    (run State.init [Op.init Env.ok, Op.start Env.ok 1 10 20 30,
      Op.start Env.ok 2 11 21 31, Op.start Env.ok 3 12 22 32]).glob_tevent_reg =
        some [1, 2, 3] ∧
    (run State.init [Op.init Env.ok, Op.start Env.ok 1 10 20 30,
      Op.start Env.ok 2 11 21 31, Op.start Env.ok 3 12 22 32]).loc 1 = [⟨0, 10, 20, 30⟩] ∧
    (run State.init [Op.init Env.ok, Op.start Env.ok 1 10 20 30,
      Op.start Env.ok 2 11 21 31, Op.start Env.ok 3 12 22 32]).loc 2 = [⟨1, 11, 21, 31⟩] ∧
    (run State.init [Op.init Env.ok, Op.start Env.ok 1 10 20 30,
      Op.start Env.ok 2 11 21 31, Op.start Env.ok 3 12 22 32]).loc 3 = [⟨2, 12, 22, 32⟩] ∧
    (ossl_cleanup_thread Env.ok (run State.init [Op.init Env.ok,
      Op.start Env.ok 1 10 20 30, Op.start Env.ok 2 11 21 31,
      Op.start Env.ok 3 12 22 32])).fired = [] := by
  decide

theorem deregister_sweep_append (index : Nat) (all : Bool) (pre rest : List Nat)
    (s : State) (h0 : 0 ∉ pre) :
    deregister_sweep index all (pre ++ rest) s =
      deregister_sweep index all rest (deregister_sweep index all pre s).1 := by
  induction pre generalizing s with
  | nil => rfl
  | cons a pre ih =>
    have ha : a ≠ 0 := fun hc => h0 (by simp [hc])
    have hp : 0 ∉ pre := fun hc => h0 (by simp [hc])
    simp only [List.cons_append, deregister_sweep, if_neg ha]
    exact ih _ hp

/-- With `all` set the inner loop of `init_thread_deregister` unlinks every
record of the list it is given. -/
theorem deregister_walk_all (index : Nat) (l : List THREAD_EVENT_HANDLER) :
    deregister_walk index true [] l = [] := by
  rw [deregister_walk_eq, List.nil_append, List.filter_eq_nil_iff]
  intro c _
  simp [dropped]

/-- The teardown sweep over `pre ++ hands :: post` frees `hands` in the state
the inner loop has left, and goes on with `post`. -/
theorem deregister_sweep_split (index : Nat) (pre post : List Nat) (hands : Nat)
    (s : State) (h0 : 0 ∉ pre) (hh : hands ≠ 0) :
    deregister_sweep index true (pre ++ hands :: post) s =
      deregister_sweep index true post ((sweep_emptied index true pre hands s).free hands) := by
  rw [deregister_sweep_append index true pre (hands :: post) s h0]
  simp only [deregister_sweep, if_neg hh, if_true, sweep_emptied]

/-- One entry of the registry's sequence during teardown: the sweep frees the
slot in the state its inner loop has left; the inner loop was run on the
whole list the slot held before teardown; that state has the slot allocated
and without any record, and its log is the log before teardown. -/
theorem teardown_entry {s : State} (hp : PtrInv s) {sk : List Nat}
    (hready : s.glob_tevent_reg = some sk) (pre post : List Nat) (a : Nat)
    (hsk : sk = pre ++ a :: post) :
    deregister_sweep 0 true sk s.withoutReg =
      deregister_sweep 0 true post ((sweep_emptied 0 true pre a s.withoutReg).free a) ∧
    (deregister_sweep 0 true pre s.withoutReg).1.loc a = s.loc a ∧
    (s.heap a).isSome = true ∧
    (sweep_emptied 0 true pre a s.withoutReg).heap a = some [] ∧
    (sweep_emptied 0 true pre a s.withoutReg).fired = s.fired := by
  obtain ⟨r0, rnd, rlive⟩ := hp.reg sk hready
  have h0pre : 0 ∉ pre := fun hc => r0 (by rw [hsk]; simp [hc])
  have ha0 : a ≠ 0 := fun hc => r0 (by rw [hsk]; simp [hc])
  have hapre : a ∉ pre := by
    intro hc
    rw [hsk] at rnd
    have := (List.nodup_append.mp rnd).2.2
    exact this hc (List.mem_cons_self a post)
  obtain ⟨-, -, -, -, -, -, -, -, i9, i10⟩ :=
    deregister_sweep_spec 0 true pre s.withoutReg h0pre
  have hloc : (deregister_sweep 0 true pre s.withoutReg).1.loc a = s.loc a := by
    simp only [State.loc]
    rw [i10 a, if_neg hapre]
    rfl
  refine ⟨?_, hloc, rlive a (by rw [hsk]; simp), ?_, ?_⟩
  · rw [hsk]
    exact deregister_sweep_split 0 pre post a s.withoutReg h0pre ha0
  · unfold sweep_emptied
    rw [store_heap, if_pos rfl, hloc, deregister_walk_all]
  · unfold sweep_emptied
    rw [store_fired, i9]
    rfl

/-- C7, amended: `ossl_cleanup_thread` invokes no callback; it removes every
record that is still registered from its slot without invoking it.  The log
after teardown is the log before it and no slot holds a record; and for every
entry of the registry's sequence, when the inner loop of the sweep has
finished on it, the slot is still allocated, holds no record, and the log is
still the log before teardown. -/
theorem C7_teardown_removes_without_firing (s : State) (hs : Reachable s) (e : Env) :
    (ossl_cleanup_thread e s).fired = s.fired ∧
    (∀ a, (ossl_cleanup_thread e s).loc a = []) ∧
    (∀ sk pre a post, s.glob_tevent_reg = some sk → sk = pre ++ a :: post →
      (sweep_emptied 0 true pre a s.withoutReg).heap a = some [] ∧
      (sweep_emptied 0 true pre a s.withoutReg).fired = s.fired) := by
  obtain ⟨-, c1, -, -, -, -, -, -, -, c9, -⟩ := cleanup_spec hs.ptrInv e
  refine ⟨c1, c9, ?_⟩
  intro sk pre a post hready hsk
  obtain ⟨-, -, -, t4, t5⟩ := teardown_entry hs.ptrInv hready pre post a hsk
  exact ⟨t4, t5⟩

/-- C7, amended, witness: teardown of the state with three registered
threads. -/
theorem C7_teardown_removes_without_firing_witness :
    (ossl_cleanup_thread Env.ok (run State.init [Op.init Env.ok,
      Op.start Env.ok 1 10 20 30, Op.start Env.ok 2 11 21 31,
      Op.start Env.ok 3 12 22 32])).fired =
    (run State.init [Op.init Env.ok, Op.start Env.ok 1 10 20 30,
      Op.start Env.ok 2 11 21 31, Op.start Env.ok 3 12 22 32]).fired :=
  (C7_teardown_removes_without_firing _ ⟨[Op.init Env.ok, Op.start Env.ok 1 10 20 30,
    Op.start Env.ok 2 11 21 31, Op.start Env.ok 3 12 22 32], rfl⟩ Env.ok).1

/-- C8: from a state whose registry is available, `ossl_cleanup_thread` runs
the sweep of `init_thread_deregister(NULL, 1)` over the registry's sequence.
For every entry, the inner loop is run on the whole list the slot held before
teardown and unlinks every record of it, so that in the state just before
`OPENSSL_free(hands)` the slot is still allocated and holds no record; the
slot is then released.  After teardown every slot that was in the registry
is without records and released, `glob_tevent_reg` is null and the destructor
key is `-1`. -/
theorem C8_teardown_releases_registry (s : State) (hs : Reachable s) (sk : List Nat)
    (hready : s.glob_tevent_reg = some sk) (e : Env) :
    ossl_cleanup_thread e s =
      { (deregister_sweep 0 true sk s.withoutReg).1 with
          tls := fun _ => 0, destructor_key := -1 } ∧
    (∀ pre a post, sk = pre ++ a :: post →
      deregister_sweep 0 true sk s.withoutReg =
        deregister_sweep 0 true post ((sweep_emptied 0 true pre a s.withoutReg).free a) ∧
      (deregister_sweep 0 true pre s.withoutReg).1.loc a = s.loc a ∧
      (s.heap a).isSome = true ∧
      deregister_walk 0 true [] (s.loc a) = [] ∧
      (sweep_emptied 0 true pre a s.withoutReg).heap a = some [] ∧
      (sweep_emptied 0 true pre a s.withoutReg).fired = s.fired) ∧
    (∀ a ∈ sk, (ossl_cleanup_thread e s).loc a = [] ∧
      (ossl_cleanup_thread e s).heap a = none) ∧
    (ossl_cleanup_thread e s).glob_tevent_reg = none ∧
    (ossl_cleanup_thread e s).destructor_key = -1 := by
  have hp := hs.ptrInv
  obtain ⟨-, -, c2, c3, -, -, -, -, -, c9, c10⟩ := cleanup_spec hp e
  have hran : s.once ≠ none := by rw [hp.ran sk hready]; simp
  rw [hp.get_global_ran e hran] at c10
  have hget : get_global_tevent_register e s = (s, s.glob_tevent_reg) :=
    get_global_true e s (hp.ran sk hready)
  refine ⟨?_, ?_, fun a ha => ⟨c9 a, ?_⟩, c2, c3⟩
  · have hr : (get_global_tevent_register e s).2 = some sk := by rw [hget]; exact hready
    unfold ossl_cleanup_thread
    rw [deregister_some e 0 true s hr, if_pos rfl, hget]
  · intro pre a post hsk
    obtain ⟨t1, t2, t3, t4, t5⟩ := teardown_entry hp hready pre post a hsk
    exact ⟨t1, t2, t3, deregister_walk_all 0 _, t4, t5⟩
  · rw [c10 a]
    simp [hready, ha]

/-- C8, witness: in the teardown of the state with three registered threads
the inner loop leaves the slot of thread 2 allocated and without its record
before the slot is freed. -/
theorem C8_teardown_releases_registry_witness :
    (run State.init [Op.init Env.ok, Op.start Env.ok 1 10 20 30,
      Op.start Env.ok 2 11 21 31, Op.start Env.ok 3 12 22 32]).loc 2 = [⟨1, 11, 21, 31⟩] ∧
    (sweep_emptied 0 true [1] 2 (State.withoutReg (run State.init [Op.init Env.ok,
      Op.start Env.ok 1 10 20 30, Op.start Env.ok 2 11 21 31,
      Op.start Env.ok 3 12 22 32]))).heap 2 = some [] :=
  ⟨by decide,
   ((C8_teardown_releases_registry _ ⟨[Op.init Env.ok, Op.start Env.ok 1 10 20 30,
      Op.start Env.ok 2 11 21 31, Op.start Env.ok 3 12 22 32], rfl⟩ [1, 2, 3] (by decide)
      Env.ok).2.1 [1] 2 [3] (by decide)).2.2.2.2.1⟩

/-- C10: whenever `ossl_init_thread_start(index, arg, handfn)` returns 1, the
calling thread's slot list is the new record followed by the list the slot
held before the call (the empty list if the thread had no slot), and the slot
reference and the slot list of every other thread are unchanged. -/
theorem C10_start_prepends_the_record (s : State) (hs : Reachable s) (e : Env)
    (t index arg handfn : Nat)
    (hok : (ossl_init_thread_start e t index arg handfn s).2 = true) :
    (ossl_init_thread_start e t index arg handfn s).1.tls t ≠ 0 ∧
    (ossl_init_thread_start e t index arg handfn s).1.loc
        ((ossl_init_thread_start e t index arg handfn s).1.tls t) =
      ⟨s.nextRec, index, arg, handfn⟩ :: (if s.tls t = 0 then [] else s.loc (s.tls t)) ∧
    ∀ u, u ≠ t →
      (ossl_init_thread_start e t index arg handfn s).1.tls u = s.tls u ∧
      (ossl_init_thread_start e t index arg handfn s).1.loc
        ((ossl_init_thread_start e t index arg handfn s).1.tls u) = s.loc (s.tls u) := by
  have hp := hs.ptrInv
  obtain ⟨-, -, -, -, -, -, s6⟩ := start_spec hp e t index arg handfn
  obtain ⟨-, b2, -, -, b5, -, -, -⟩ := s6 hok
  refine ⟨b2, ?_, fun u hu => start_other hp e t index arg handfn hok u hu⟩
  rw [b5]
  by_cases ht : s.tls t = 0
  · rw [if_pos ht, ht, hp.loc_null]
  · rw [if_neg ht]

/-- C10, witness: a second registration by thread 1 is put in front of its
first record. -/
theorem C10_start_prepends_the_record_witness :
    (ossl_init_thread_start Env.ok 1 11 21 31
        (run State.init [Op.init Env.ok, Op.start Env.ok 1 10 20 30])).1.loc
      ((ossl_init_thread_start Env.ok 1 11 21 31
        (run State.init [Op.init Env.ok, Op.start Env.ok 1 10 20 30])).1.tls 1) =
      [⟨1, 11, 21, 31⟩, ⟨0, 10, 20, 30⟩] :=
  (C10_start_prepends_the_record _ ⟨[Op.init Env.ok, Op.start Env.ok 1 10 20 30], rfl⟩
    Env.ok 1 11 21 31 (by decide)).2.1

/-! ## Failure, teardown and the guard value -/

theorem unavailable_get {s : State} (h : Unavailable s) (e : Env) :
    get_global_tevent_register e s = (s, none) := by
  obtain ⟨ho, hg⟩ := h
  rcases hs : s.once with _ | _ | _
  · exact absurd hs ho
  · rw [get_global_false e s hs]
  · rw [get_global_true e s hs, hg]

theorem alloc_unavailable {s : State} (hp : PtrInv s) (h : Unavailable s) (e : Env)
    (t : Nat) :
    (alloc_thread_local e t s).2 = 0 ∧
    (alloc_thread_local e t s).1.once = s.once ∧
    (alloc_thread_local e t s).1.glob_tevent_reg = s.glob_tevent_reg := by
  have ht : s.tls t = 0 := hp.tls_of_glob_none h.2 t
  have hget := get_handler_zero ht
  by_cases ha : e.slotAlloc = true
  swap
  · rw [alloc_nomem e t s hget (by simpa using ha)]
    exact ⟨rfl, rfl, rfl⟩
  by_cases hs : s.destructor_key = -1 ∨ e.setLocal = false
  · rw [alloc_noset e t s hget ha hs]
    exact ⟨rfl, by simp [State.newCell], by simp [State.newCell]⟩
  have hk : s.destructor_key ≠ -1 := fun hc => hs (Or.inl hc)
  have hset : e.setLocal = true := by
    by_contra hc; exact hs (Or.inr (by simpa using hc))
  have hnone : (get_global_tevent_register e s).2 = none := by rw [unavailable_get h e]
  rw [alloc_nopush e t s hget ha hk hset (Or.inl hnone)]
  obtain ⟨-, c2, c3⟩ := get_global_congr e s
    { s.newCell with tls := Function.update s.tls t s.nextSlot } rfl rfl
  rw [unavailable_get h e] at c2 c3
  exact ⟨rfl, by simpa using c2, by simpa using c3⟩

theorem start_unavailable {s : State} (hp : PtrInv s) (h : Unavailable s) (e : Env)
    (t index arg handfn : Nat) :
    (ossl_init_thread_start e t index arg handfn s).2 = false ∧
    (ossl_init_thread_start e t index arg handfn s).1.once = s.once ∧
    (ossl_init_thread_start e t index arg handfn s).1.glob_tevent_reg =
      s.glob_tevent_reg := by
  obtain ⟨a1, a2, a3⟩ := alloc_unavailable hp h e t
  rw [start_fail_slot e t index arg handfn s a1]
  exact ⟨rfl, a2, a3⟩

theorem unavailable_step {s : State} (hp : PtrInv s) (h : Unavailable s) (op : Op) :
    Unavailable (step s op) := by
  have hget := unavailable_get h
  cases op with
  | init e =>
    simp only [step]
    split
    · unfold ossl_init_thread; split
      · exact h
      · exact h
    · exact h
  | start e t index arg handfn =>
    obtain ⟨-, a2, a3⟩ := start_unavailable hp h e t index arg handfn
    exact ⟨by simp only [step]; rw [a2]; exact h.1, by simp only [step]; rw [a3]; exact h.2⟩
  | deregister e index =>
    obtain ⟨-, -, -, -, -, -, -, d7, d8, -, -, -⟩ := deregister_spec hp e index
    rw [hget e] at d7 d8
    exact ⟨by simp only [step]; rw [d7]; exact h.1, by simp only [step]; rw [d8]; exact h.2⟩
  | threadStop e t =>
    simp only [step]
    by_cases hk : s.destructor_key = -1
    · rw [OPENSSL_thread_stop_off e t s hk]; exact h
    · rw [OPENSSL_thread_stop_eq e t s hk]
      obtain ⟨o1, o2⟩ := (stop_body_spec hp e t).2.2.2.2.2.2.2.2.1 h.1
      exact ⟨by rw [o1]; exact h.1, by rw [o2, h.2]; rfl⟩
  | ctxStop e t ctx =>
    simp only [step]
    by_cases hk : s.destructor_key = -1
    · rw [ctx_stop_off e t ctx s hk]; exact h
    · rw [ctx_stop_eq e t ctx s hk]
      obtain ⟨o1, o2⟩ := (init_thread_stop_spec hp e ctx (s.tls t)
        (fun ht => hp.live_of_tls ht)).2.2.2.2.2.2.2.2.2.2 h.1
      exact ⟨by rw [o1]; exact h.1, by rw [o2]; exact h.2⟩
  | threadExit e t =>
    simp only [step]
    by_cases hk : s.destructor_key = -1 ∨ s.tls t = 0
    · rw [thread_exit_off e t s hk]; exact h
    · rw [thread_exit_eq e t s (fun hc => hk (Or.inl hc)) (fun hc => hk (Or.inr hc))]
      obtain ⟨o1, o2⟩ := (stop_body_spec hp e t).2.2.2.2.2.2.2.2.1 h.1
      exact ⟨by rw [o1]; exact h.1, by rw [o2, h.2]; rfl⟩
  | cleanup e =>
    obtain ⟨-, -, c2, -, -, -, -, -, c8, -, -⟩ := cleanup_spec hp e
    rw [hget e] at c8
    exact ⟨by simp only [step]; rw [c8]; exact h.1, by simp only [step]; exact c2⟩

theorem unavailable_run {s : State} (hp : PtrInv s) (h : Unavailable s) (ops : List Op) :
    Unavailable (run s ops) := by
  induction ops generalizing s with
  | nil => exact h
  | cons op ops ih => exact ih (hp.keeps_step op) (unavailable_step hp h op)

theorem unavailable_after_cleanup {s : State} (hp : PtrInv s) (e : Env) :
    Unavailable (ossl_cleanup_thread e s) := by
  obtain ⟨-, -, c2, -, -, -, -, -, c8, -, -⟩ := cleanup_spec hp e
  exact ⟨by rw [c8]; exact get_global_once_ne e s, c2⟩

/-- C12: for a thread that already has handlers registered, an
`ossl_init_thread_start` that returns 0 leaves the whole state, hence the
thread's handler list, exactly as it was, so a later `OPENSSL_thread_stop`
invokes exactly the previously registered handlers, in list order. -/
theorem C12_failed_start_keeps_the_handler_list (s : State) (hs : Reachable s) (e : Env)
    (t index arg handfn : Nat) (hhas : s.loc (s.tls t) ≠ [])
    (hfail : (ossl_init_thread_start e t index arg handfn s).2 = false) (e2 : Env) :
    (ossl_init_thread_start e t index arg handfn s).1 = s ∧
    (OPENSSL_thread_stop e2 t
      (ossl_init_thread_start e t index arg handfn s).1).firedSince s.fired.length =
        s.loc (s.tls t) := by
  have hp := hs.ptrInv
  have ht : s.tls t ≠ 0 := by
    intro hc
    rw [hc] at hhas
    exact hhas hp.loc_null
  have hk : s.destructor_key ≠ -1 := (hp.tls t ht).1
  have ha := alloc_have e t s hk ht
  have hrec : e.recAlloc = false := by
    by_contra hc
    have h2 : (alloc_thread_local e t s).2 ≠ 0 := by rw [ha]; exact ht
    rw [start_ok e t index arg handfn s h2 (by simpa using hc)] at hfail
    simp at hfail
  have hst : (ossl_init_thread_start e t index arg handfn s).1 = s := by
    rw [start_fail_rec e t index arg handfn s hrec, ha]
  refine ⟨hst, ?_⟩
  rw [hst, OPENSSL_thread_stop_eq e2 t s hk]
  exact firedSince_append _ _ _ (stop_body_spec hp e2 t).2.1

/-- C12, witness: thread 1 holds one record; a second registration fails on
the record allocation; the state is unchanged. -/
theorem C12_failed_start_keeps_the_handler_list_witness :
    (ossl_init_thread_start ⟨true, true, true, true, true, true, false, true⟩ 1 11 21 31
      (run State.init [Op.init Env.ok, Op.start Env.ok 1 10 20 30])).1 =
    run State.init [Op.init Env.ok, Op.start Env.ok 1 10 20 30] :=
  (C12_failed_start_keeps_the_handler_list _
    ⟨[Op.init Env.ok, Op.start Env.ok 1 10 20 30], rfl⟩
    ⟨true, true, true, true, true, true, false, true⟩ 1 11 21 31 (by decide) (by decide)
    Env.ok).1

/-- C14: when the registry is available and the calling thread has a slot,
`OPENSSL_thread_stop` invokes every record of the slot, takes the slot out of
the registry's sequence (the other entries stay, in order), releases it and
nulls the thread-local reference; a second `OPENSSL_thread_stop` of the same
thread invokes nothing. -/
theorem C14_thread_stop_tears_the_slot_down (s : State) (hs : Reachable s) (sk : List Nat)
    (hready : s.glob_tevent_reg = some sk) (t : Nat) (hslot : s.tls t ≠ 0) (e e2 : Env) :
    (OPENSSL_thread_stop e t s).firedSince s.fired.length = s.loc (s.tls t) ∧
    (OPENSSL_thread_stop e t s).glob_tevent_reg =
      some (sk.filter (fun a => decide (a ≠ s.tls t))) ∧
    (OPENSSL_thread_stop e t s).tls t = 0 ∧
    (OPENSSL_thread_stop e t s).heap (s.tls t) = none ∧
    (OPENSSL_thread_stop e2 t (OPENSSL_thread_stop e t s)).fired =
      (OPENSSL_thread_stop e t s).fired := by
  have hp := hs.ptrInv
  have hk : s.destructor_key ≠ -1 := (hp.tls t hslot).1
  have hran : s.once ≠ none := by rw [hp.ran sk hready]; simp
  rw [OPENSSL_thread_stop_eq e t s hk]
  obtain ⟨p1, f1, f2, f3, -, -, -, f7, f8, -⟩ := stop_body_spec hp e t
  have ht0 : (stop_body e t s).tls t = 0 := by rw [f2]; simp
  refine ⟨firedSince_append _ _ _ f1, ?_, ht0, ?_, ?_⟩
  · rw [(f8 hran).2, hready]
    have hnd := (hp.reg sk hready).2.1
    simp only [Option.map_some']
    rw [List.Nodup.erase_eq_filter hnd]
    congr 1
    apply List.filter_congr
    intro a _
    by_cases ha : a = s.tls t <;> simp [ha]
  · rw [f7]; simp [hslot]
  · have hk1 : (stop_body e t s).destructor_key ≠ -1 := by rw [f3]; exact hk
    rw [OPENSSL_thread_stop_eq e2 t _ hk1, (stop_body_spec p1 e2 t).2.1, ht0, p1.loc_null]
    simp

/-- C14, witness: threads 1 and 2 hold a slot each; stopping thread 1 leaves
the slot of thread 2 alone in the registry. -/
theorem C14_thread_stop_tears_the_slot_down_witness :
    (OPENSSL_thread_stop Env.ok 1
      (run State.init [Op.init Env.ok, Op.start Env.ok 1 10 20 30,
        Op.start Env.ok 2 11 21 31])).glob_tevent_reg = some [2] :=
  (C14_thread_stop_tears_the_slot_down _
    ⟨[Op.init Env.ok, Op.start Env.ok 1 10 20 30, Op.start Env.ok 2 11 21 31], rfl⟩
    [1, 2] (by decide) 1 (by decide) Env.ok Env.ok).2.1

/-- C16, counterexample: in the initial state the registry has never been
created, yet `ossl_init_thread_deregister` returns 1: the call itself runs
the run-once initialiser, which creates the registry. -/
theorem C16_deregister_fails_when_uninitialized_counterexample :
    State.init.once = none ∧ State.init.glob_tevent_reg = none ∧
    (ossl_init_thread_deregister Env.ok 5 State.init).2 = true ∧
    (ossl_init_thread_deregister Env.ok 5 State.init).1.glob_tevent_reg = some [] := by
  decide

/-- C16, amended: `ossl_init_thread_deregister` returns 0 exactly when the
registry is unavailable to the call: either the run-once initialiser has not
run yet and fails in this call, or it has run and `glob_tevent_reg` is null
(it failed earlier, or teardown has run). -/
theorem C16_deregister_fails_iff_registry_unavailable (s : State) (hs : Reachable s)
    (e : Env) (K : Nat) :
    (ossl_init_thread_deregister e K s).2 = false ↔
      (s.once = none ∧ (e.regAlloc = false ∨ e.skNew = false ∨ e.lockNew = false)) ∨
      (s.once ≠ none ∧ s.glob_tevent_reg = none) := by
  have hp := hs.ptrInv
  have hiff : e.creates = false ↔
      (e.regAlloc = false ∨ e.skNew = false ∨ e.lockNew = false) := by
    obtain ⟨a, b, c, _, _, _, _, _⟩ := e
    cases a <;> cases b <;> cases c <;> simp [Env.creates]
  rw [(deregister_spec hp e K).2.2.2.2.2.2.2.2.2.2.2, ← hiff]
  rcases ho : s.once with _ | _ | _
  · rw [get_global_none e s ho]
    cases e.creates <;> simp
  · rw [get_global_false e s ho, hp.glob_none_of_once_ne (by simp [ho])]
    simp
  · rw [get_global_true e s ho]
    cases hg : s.glob_tevent_reg <;> simp

/-- C16, amended, witness: after teardown the call returns 0. -/
theorem C16_deregister_fails_iff_registry_unavailable_witness :
    (ossl_init_thread_deregister Env.ok 5
      (run State.init [Op.init Env.ok, Op.cleanup Env.ok])).2 = false :=
  (C16_deregister_fails_iff_registry_unavailable _
    ⟨[Op.init Env.ok, Op.cleanup Env.ok], rfl⟩ Env.ok 5).mpr (Or.inr (by decide))

/-- C17: after `ossl_cleanup_thread` has run, whatever calls follow, every
`ossl_init_thread_deregister` returns 0 and leaves the state as it was: no
record is removed and no callback invoked. -/
theorem C17_deregister_after_teardown_is_a_noop (s : State) (hs : Reachable s) (e : Env)
    (ops : List Op) (e2 : Env) (K : Nat) :
    ossl_init_thread_deregister e2 K (run (ossl_cleanup_thread e s) ops) =
      (run (ossl_cleanup_thread e s) ops, false) := by
  have hp := hs.ptrInv
  have hp1 := (cleanup_spec hp e).1
  have hu := unavailable_run hp1 (unavailable_after_cleanup hp e) ops
  unfold ossl_init_thread_deregister
  rw [deregister_none e2 K false _ (by rw [unavailable_get hu e2]), unavailable_get hu e2]

/-- C17, witness: teardown of a state with one registered thread, then a
deregister call. -/
theorem C17_deregister_after_teardown_is_a_noop_witness :
    ossl_init_thread_deregister Env.ok 10
      (run (ossl_cleanup_thread Env.ok
        (run State.init [Op.init Env.ok, Op.start Env.ok 1 10 20 30])) []) =
      (run (ossl_cleanup_thread Env.ok
        (run State.init [Op.init Env.ok, Op.start Env.ok 1 10 20 30])) [], false) :=
  C17_deregister_after_teardown_is_a_noop _
    ⟨[Op.init Env.ok, Op.start Env.ok 1 10 20 30], rfl⟩ Env.ok [] Env.ok 10

theorem unavailable_facts {s : State} (hp : PtrInv s) (hu : Unavailable s) (e : Env)
    (t index arg handfn : Nat) :
    get_global_tevent_register e s = (s, none) ∧
    (ossl_init_thread_start e t index arg handfn s).2 = false ∧
    (ossl_init_thread_start e t index arg handfn s).1.glob_tevent_reg = none ∧
    ∀ b, (ossl_init_thread_start e t index arg handfn s).1.loc b = [] := by
  obtain ⟨a1, -, a3⟩ := start_unavailable hp hu e t index arg handfn
  refine ⟨unavailable_get hu e, a1, by rw [a3]; exact hu.2, fun b => ?_⟩
  rw [((start_spec hp e t index arg handfn).2.2.2.2.2.1 a1).2 b]
  exact hp.loc_of_glob_none hu.2 b

/-- C18: when the run-once creation of the registry fails (the registry, its
stack or its lock cannot be allocated), the accessor returns null then and
on every later call without running the initialiser again, and every later
`ossl_init_thread_start` returns 0 and leaves every slot without records. -/
theorem C18_failed_creation_is_permanent (s : State) (hs : Reachable s) (e : Env)
    (hnot : s.once = none)
    (hfail : e.regAlloc = false ∨ e.skNew = false ∨ e.lockNew = false)
    (ops : List Op) (e2 : Env) (t index arg handfn : Nat) :
    (get_global_tevent_register e s).2 = none ∧
    (get_global_tevent_register e s).1.once = some false ∧
    get_global_tevent_register e2 (run (get_global_tevent_register e s).1 ops) =
      (run (get_global_tevent_register e s).1 ops, none) ∧
    (ossl_init_thread_start e2 t index arg handfn
      (run (get_global_tevent_register e s).1 ops)).2 = false ∧
    (ossl_init_thread_start e2 t index arg handfn
      (run (get_global_tevent_register e s).1 ops)).1.glob_tevent_reg = none ∧
    ∀ b, (ossl_init_thread_start e2 t index arg handfn
      (run (get_global_tevent_register e s).1 ops)).1.loc b = [] := by
  have hp := hs.ptrInv
  have hc : e.creates = false := by
    obtain ⟨a, b, c, _, _, _, _, _⟩ := e
    simp only [Env.creates]
    rcases hfail with h | h | h <;> simp at h <;> simp [h]
  have hg := get_global_none e s hnot
  rw [hc] at hg
  simp only [Bool.false_eq_true, if_false] at hg
  have hp0 := hp.get_global e
  have hu0 : Unavailable (get_global_tevent_register e s).1 := by
    rw [hg]; exact ⟨by simp, rfl⟩
  have hu := unavailable_run hp0 hu0 ops
  have hp1 := hp0.keeps_run ops
  refine ⟨by rw [hg], by rw [hg], ?_⟩
  exact unavailable_facts hp1 hu e2 t index arg handfn

/-- C18, witness: library initialisation, then a first use of the accessor
during which the allocation of the registry fails, then a start in a sound
environment: the start returns 0. -/
theorem C18_failed_creation_is_permanent_witness :
    (ossl_init_thread_start Env.ok 1 10 20 30
      (run (get_global_tevent_register ⟨false, true, true, true, true, true, true, true⟩
        (run State.init [Op.init Env.ok])).1 [])).2 = false :=
  (C18_failed_creation_is_permanent (run State.init [Op.init Env.ok])
    ⟨[Op.init Env.ok], rfl⟩ ⟨false, true, true, true, true, true, true, true⟩
    (by decide) (Or.inl (by decide)) [] Env.ok 1 10 20 30).2.2.2.1

/-- C19: once `ossl_cleanup_thread` has run, on an available registry or in
any other reachable state, no later sequence of calls,
`ossl_init_thread` and `ossl_init_thread_start` included, brings the registry
back: `glob_tevent_reg` stays null, every later `ossl_init_thread_start`
returns 0 and no slot holds a record. -/
theorem C19_teardown_is_terminal (s : State) (hs : Reachable s) (e : Env) (ops : List Op)
    (e2 : Env) (t index arg handfn : Nat) :
    (run (ossl_cleanup_thread e s) ops).glob_tevent_reg = none ∧
    (ossl_init_thread_start e2 t index arg handfn
      (run (ossl_cleanup_thread e s) ops)).2 = false ∧
    (ossl_init_thread_start e2 t index arg handfn
      (run (ossl_cleanup_thread e s) ops)).1.glob_tevent_reg = none ∧
    ∀ b, (ossl_init_thread_start e2 t index arg handfn
      (run (ossl_cleanup_thread e s) ops)).1.loc b = [] := by
  have hp := hs.ptrInv
  have hp1 := (cleanup_spec hp e).1
  have hu := unavailable_run hp1 (unavailable_after_cleanup hp e) ops
  have hp2 := hp1.keeps_run ops
  obtain ⟨-, f2, f3, f4⟩ := unavailable_facts hp2 hu e2 t index arg handfn
  exact ⟨hu.2, f2, f3, f4⟩

/-- C19, witness: teardown of a state with one registered thread, then
library initialisation again, then a start: the start returns 0. -/
theorem C19_teardown_is_terminal_witness :
    (ossl_init_thread_start Env.ok 1 10 20 30
      (run (ossl_cleanup_thread Env.ok
        (run State.init [Op.init Env.ok, Op.start Env.ok 1 10 20 30]))
        [Op.init Env.ok])).2 = false :=
  (C19_teardown_is_terminal _ ⟨[Op.init Env.ok, Op.start Env.ok 1 10 20 30], rfl⟩
    Env.ok [Op.init Env.ok] Env.ok 1 10 20 30).2.1

/-- C20: while `destructor_key` holds the guard value `-1`,
`OPENSSL_thread_stop` and `ossl_ctx_thread_stop` leave the whole state as it
is (no callback, no slot, no registry change), `get_thread_event_handler`
returns null and `set_thread_event_handler` fails. -/
theorem C20_guard_value_disables_stop (s : State) (hk : s.destructor_key = -1) (e : Env)
    (t ctx hands : Nat) (ok : Bool) :
    OPENSSL_thread_stop e t s = s ∧
    ossl_ctx_thread_stop e t ctx s = s ∧
    get_thread_event_handler t s = 0 ∧
    set_thread_event_handler ok t hands s = (s, false) := by
  refine ⟨OPENSSL_thread_stop_off e t s hk, ctx_stop_off e t ctx s hk, ?_, ?_⟩
  · simp [get_thread_event_handler, hk]
  · simp [set_thread_event_handler, hk]

/-- C20, witness: the state after teardown of a registered thread holds the
guard value; a thread stop changes nothing. -/
theorem C20_guard_value_disables_stop_witness :
    OPENSSL_thread_stop Env.ok 1
      (run State.init [Op.init Env.ok, Op.start Env.ok 1 10 20 30, Op.cleanup Env.ok]) =
      run State.init [Op.init Env.ok, Op.start Env.ok 1 10 20 30, Op.cleanup Env.ok] :=
  (C20_guard_value_disables_stop
    (run State.init [Op.init Env.ok, Op.start Env.ok 1 10 20 30, Op.cleanup Env.ok])
    (by decide) Env.ok 1 0 0 true).1

namespace Fips

/-! ## The `FIPS_MODULE` build -/

theorem fips_setTls_same (s : State) (t c a : Nat) : (s.setTls t c a).tls t c = a := by
  simp [State.setTls]

theorem fips_setTls_other (s : State) (t c a u d : Nat) (h : u ≠ t ∨ d ≠ c) :
    (s.setTls t c a).tls u d = s.tls u d := by
  unfold State.setTls
  by_cases hu : u = t
  · subst hu
    rcases h with h | h
    · exact absurd rfl h
    · simp [Function.update_noteq h]
  · simp [Function.update_noteq hu]

theorem fips_free_heap (s : State) (a b : Nat) :
    (s.free a).heap b = if b = a ∧ a ≠ 0 then none else s.heap b := by
  unfold State.free
  by_cases ha : a = 0
  · simp [ha]
  · by_cases hb : b = a
    · subst hb; simp [ha]
    · simp [ha, hb, Function.update_noteq hb]

theorem fips_store_heap (s : State) (a b : Nat) (l : List THREAD_EVENT_HANDLER) :
    (s.store a l).heap b = if b = a then some l else s.heap b := by
  unfold State.store
  by_cases hb : b = a
  · subst hb; simp
  · simp [hb, Function.update_noteq hb]

theorem fips_inv_init : Inv State.init := by
  constructor <;> simp [State.init]

/-- A state with a heap that has no more allocated cells, thread-local values
below its counter and a counter that is not smaller keeps the allocation
discipline. -/
theorem fips_inv_of {s s' : State} (h : Inv s) (hn : s.nextSlot ≤ s'.nextSlot)
    (hh : ∀ a, s'.nextSlot ≤ a ∨ a = 0 → s'.heap a = s.heap a)
    (ht : ∀ t c, s'.tls t c < s'.nextSlot) : Inv s' := by
  refine ⟨le_trans h.nz hn, ?_, ?_, ht⟩
  · intro a ha; rw [hh a (Or.inl ha)]; exact h.fresh a (le_trans hn ha)
  · rw [hh 0 (Or.inr rfl)]; exact h.null

theorem fips_alloc_have (e : Env) (t c : Nat) (s : State) (ht : s.tls t c ≠ 0) :
    alloc_thread_local e t c s = (s, s.tls t c) := by
  simp [alloc_thread_local, manage_thread_local, get_thread_event_handler, ht]

theorem fips_alloc_nomem (e : Env) (t c : Nat) (s : State) (ht : s.tls t c = 0)
    (ha : e.slotAlloc = false) : alloc_thread_local e t c s = (s, 0) := by
  simp [alloc_thread_local, manage_thread_local, get_thread_event_handler, ht, ha]

theorem fips_alloc_noset (e : Env) (t c : Nat) (s : State) (ht : s.tls t c = 0)
    (ha : e.slotAlloc = true) (hs : e.setLocal = false) :
    alloc_thread_local e t c s = (s.newCell.free s.nextSlot, 0) := by
  simp [alloc_thread_local, manage_thread_local, get_thread_event_handler, ht, ha, hs,
    set_thread_event_handler, State.newCell]

theorem fips_alloc_new (e : Env) (t c : Nat) (s : State) (ht : s.tls t c = 0)
    (ha : e.slotAlloc = true) (hs : e.setLocal = true) :
    alloc_thread_local e t c s = (s.newCell.setTls t c s.nextSlot, s.nextSlot) := by
  simp [alloc_thread_local, manage_thread_local, get_thread_event_handler, ht, ha, hs,
    set_thread_event_handler, State.newCell]

theorem fips_newCell_free_heap {s : State} (h : Inv s) (b : Nat) :
    (s.newCell.free s.nextSlot).heap b = s.heap b := by
  rw [fips_free_heap]
  by_cases hb : b = s.nextSlot
  · have hz : s.nextSlot ≠ 0 := by have := h.nz; omega
    rw [if_pos ⟨hb, hz⟩, hb]
    exact (h.fresh _ le_rfl).symm
  · rw [if_neg (fun hc => hb hc.1)]
    simp [State.newCell, Function.update_noteq hb]

/-- What `alloc_thread_local` of the `FIPS_MODULE` build does. -/
theorem fips_alloc_spec {s : State} (h : Inv s) (e : Env) (t c : Nat) :
    Inv (alloc_thread_local e t c s).1 ∧
    (alloc_thread_local e t c s).1.fired = s.fired ∧
    (alloc_thread_local e t c s).1.nextRec = s.nextRec ∧
    (alloc_thread_local e t c s).1.upcalls = s.upcalls ∧
    (∀ b, (alloc_thread_local e t c s).1.loc b = s.loc b) ∧
    (∀ u d, u ≠ t ∨ d ≠ c → (alloc_thread_local e t c s).1.tls u d = s.tls u d) ∧
    ((alloc_thread_local e t c s).2 = 0 →
      (alloc_thread_local e t c s).1.tls = s.tls ∧ s.tls t c = 0 ∧
      (e.slotAlloc = false ∨ e.setLocal = false)) ∧
    ((alloc_thread_local e t c s).2 ≠ 0 →
      (alloc_thread_local e t c s).1.tls t c = (alloc_thread_local e t c s).2 ∧
      s.loc (alloc_thread_local e t c s).2 = s.loc (s.tls t c)) ∧
    (s.tls t c ≠ 0 → alloc_thread_local e t c s = (s, s.tls t c)) ∧
    (s.tls t c = 0 → e.slotAlloc = true → e.setLocal = true →
      (alloc_thread_local e t c s).2 = s.nextSlot ∧ s.nextSlot ≠ 0) := by
  have hz : s.nextSlot ≠ 0 := by have := h.nz; omega
  by_cases ht : s.tls t c = 0
  swap
  · rw [fips_alloc_have e t c s ht]
    exact ⟨h, rfl, rfl, rfl, fun _ => rfl, fun _ _ _ => rfl, fun hc => absurd hc ht,
      fun _ => ⟨rfl, rfl⟩, fun _ => rfl, fun hc => absurd hc ht⟩
  by_cases ha : e.slotAlloc = true
  swap
  · have ha2 : e.slotAlloc = false := by simpa using ha
    rw [fips_alloc_nomem e t c s ht ha2]
    exact ⟨h, rfl, rfl, rfl, fun _ => rfl, fun _ _ _ => rfl,
      fun _ => ⟨rfl, ht, Or.inl ha2⟩, fun hc => absurd rfl hc, fun hc => absurd ht hc,
      fun _ hc => absurd hc ha⟩
  by_cases hs : e.setLocal = true
  swap
  · have hs2 : e.setLocal = false := by simpa using hs
    rw [fips_alloc_noset e t c s ht ha hs2]
    have hheap := fips_newCell_free_heap h
    have hfr : ∀ (x : State) a, (x.free a).tls = x.tls ∧ (x.free a).fired = x.fired ∧
        (x.free a).nextRec = x.nextRec ∧ (x.free a).upcalls = x.upcalls ∧
        (x.free a).nextSlot = x.nextSlot := by
      intro x a; unfold State.free; split <;> simp
    obtain ⟨q1, q2, q3, q4, q5⟩ := hfr s.newCell s.nextSlot
    refine ⟨?_, by rw [q2]; rfl, by rw [q3]; rfl, by rw [q4]; rfl, ?_, ?_,
      fun _ => ⟨by rw [q1]; rfl, ht, Or.inr hs2⟩, fun hc => absurd rfl hc,
      fun hc => absurd ht hc, fun _ _ hc => absurd hc hs⟩
    · refine fips_inv_of h (by rw [q5]; simp [State.newCell]) (fun a _ => hheap a) ?_
      intro u d
      rw [q1, q5]
      have := h.below u d
      simp only [State.newCell]; omega
    · intro b; simp only [State.loc, hheap b]
    · intro u d _; rw [q1]; rfl
  rw [fips_alloc_new e t c s ht ha hs]
  have hfresh : s.heap s.nextSlot = none := h.fresh _ le_rfl
  have hloc : ∀ b, (s.newCell.setTls t c s.nextSlot).loc b = s.loc b := by
    intro b
    by_cases hb : b = s.nextSlot
    · subst hb; simp [State.loc, State.setTls, State.newCell, hfresh]
    · simp [State.loc, State.setTls, State.newCell, Function.update_noteq hb]
  refine ⟨?_, rfl, rfl, rfl, hloc, fun u d hud => fips_setTls_other _ t c _ u d hud,
    fun hc => absurd hc hz, fun _ => ⟨fips_setTls_same _ t c _, ?_⟩,
    fun hc => absurd ht hc, fun _ _ _ => ⟨rfl, hz⟩⟩
  · refine ⟨by simp [State.setTls, State.newCell], ?_, ?_, ?_⟩
    · intro a ha2
      have ha3 : s.nextSlot + 1 ≤ a := ha2
      have hne : a ≠ s.nextSlot := by omega
      simp only [State.setTls, State.newCell, Function.update_noteq hne]
      exact h.fresh a (by omega)
    · simp only [State.setTls, State.newCell, Function.update_noteq (Ne.symm hz)]
      exact h.null
    · intro u d
      show (s.newCell.setTls t c s.nextSlot).tls u d < s.nextSlot + 1
      by_cases hud : u ≠ t ∨ d ≠ c
      · rw [fips_setTls_other _ t c _ u d hud]
        have := h.below u d
        simp only [State.newCell]; omega
      · have hu : u = t := by by_contra hc; exact hud (Or.inl hc)
        have hd : d = c := by by_contra hc; exact hud (Or.inr hc)
        rw [hu, hd, fips_setTls_same]; omega
  · show s.loc s.nextSlot = s.loc (s.tls t c)
    rw [ht]; simp [State.loc, hfresh, h.null]

theorem fips_inv_upcall {s : State} (h : Inv s) (l : List (Nat × Nat)) :
    Inv { s with upcalls := l } :=
  ⟨h.nz, h.fresh, h.null, h.below⟩

theorem fips_inv_store {s : State} (h : Inv s) {a : Nat} (ha : a < s.nextSlot)
    (ha0 : a ≠ 0) (l : List THREAD_EVENT_HANDLER) : Inv (s.store a l) := by
  refine fips_inv_of h le_rfl ?_ h.below
  intro b hb
  rw [fips_store_heap, if_neg]
  rcases hb with hb | hb
  · have : s.nextSlot ≤ b := hb
    omega
  · rw [hb]; exact Ne.symm ha0

theorem fips_inv_free {s : State} (h : Inv s) (a : Nat) : Inv (s.free a) := by
  have hf : (s.free a).nextSlot = s.nextSlot ∧ (s.free a).tls = s.tls := by
    unfold State.free; split <;> simp
  refine ⟨hf.1 ▸ h.nz, ?_, ?_, ?_⟩
  · intro b hb
    rw [fips_free_heap]; split
    · rfl
    · exact h.fresh b (hf.1 ▸ hb)
  · rw [fips_free_heap]; split
    · rfl
    · exact h.null
  · intro t c; rw [hf.1, hf.2]; exact h.below t c

theorem fips_inv_setTls {s : State} (h : Inv s) (t c a : Nat) (ha : a < s.nextSlot) :
    Inv (s.setTls t c a) := by
  refine ⟨h.nz, h.fresh, h.null, ?_⟩
  intro u d
  show (s.setTls t c a).tls u d < s.nextSlot
  by_cases hud : u ≠ t ∨ d ≠ c
  · rw [fips_setTls_other _ t c _ u d hud]; exact h.below u d
  · have hu : u = t := by by_contra hc; exact hud (Or.inl hc)
    have hd : d = c := by by_contra hc; exact hud (Or.inr hc)
    rw [hu, hd, fips_setTls_same]; exact ha

theorem fips_stop_null (arg : Nat) (s : State) : init_thread_stop arg 0 s = s := by
  simp [init_thread_stop]

theorem fips_stop_some (arg : Nat) {hands : Nat} (s : State) (h0 : hands ≠ 0) :
    init_thread_stop arg hands s =
      { s.store hands ((s.loc hands).filter (fun c => !selected arg c)) with
        fired := s.fired ++ (s.loc hands).filter (fun c => selected arg c) } := by
  simp [init_thread_stop, h0, stop_walk_eq]

theorem fips_inv_stop {s : State} (h : Inv s) (arg hands : Nat) (hb : hands < s.nextSlot) :
    Inv (init_thread_stop arg hands s) := by
  by_cases h0 : hands = 0
  · rw [h0, fips_stop_null]; exact h
  · rw [fips_stop_some arg s h0]
    have := fips_inv_store h hb h0 ((s.loc hands).filter (fun c => !selected arg c))
    exact ⟨this.nz, this.fresh, this.null, this.below⟩

theorem fips_ctx_stop_eq (e : Env) (t ctx : Nat) (s : State) :
    ossl_ctx_thread_stop e t ctx s =
      (init_thread_stop ctx (s.tls t ctx) (s.setTls t ctx 0)).free (s.tls t ctx) := by
  simp [ossl_ctx_thread_stop, clear_thread_local, manage_thread_local,
    set_thread_event_handler, get_thread_event_handler]

/-- What `ossl_ctx_thread_stop` of the `FIPS_MODULE` build does. -/
theorem fips_ctx_stop_spec {s : State} (h : Inv s) (e : Env) (t ctx : Nat) :
    (ossl_ctx_thread_stop e t ctx s).fired =
      s.fired ++ (s.loc (s.tls t ctx)).filter (fun c => selected ctx c) ∧
    (ossl_ctx_thread_stop e t ctx s).tls t ctx = 0 ∧
    (∀ u d, u ≠ t ∨ d ≠ ctx → (ossl_ctx_thread_stop e t ctx s).tls u d = s.tls u d) ∧
    (s.tls t ctx ≠ 0 → (ossl_ctx_thread_stop e t ctx s).heap (s.tls t ctx) = none) ∧
    (∀ b, b ≠ s.tls t ctx → (ossl_ctx_thread_stop e t ctx s).heap b = s.heap b) := by
  rw [fips_ctx_stop_eq]
  have hfr : ∀ (x : State) a, (x.free a).tls = x.tls ∧ (x.free a).fired = x.fired := by
    intro x a; unfold State.free; split <;> simp
  by_cases h0 : s.tls t ctx = 0
  · rw [h0, fips_stop_null]
    refine ⟨?_, ?_, ?_, fun hc => absurd rfl hc, ?_⟩
    · have hl : s.loc 0 = [] := by simp [State.loc, h.null]
      rw [hl]
      simp [State.free, State.setTls]
    · simp [State.free, fips_setTls_same]
    · intro u d hud; simp only [State.free, if_true]; exact fips_setTls_other _ t ctx _ u d hud
    · intro b _; simp [State.free, State.setTls]
  · rw [fips_stop_some ctx _ h0]
    refine ⟨?_, ?_, ?_, ?_, ?_⟩
    · rw [(hfr _ _).2]; rfl
    · rw [(hfr _ _).1]; exact fips_setTls_same _ t ctx _
    · intro u d hud; rw [(hfr _ _).1]; exact fips_setTls_other _ t ctx _ u d hud
    · intro _; rw [fips_free_heap]; simp [h0]
    · intro b hb
      rw [fips_free_heap, if_neg (fun hc => hb hc.1)]
      show ((s.setTls t ctx 0).store (s.tls t ctx) _).heap b = s.heap b
      rw [fips_store_heap, if_neg hb]; rfl

/-- What a failing `ossl_init_thread_start` of the `FIPS_MODULE` build leaves
behind, and that every outcome keeps the allocation discipline. -/
theorem fips_start_spec {s : State} (h : Inv s) (e : Env) (t index arg handfn : Nat) :
    Inv (ossl_init_thread_start e t index arg handfn s).1 ∧
    ((ossl_init_thread_start e t index arg handfn s).2 = false →
      (ossl_init_thread_start e t index arg handfn s).1.fired = s.fired ∧
      (ossl_init_thread_start e t index arg handfn s).1.nextRec = s.nextRec ∧
      (∀ b, (ossl_init_thread_start e t index arg handfn s).1.loc b = s.loc b) ∧
      (∀ u d, u ≠ t ∨ d ≠ arg →
        (ossl_init_thread_start e t index arg handfn s).1.tls u d = s.tls u d) ∧
      (e.slotAlloc = false ∨ e.setLocal = false ∨ s.tls t arg ≠ 0 →
        (ossl_init_thread_start e t index arg handfn s).1.tls = s.tls) ∧
      (s.tls t arg = 0 → e.slotAlloc = true → e.setLocal = true →
        (ossl_init_thread_start e t index arg handfn s).1.tls t arg = s.nextSlot ∧
        s.nextSlot ≠ 0 ∧ (e.upcall = false ∨ e.recAlloc = false))) := by
  obtain ⟨a1, a2, a3, a4, a5, a6, a7, a8, a9, a10⟩ := fips_alloc_spec h e t arg
  unfold ossl_init_thread_start
  by_cases h0 : (alloc_thread_local e t arg s).2 = 0
  · obtain ⟨b1, b2, b3⟩ := a7 h0
    simp only [h0, if_true]
    refine ⟨a1, fun _ => ⟨a2, a3, a5, a6, fun _ => b1, ?_⟩⟩
    intro _ hsa hse
    rcases b3 with b3 | b3
    · rw [hsa] at b3; simp at b3
    · rw [hse] at b3; simp at b3
  · obtain ⟨c1, c2⟩ := a8 h0
    simp only [h0, if_false]
    have hbelow :
        (alloc_thread_local e t arg s).2 < (alloc_thread_local e t arg s).1.nextSlot := by
      rw [← c1]; exact a1.below t arg
    have htls : e.slotAlloc = false ∨ e.setLocal = false ∨ s.tls t arg ≠ 0 →
        (alloc_thread_local e t arg s).1.tls = s.tls := by
      intro hc
      by_cases ht : s.tls t arg = 0
      · rcases hc with hc | hc | hc
        · rw [fips_alloc_nomem e t arg s ht hc] at h0; exact absurd rfl h0
        · by_cases hsa : e.slotAlloc = true
          · rw [fips_alloc_noset e t arg s ht hsa hc] at h0; exact absurd rfl h0
          · rw [fips_alloc_nomem e t arg s ht (by simpa using hsa)] at h0
            exact absurd rfl h0
        · exact absurd ht hc
      · rw [a9 ht]
    have hnew : s.tls t arg = 0 → e.slotAlloc = true → e.setLocal = true →
        (alloc_thread_local e t arg s).1.tls t arg = s.nextSlot ∧ s.nextSlot ≠ 0 := by
      intro ht hsa hse
      obtain ⟨d1, d2⟩ := a10 ht hsa hse
      exact ⟨by rw [c1, d1], d2⟩
    by_cases hl : (alloc_thread_local e t arg s).1.loc (alloc_thread_local e t arg s).2 = []
    · simp only [hl, if_true, ossl_thread_register_fips]
      by_cases hu : e.upcall = true
      swap
      · have hu2 : e.upcall = false := by simpa using hu
        simp only [hu2, Bool.not_false, if_true]
        refine ⟨fips_inv_upcall a1 _, fun _ => ⟨a2, a3, a5, a6, htls, ?_⟩⟩
        intro ht hsa hse
        obtain ⟨d1, d2⟩ := hnew ht hsa hse
        exact ⟨d1, d2, Or.inl trivial⟩
      simp only [hu, Bool.not_true, Bool.false_eq_true, if_false]
      by_cases hr : e.recAlloc = true
      swap
      · have hr2 : e.recAlloc = false := by simpa using hr
        simp only [hr2, Bool.not_false, if_true]
        refine ⟨fips_inv_upcall a1 _, fun _ => ⟨a2, a3, a5, a6, htls, ?_⟩⟩
        intro ht hsa hse
        obtain ⟨d1, d2⟩ := hnew ht hsa hse
        exact ⟨d1, d2, Or.inr trivial⟩
      simp only [hr, Bool.not_true, Bool.false_eq_true, if_false]
      refine ⟨?_, fun hc => by simp at hc⟩
      have := fips_inv_store (fips_inv_upcall a1
        ((alloc_thread_local e t arg s).1.upcalls ++ [(t, arg)])) hbelow h0
        (⟨(alloc_thread_local e t arg s).1.nextRec, 0, arg, handfn⟩ ::
          (alloc_thread_local e t arg s).1.loc (alloc_thread_local e t arg s).2)
      exact ⟨this.nz, this.fresh, this.null, this.below⟩
    · simp only [hl, if_false, Bool.not_true, Bool.false_eq_true]
      by_cases hr : e.recAlloc = true
      swap
      · have hr2 : e.recAlloc = false := by simpa using hr
        simp only [hr2, Bool.not_false, if_true]
        refine ⟨a1, fun _ => ⟨a2, a3, a5, a6, htls, ?_⟩⟩
        intro ht hsa hse
        obtain ⟨d1, d2⟩ := hnew ht hsa hse
        exact ⟨d1, d2, Or.inr trivial⟩
      simp only [hr, Bool.not_true, Bool.false_eq_true, if_false]
      refine ⟨?_, fun hc => by simp at hc⟩
      have := fips_inv_store a1 hbelow h0
        (⟨(alloc_thread_local e t arg s).1.nextRec, 0, arg, handfn⟩ ::
          (alloc_thread_local e t arg s).1.loc (alloc_thread_local e t arg s).2)
      exact ⟨this.nz, this.fresh, this.null, this.below⟩

theorem fips_inv_newCell {s : State} (h : Inv s) : Inv s.newCell := by
  refine ⟨by simp [State.newCell], ?_, ?_, ?_⟩
  · intro a ha2
    have ha3 : s.nextSlot + 1 ≤ a := ha2
    have hne : a ≠ s.nextSlot := by omega
    simp only [State.newCell, Function.update_noteq hne]
    exact h.fresh a (by omega)
  · have hz : (0 : Nat) ≠ s.nextSlot := by have := h.nz; omega
    simp only [State.newCell, Function.update_noteq hz]
    exact h.null
  · intro u d
    have := h.below u d
    show s.tls u d < s.nextSlot + 1
    omega

theorem fips_ctx_new_eq (e : Env) (t c : Nat) (s : State) :
    ossl_thread_event_ctx_new e t c s =
      if e.slotAlloc = true then
        (if e.setLocal = true then (s.newCell.setTls t c s.nextSlot, true)
         else (s.newCell.free s.nextSlot, false))
      else (s, false) := by
  unfold ossl_thread_event_ctx_new set_thread_event_handler
  cases e.slotAlloc <;> cases e.setLocal <;> simp [State.newCell]

theorem fips_inv_step {s : State} (h : Inv s) (op : Op) : Inv (step s op) := by
  cases op with
  | ctxNew e t libctx =>
    simp only [step]
    rw [fips_ctx_new_eq]
    split
    · split
      · exact fips_inv_setTls (fips_inv_newCell h) t libctx s.nextSlot
          (by simp [State.newCell])
      · exact fips_inv_free (fips_inv_newCell h) _
    · exact h
  | ctxFree t ctx =>
    simp only [step, ossl_thread_event_ctx_free, set_thread_event_handler, if_true]
    exact fips_inv_setTls h t ctx 0 (by have := h.nz; omega)
  | start e t index arg handfn => exact (fips_start_spec h e t index arg handfn).1
  | ctxStop e t ctx =>
    simp only [step]
    rw [fips_ctx_stop_eq]
    exact fips_inv_free (fips_inv_stop (fips_inv_setTls h t ctx 0 (by have := h.nz; omega))
      ctx (s.tls t ctx) (h.below t ctx)) _

theorem fips_inv_reachable {s : State} (h : Reachable s) : Inv s := by
  obtain ⟨ops, rfl⟩ := h
  have key : ∀ (x : State), Inv x → Inv (run x ops) := by
    induction ops with
    | nil => intro x hx; exact hx
    | cons op ops ih => intro x hx; exact ih (step x op) (fips_inv_step hx op)
  exact key _ fips_inv_init

end Fips

/-! ## Slot creation and the registry's sequence -/

theorem PtrInv.get_global_seq {s : State} (h : PtrInv s) (e : Env) :
    ((get_global_tevent_register e s).1.glob_tevent_reg).getD [] =
      (s.glob_tevent_reg).getD [] := by
  rcases ho : s.once with _ | _ | _
  · rw [get_global_none e s ho, h.glob_none_of_once_ne (by simp [ho])]
    cases e.creates <;> simp
  · rw [get_global_false e s ho]
  · rw [get_global_true e s ho]

/-- A failing `alloc_thread_local` rolls everything back but the run-once
creation of the registry. -/
theorem alloc_fail_reg {s : State} (h : PtrInv s) (e : Env) (t : Nat)
    (h0 : (alloc_thread_local e t s).2 = 0) :
    (alloc_thread_local e t s).1.tls = s.tls ∧
    (∀ b, (alloc_thread_local e t s).1.heap b = s.heap b) ∧
    (((alloc_thread_local e t s).1.glob_tevent_reg = s.glob_tevent_reg ∧
        (alloc_thread_local e t s).1.once = s.once) ∨
      ((alloc_thread_local e t s).1.glob_tevent_reg =
          (get_global_tevent_register e s).1.glob_tevent_reg ∧
        (alloc_thread_local e t s).1.once = (get_global_tevent_register e s).1.once)) := by
  by_cases ht : s.tls t = 0
  swap
  · obtain ⟨hk, -⟩ := h.tls t ht
    rw [alloc_have e t s hk ht] at h0
    exact absurd h0 ht
  have hget := get_handler_zero ht
  have hz : s.nextSlot ≠ 0 := by have := h.nz; omega
  by_cases ha : e.slotAlloc = true
  swap
  · rw [alloc_nomem e t s hget (by simpa using ha)]
    exact ⟨rfl, fun _ => rfl, Or.inl ⟨rfl, rfl⟩⟩
  by_cases hs : s.destructor_key = -1 ∨ e.setLocal = false
  · rw [alloc_noset e t s hget ha hs]
    exact ⟨by simp [State.newCell], newCell_free_heap h,
      Or.inl ⟨by simp [State.newCell], by simp [State.newCell]⟩⟩
  have hk : s.destructor_key ≠ -1 := fun hc => hs (Or.inl hc)
  have hset : e.setLocal = true := by
    by_contra hc; exact hs (Or.inr (by simpa using hc))
  obtain ⟨-, c2, c3⟩ := get_global_congr e s
    { s.newCell with tls := Function.update s.tls t s.nextSlot } rfl rfl
  by_cases hp : (get_global_tevent_register e s).2 = none ∨ e.push = false
  · rw [alloc_nopush e t s hget ha hk hset hp]
    refine ⟨?_, ?_, Or.inr ⟨by simpa using c3, by simpa using c2⟩⟩
    · funext u
      by_cases hu : u = t
      · subst hu; simp [ht]
      · simp [Function.update_noteq hu]
    · intro b
      have := newCell_free_heap h b
      rw [free_heap] at this ⊢
      simpa using this
  · have hpush : e.push = true := by
      by_contra hc; exact hp (Or.inr (by simpa using hc))
    cases hr : (get_global_tevent_register e s).2 with
    | none => exact absurd (Or.inl hr) hp
    | some sk =>
      rw [alloc_push e t s hget ha hk hset hr hpush] at h0
      exact absurd h0 hz

/-- The stages at which `alloc_thread_local` fails for a thread without a
slot. -/
theorem alloc_zero_of_flags {s : State} (e : Env) (t : Nat) (ht : s.tls t = 0)
    (hc : e.slotAlloc = false ∨ s.destructor_key = -1 ∨ e.setLocal = false ∨
      (get_global_tevent_register e s).2 = none ∨ e.push = false) :
    (alloc_thread_local e t s).2 = 0 := by
  have hget := get_handler_zero ht
  by_cases ha : e.slotAlloc = true
  swap
  · rw [alloc_nomem e t s hget (by simpa using ha)]
  by_cases hs : s.destructor_key = -1 ∨ e.setLocal = false
  · rw [alloc_noset e t s hget ha hs]
  have hk : s.destructor_key ≠ -1 := fun hx => hs (Or.inl hx)
  have hset : e.setLocal = true := by
    by_contra hx; exact hs (Or.inr (by simpa using hx))
  have hp : (get_global_tevent_register e s).2 = none ∨ e.push = false := by
    rcases hc with hc | hc | hc | hc | hc
    · rw [ha] at hc; simp at hc
    · exact absurd hc hk
    · rw [hset] at hc; simp at hc
    · exact Or.inl hc
    · exact Or.inr hc
  rw [alloc_nopush e t s hget ha hk hset hp]

/-- The slot a succeeding `alloc_thread_local` creates for a thread without
a slot. -/
theorem alloc_new_slot {s : State} (h : PtrInv s) (e : Env) (t : Nat) (ht : s.tls t = 0)
    (h0 : (alloc_thread_local e t s).2 ≠ 0) :
    (alloc_thread_local e t s).2 = s.nextSlot ∧
    s.nextSlot ≠ 0 ∧
    (alloc_thread_local e t s).1.tls t = s.nextSlot ∧
    (alloc_thread_local e t s).1.glob_tevent_reg =
      some ((s.glob_tevent_reg).getD [] ++ [s.nextSlot]) ∧
    (alloc_thread_local e t s).1.heap s.nextSlot = some [] ∧
    s.heap s.nextSlot = none := by
  obtain ⟨a1, -, -, -, -, -, -, -, a9, -, a11⟩ := alloc_spec h e t
  obtain ⟨b1, -, sk, b3, b4⟩ := a11 ht h0
  obtain ⟨-, c2, sk2, c3, c4⟩ := a9 h0
  have hz : s.nextSlot ≠ 0 := by have := h.nz; omega
  have hseq := h.get_global_seq e
  rw [b3] at hseq
  simp only [Option.getD_some] at hseq
  have hfresh : s.heap s.nextSlot = none := h.fresh _ le_rfl
  refine ⟨b1, hz, by rw [c2, b1], by rw [b4, hseq], ?_, hfresh⟩
  have hlive := (a1.reg sk2 c3).2.2 _ c4
  rw [b1] at hlive
  have hloc := (alloc_spec h e t).2.2.2.2.2.1 s.nextSlot
  simp only [State.loc, hfresh, Option.getD_none] at hloc
  cases hh : (alloc_thread_local e t s).1.heap s.nextSlot with
  | none => rw [hh] at hlive; simp at hlive
  | some l => rw [hh] at hloc; simp at hloc; rw [hloc]

/-- C11, counterexample: right after library initialisation thread 1 has no
slot and the registry holds none; an `ossl_init_thread_start` whose record
allocation fails returns 0 and leaves the slot it created installed in the
thread-local storage and in the registry. -/
theorem C11_failed_start_rolls_everything_back_counterexample :
    (run State.init [Op.init Env.ok]).tls 1 = 0 ∧
    ((run State.init [Op.init Env.ok]).glob_tevent_reg).getD [] = [] ∧
    (ossl_init_thread_start ⟨true, true, true, true, true, true, false, true⟩ 1 10 20 30
      (run State.init [Op.init Env.ok])).2 = false ∧
    (ossl_init_thread_start ⟨true, true, true, true, true, true, false, true⟩ 1 10 20 30
      (run State.init [Op.init Env.ok])).1.tls 1 = 1 ∧
    ((ossl_init_thread_start ⟨true, true, true, true, true, true, false, true⟩ 1 10 20 30
      (run State.init [Op.init Env.ok])).1.glob_tevent_reg).getD [] = [1] := by
  decide

/-- C11, amended: an `ossl_init_thread_start` that returns 0 adds no record
and leaves every handler list as it was.  In the full-library build a thread
that had a slot sees no change at all; for a thread without a slot, a failure
of the slot allocation, of the thread-local install or of the registry
insertion leaves the thread-local values, the registry's slot sequence and
the heap as before, while a failure of the record allocation leaves the new,
empty slot installed and registered.  In the `FIPS_MODULE` build a failure of
the slot allocation or of the install leaves the thread-local values as
before, while a failure of the host upcall or of the record allocation leaves
a newly created slot installed. -/
theorem C11_failed_start_adds_no_record (s : State) (hs : Reachable s) (e : Env)
    (t index arg handfn : Nat)
    (hfail : (ossl_init_thread_start e t index arg handfn s).2 = false)
    (f : Fips.State) (hf : Fips.Reachable f) (fe : Fips.Env) (ft findex farg fhandfn : Nat)
    (hffail : (Fips.ossl_init_thread_start fe ft findex farg fhandfn f).2 = false) :
    ((∀ b, (ossl_init_thread_start e t index arg handfn s).1.loc b = s.loc b) ∧
     (ossl_init_thread_start e t index arg handfn s).1.nextRec = s.nextRec ∧
     (ossl_init_thread_start e t index arg handfn s).1.fired = s.fired ∧
     (s.tls t ≠ 0 → (ossl_init_thread_start e t index arg handfn s).1 = s) ∧
     (s.tls t = 0 →
       e.slotAlloc = false ∨ s.destructor_key = -1 ∨ e.setLocal = false ∨
         (get_global_tevent_register e s).2 = none ∨ e.push = false →
       (ossl_init_thread_start e t index arg handfn s).1.tls = s.tls ∧
       ((ossl_init_thread_start e t index arg handfn s).1.glob_tevent_reg).getD [] =
         (s.glob_tevent_reg).getD [] ∧
       ∀ b, (ossl_init_thread_start e t index arg handfn s).1.heap b = s.heap b) ∧
     (s.tls t = 0 → e.slotAlloc = true → s.destructor_key ≠ -1 → e.setLocal = true →
       (get_global_tevent_register e s).2 ≠ none → e.push = true →
       e.recAlloc = false ∧
       (ossl_init_thread_start e t index arg handfn s).1.tls t = s.nextSlot ∧
       s.nextSlot ≠ 0 ∧
       (ossl_init_thread_start e t index arg handfn s).1.glob_tevent_reg =
         some ((s.glob_tevent_reg).getD [] ++ [s.nextSlot]) ∧
       (ossl_init_thread_start e t index arg handfn s).1.heap s.nextSlot = some [])) ∧
    ((∀ b, (Fips.ossl_init_thread_start fe ft findex farg fhandfn f).1.loc b = f.loc b) ∧
     (Fips.ossl_init_thread_start fe ft findex farg fhandfn f).1.nextRec = f.nextRec ∧
     (Fips.ossl_init_thread_start fe ft findex farg fhandfn f).1.fired = f.fired ∧
     (fe.slotAlloc = false ∨ fe.setLocal = false ∨ f.tls ft farg ≠ 0 →
       (Fips.ossl_init_thread_start fe ft findex farg fhandfn f).1.tls = f.tls) ∧
     (f.tls ft farg = 0 → fe.slotAlloc = true → fe.setLocal = true →
       (Fips.ossl_init_thread_start fe ft findex farg fhandfn f).1.tls ft farg =
         f.nextSlot ∧
       f.nextSlot ≠ 0 ∧ (fe.upcall = false ∨ fe.recAlloc = false))) := by
  have hp := hs.ptrInv
  constructor
  · obtain ⟨-, s1, -, -, -, s5, -⟩ := start_spec hp e t index arg handfn
    obtain ⟨n1, l1⟩ := s5 hfail
    have hrec : (alloc_thread_local e t s).2 ≠ 0 → e.recAlloc = false ∧
        (ossl_init_thread_start e t index arg handfn s).1 = (alloc_thread_local e t s).1 := by
      intro h2
      have hr : e.recAlloc = false := by
        by_contra hc
        rw [start_ok e t index arg handfn s h2 (by simpa using hc)] at hfail
        simp at hfail
      exact ⟨hr, by rw [start_fail_rec e t index arg handfn s hr]⟩
    refine ⟨l1, n1, s1, ?_, ?_, ?_⟩
    · intro ht
      have hk : s.destructor_key ≠ -1 := (hp.tls t ht).1
      have ha := alloc_have e t s hk ht
      rw [(hrec (by rw [ha]; exact ht)).2, ha]
    · intro ht hc
      have h0 := alloc_zero_of_flags e t ht hc
      obtain ⟨r1, r2, r3⟩ := alloc_fail_reg hp e t h0
      rw [start_fail_slot e t index arg handfn s h0]
      refine ⟨r1, ?_, r2⟩
      rcases r3 with ⟨r3, -⟩ | ⟨r3, -⟩
      · rw [r3]
      · rw [r3]; exact hp.get_global_seq e
    · intro ht hsa hk hse hgg hpu
      have h2 : (alloc_thread_local e t s).2 ≠ 0 := by
        cases hr : (get_global_tevent_register e s).2 with
        | none => exact absurd hr hgg
        | some sk =>
          rw [alloc_push e t s (get_handler_zero ht) hsa hk hse hr hpu]
          have := hp.nz
          simp only; omega
      obtain ⟨hr, hst⟩ := hrec h2
      obtain ⟨-, m2, m3, m4, m5, -⟩ := alloc_new_slot hp e t ht h2
      rw [hst]
      exact ⟨hr, m3, m2, m4, m5⟩
  · obtain ⟨-, q⟩ :=
      Fips.fips_start_spec (Fips.fips_inv_reachable hf) fe ft findex farg fhandfn
    obtain ⟨q1, q2, q3, -, q5, q6⟩ := q hffail
    exact ⟨q3, q2, q1, q5, q6⟩

/-- C11, amended, witness: in both builds a start whose record allocation
fails right after initialisation adds no record. -/
theorem C11_failed_start_adds_no_record_witness :
    (ossl_init_thread_start ⟨true, true, true, true, true, true, false, true⟩ 1 10 20 30
      (run State.init [Op.init Env.ok])).1.nextRec =
        (run State.init [Op.init Env.ok]).nextRec ∧
    (Fips.ossl_init_thread_start ⟨true, true, true, false⟩ 1 0 20 30
      (Fips.run Fips.State.init [])).1.nextRec = (Fips.run Fips.State.init []).nextRec :=
  ⟨(C11_failed_start_adds_no_record (run State.init [Op.init Env.ok])
      ⟨[Op.init Env.ok], rfl⟩ ⟨true, true, true, true, true, true, false, true⟩ 1 10 20 30
      (by decide) (Fips.run Fips.State.init []) ⟨[], rfl⟩ ⟨true, true, true, false⟩
      1 0 20 30 (by decide)).1.2.1,
   (C11_failed_start_adds_no_record (run State.init [Op.init Env.ok])
      ⟨[Op.init Env.ok], rfl⟩ ⟨true, true, true, true, true, true, false, true⟩ 1 10 20 30
      (by decide) (Fips.run Fips.State.init []) ⟨[], rfl⟩ ⟨true, true, true, false⟩
      1 0 20 30 (by decide)).2.2.1⟩

/-- C15, counterexample: in the full-library build thread 1 holds one record
with argument 20; after `ossl_ctx_thread_stop` for context 20 has invoked it,
the slot is still the thread-local value of thread 1, still in the registry
and still allocated. -/
theorem C15_context_stop_is_a_full_teardown_counterexample :
    (ossl_ctx_thread_stop Env.ok 1 20
      (run State.init [Op.init Env.ok, Op.start Env.ok 1 10 20 30])).fired =
        [⟨0, 10, 20, 30⟩] ∧
    (ossl_ctx_thread_stop Env.ok 1 20
      (run State.init [Op.init Env.ok, Op.start Env.ok 1 10 20 30])).tls 1 = 1 ∧
    (ossl_ctx_thread_stop Env.ok 1 20
      (run State.init [Op.init Env.ok, Op.start Env.ok 1 10 20 30])).glob_tevent_reg =
        some [1] ∧
    (ossl_ctx_thread_stop Env.ok 1 20
      (run State.init [Op.init Env.ok, Op.start Env.ok 1 10 20 30])).heap 1 = some [] := by
  decide

/-- C15, amended: in the `FIPS_MODULE` build `ossl_ctx_thread_stop` invokes
the records the context selects, nulls the thread-local value of the thread
and context and releases the slot.  In the full-library build
`ossl_ctx_thread_stop`, and `OPENSSL_thread_stop_ex` through it, only invokes
and unlinks the records the context selects: the thread-local values, an
available registry's slot sequence and the set of allocated slots stay as
they were. -/
theorem C15_context_stop_by_build (s : State) (hs : Reachable s) (e : Env) (t ctx : Nat)
    (concrete : Nat → Nat) (f : Fips.State) (hf : Fips.Reachable f) (fe : Fips.Env)
    (ft fctx : Nat) :
    ((Fips.ossl_ctx_thread_stop fe ft fctx f).fired =
        f.fired ++
          (f.loc (f.tls ft fctx)).filter (fun c => decide (fctx = 0 ∨ c.arg = fctx)) ∧
     (Fips.ossl_ctx_thread_stop fe ft fctx f).tls ft fctx = 0 ∧
     (f.tls ft fctx ≠ 0 →
        (Fips.ossl_ctx_thread_stop fe ft fctx f).heap (f.tls ft fctx) = none)) ∧
    ((ossl_ctx_thread_stop e t ctx s).fired =
        s.fired ++ (s.loc (s.tls t)).filter (fun c => decide (ctx = 0 ∨ c.arg = ctx)) ∧
     (ossl_ctx_thread_stop e t ctx s).loc (s.tls t) =
        (s.loc (s.tls t)).filter (fun c => !decide (ctx = 0 ∨ c.arg = ctx)) ∧
     (ossl_ctx_thread_stop e t ctx s).tls = s.tls ∧
     (∀ sk, s.glob_tevent_reg = some sk →
        (ossl_ctx_thread_stop e t ctx s).glob_tevent_reg = some sk) ∧
     (∀ b, ((ossl_ctx_thread_stop e t ctx s).heap b).isSome = (s.heap b).isSome) ∧
     OPENSSL_thread_stop_ex concrete e t ctx s =
        ossl_ctx_thread_stop e t (concrete ctx) s) := by
  have hp := hs.ptrInv
  constructor
  · obtain ⟨c1, c2, -, c4, -⟩ :=
      Fips.fips_ctx_stop_spec (Fips.fips_inv_reachable hf) fe ft fctx
    exact ⟨c1, c2, c4⟩
  · by_cases hk : s.destructor_key = -1
    · rw [ctx_stop_off e t ctx s hk, hp.tls_zero_of_key hk t, hp.loc_null]
      exact ⟨by simp, by simp, rfl, fun _ h => h, fun _ => rfl, rfl⟩
    · rw [ctx_stop_eq e t ctx s hk]
      obtain ⟨-, i1, i2, -, i4, i5, -, -, -, -, i10⟩ :=
        init_thread_stop_spec hp e ctx (s.tls t) (fun ht => hp.live_of_tls ht)
      refine ⟨i1, i2, i5, ?_, i4, ?_⟩
      · intro sk hsk
        have hran : s.once ≠ none := by rw [hp.ran sk hsk]; simp
        rw [(i10 hran).2]; exact hsk
      · rfl

/-- C15, amended, witness: a context stop in either build, right after one
registration. -/
theorem C15_context_stop_by_build_witness :
    (Fips.ossl_ctx_thread_stop Fips.Env.ok 1 20
      (Fips.run Fips.State.init [Fips.Op.start Fips.Env.ok 1 0 20 30])).tls 1 20 = 0 ∧
    (ossl_ctx_thread_stop Env.ok 1 20
      (run State.init [Op.init Env.ok, Op.start Env.ok 1 10 20 30])).tls =
      (run State.init [Op.init Env.ok, Op.start Env.ok 1 10 20 30]).tls :=
  ⟨(C15_context_stop_by_build (run State.init [Op.init Env.ok, Op.start Env.ok 1 10 20 30])
      ⟨[Op.init Env.ok, Op.start Env.ok 1 10 20 30], rfl⟩ Env.ok 1 20 id
      (Fips.run Fips.State.init [Fips.Op.start Fips.Env.ok 1 0 20 30])
      ⟨[Fips.Op.start Fips.Env.ok 1 0 20 30], rfl⟩ Fips.Env.ok 1 20).1.2.1,
   (C15_context_stop_by_build (run State.init [Op.init Env.ok, Op.start Env.ok 1 10 20 30])
      ⟨[Op.init Env.ok, Op.start Env.ok 1 10 20 30], rfl⟩ Env.ok 1 20 id
      (Fips.run Fips.State.init [Fips.Op.start Fips.Env.ok 1 0 20 30])
      ⟨[Fips.Op.start Fips.Env.ok 1 0 20 30], rfl⟩ Fips.Env.ok 1 20).2.2.2.1⟩

theorem start_reg_eq (e : Env) (t index arg handfn : Nat) (s : State) :
    (ossl_init_thread_start e t index arg handfn s).1.tls =
      (alloc_thread_local e t s).1.tls ∧
    (ossl_init_thread_start e t index arg handfn s).1.glob_tevent_reg =
      (alloc_thread_local e t s).1.glob_tevent_reg ∧
    (ossl_init_thread_start e t index arg handfn s).1.once =
      (alloc_thread_local e t s).1.once ∧
    (ossl_init_thread_start e t index arg handfn s).1.nextSlot =
      (alloc_thread_local e t s).1.nextSlot := by
  by_cases h0 : (alloc_thread_local e t s).2 = 0
  · rw [start_fail_slot e t index arg handfn s h0]
    exact ⟨rfl, rfl, rfl, rfl⟩
  · by_cases hr : e.recAlloc = true
    · rw [start_ok e t index arg handfn s h0 hr]
      exact ⟨rfl, rfl, rfl, rfl⟩
    · rw [start_fail_rec e t index arg handfn s (by simpa using hr)]
      exact ⟨rfl, rfl, rfl, rfl⟩

/-- How `ossl_init_thread_start` treats the caller's slot and the registry's
slot sequence. -/
theorem start_slot_spec {s : State} (hp : PtrInv s) (e : Env) (t index arg handfn : Nat) :
    (s.tls t ≠ 0 →
      (ossl_init_thread_start e t index arg handfn s).1.tls = s.tls ∧
      (ossl_init_thread_start e t index arg handfn s).1.glob_tevent_reg =
        s.glob_tevent_reg ∧
      (ossl_init_thread_start e t index arg handfn s).1.nextSlot = s.nextSlot) ∧
    (s.tls t = 0 → (ossl_init_thread_start e t index arg handfn s).1.tls t = 0 →
      (ossl_init_thread_start e t index arg handfn s).1.tls = s.tls ∧
      ((ossl_init_thread_start e t index arg handfn s).1.glob_tevent_reg).getD [] =
        (s.glob_tevent_reg).getD []) ∧
    (s.tls t = 0 → (ossl_init_thread_start e t index arg handfn s).1.tls t ≠ 0 →
      (ossl_init_thread_start e t index arg handfn s).1.tls t = s.nextSlot ∧
      s.heap s.nextSlot = none ∧
      (ossl_init_thread_start e t index arg handfn s).1.glob_tevent_reg =
        some ((s.glob_tevent_reg).getD [] ++ [s.nextSlot])) := by
  obtain ⟨q1, q2, -, q4⟩ := start_reg_eq e t index arg handfn s
  rw [q1, q2, q4]
  refine ⟨?_, ?_, ?_⟩
  · intro ht
    have hk : s.destructor_key ≠ -1 := (hp.tls t ht).1
    rw [alloc_have e t s hk ht]
    exact ⟨rfl, rfl, rfl⟩
  · intro ht h1
    have h0 : (alloc_thread_local e t s).2 = 0 := by
      by_contra hc
      have := ((alloc_spec hp e t).2.2.2.2.2.2.2.2.1 hc).2.1
      rw [h1] at this
      exact hc this.symm
    obtain ⟨r1, -, r3⟩ := alloc_fail_reg hp e t h0
    refine ⟨r1, ?_⟩
    rcases r3 with ⟨r3, -⟩ | ⟨r3, -⟩
    · rw [r3]
    · rw [r3]; exact hp.get_global_seq e
  · intro ht h1
    have h0 : (alloc_thread_local e t s).2 ≠ 0 := by
      intro hc
      rw [(alloc_fail_reg hp e t hc).1] at h1
      exact h1 ht
    obtain ⟨-, -, m3, m4, -, m6⟩ := alloc_new_slot hp e t ht h0
    exact ⟨m3, m6, m4⟩

theorem BackInv.back_stop_body {s : State} (hp : PtrInv s) (hb : BackInv s) (e : Env)
    (t : Nat) : BackInv (stop_body e t s) := by
  obtain ⟨-, -, f2, -, -, -, -, -, f8, f9⟩ := stop_body_spec hp e t
  intro a ha
  by_cases ho : s.once = none
  · rw [(f9 ho).2] at ha
    by_cases hc : e.creates = true
    · rw [if_pos hc] at ha; simp at ha
    · rw [if_neg hc] at ha; simp at ha
  · rw [(f8 ho).2] at ha
    cases hg : s.glob_tevent_reg with
    | none => rw [hg] at ha; simp at ha
    | some sk =>
      rw [hg] at ha
      simp only [Option.map_some', Option.getD_some] at ha
      have hnd := (hp.reg sk hg).2.1
      have hne : a ≠ s.tls t := fun hc => (List.Nodup.not_mem_erase hnd) (hc ▸ ha)
      obtain ⟨u, hu⟩ := hb a (by rw [hg]; exact List.mem_of_mem_erase ha)
      have hut : u ≠ t := fun hc => hne (by rw [← hu, hc])
      exact ⟨u, by rw [f2, Function.update_noteq hut]; exact hu⟩

theorem BackInv.back_step {s : State} (hp : PtrInv s) (hb : BackInv s) (op : Op) :
    BackInv (step s op) := by
  have hmem : ∀ a, a ∈ (s.glob_tevent_reg).getD [] → a ≠ 0 ∧
      ∃ sk, s.glob_tevent_reg = some sk ∧ a ∈ sk := by
    intro a ha
    cases hg : s.glob_tevent_reg with
    | none => rw [hg] at ha; simp at ha
    | some sk =>
      rw [hg] at ha
      simp only [Option.getD_some] at ha
      exact ⟨fun hc => (hp.reg sk hg).1 (hc ▸ ha), sk, rfl, ha⟩
  cases op with
  | init e =>
    simp only [step]
    split
    · next hk =>
      unfold ossl_init_thread; split
      · intro a ha
        obtain ⟨u, hu⟩ := hb a ha
        have := hp.tls_zero_of_key hk u
        exact absurd (hu ▸ this) (hmem a ha).1
      · exact hb
    · exact hb
  | start e t index arg handfn =>
    obtain ⟨c1, c2, c3⟩ := start_slot_spec hp e t index arg handfn
    have hother := (start_spec hp e t index arg handfn).2.2.2.2.1
    simp only [step]
    by_cases ht : s.tls t = 0
    swap
    · obtain ⟨d1, d2, -⟩ := c1 ht
      intro a ha
      rw [d2] at ha; rw [d1]; exact hb a ha
    by_cases h1 : (ossl_init_thread_start e t index arg handfn s).1.tls t = 0
    · obtain ⟨d1, d2⟩ := c2 ht h1
      intro a ha
      rw [d2] at ha; rw [d1]; exact hb a ha
    · obtain ⟨d1, -, d3⟩ := c3 ht h1
      intro a ha
      rw [d3] at ha
      simp only [Option.getD_some, List.mem_append, List.mem_singleton] at ha
      rcases ha with ha | ha
      · obtain ⟨u, hu⟩ := hb a ha
        have hut : u ≠ t := by
          intro hc; rw [hc, ht] at hu
          exact (hmem a ha).1 hu.symm
        exact ⟨u, by rw [hother u hut]; exact hu⟩
      · exact ⟨t, by rw [d1, ha]⟩
  | deregister e index =>
    obtain ⟨-, -, d2, -, -, -, -, -, d8, -, -, -⟩ := deregister_spec hp e index
    simp only [step]
    intro a ha
    rw [d8, hp.get_global_seq e] at ha
    rw [d2]; exact hb a ha
  | threadStop e t =>
    simp only [step]
    by_cases hk : s.destructor_key = -1
    · rw [OPENSSL_thread_stop_off e t s hk]; exact hb
    · rw [OPENSSL_thread_stop_eq e t s hk]
      exact BackInv.back_stop_body hp hb e t
  | ctxStop e t ctx =>
    simp only [step]
    by_cases hk : s.destructor_key = -1
    · rw [ctx_stop_off e t ctx s hk]; exact hb
    · rw [ctx_stop_eq e t ctx s hk]
      by_cases ho : s.once = none
      · have ht : s.tls t = 0 := by
          by_contra hc
          have := hp.once_of_tls hc
          rw [ho] at this; simp at this
        rw [ht, init_thread_stop_null]; exact hb
      · obtain ⟨-, -, -, -, -, i5, -, -, -, -, i10⟩ :=
          init_thread_stop_spec hp e ctx (s.tls t) (fun ht => hp.live_of_tls ht)
        intro a ha
        rw [(i10 ho).2] at ha
        rw [i5]; exact hb a ha
  | threadExit e t =>
    simp only [step]
    by_cases hk : s.destructor_key = -1 ∨ s.tls t = 0
    · rw [thread_exit_off e t s hk]; exact hb
    · rw [thread_exit_eq e t s (fun hc => hk (Or.inl hc)) (fun hc => hk (Or.inr hc))]
      exact BackInv.back_stop_body hp hb e t
  | cleanup e =>
    simp only [step]
    intro a ha
    rw [(cleanup_spec hp e).2.2.1] at ha
    simp at ha

theorem Reachable.backInv {s : State} (h : Reachable s) : BackInv s := by
  obtain ⟨ops, rfl⟩ := h
  have key : ∀ (x : State), PtrInv x → BackInv x → BackInv (run x ops) := by
    induction ops with
    | nil => intro x _ hx; exact hx
    | cons op ops ih =>
      intro x hpx hx
      exact ih (step x op) (hpx.keeps_step op) (hx.back_step hpx op)
  exact key _ PtrInv.holds_initially (by intro a ha; simp [State.init] at ha)

/-- C13, counterexample: the first `ossl_init_thread_start` of thread 1 fails
on the record allocation, after it has created the slot and its registry
entry; the next one is the thread's first successful start, and it creates no
slot and adds no entry. -/
theorem C13_first_successful_start_creates_the_slot_counterexample :
    (ossl_init_thread_start ⟨true, true, true, true, true, true, false, true⟩ 1 10 20 30
      (run State.init [Op.init Env.ok])).2 = false ∧
    (ossl_init_thread_start ⟨true, true, true, true, true, true, false, true⟩ 1 10 20 30
      (run State.init [Op.init Env.ok])).1.glob_tevent_reg = some [1] ∧
    (ossl_init_thread_start Env.ok 1 10 20 30
      (ossl_init_thread_start ⟨true, true, true, true, true, true, false, true⟩ 1 10 20 30
        (run State.init [Op.init Env.ok])).1).2 = true ∧
    (ossl_init_thread_start Env.ok 1 10 20 30
      (ossl_init_thread_start ⟨true, true, true, true, true, true, false, true⟩ 1 10 20 30
        (run State.init [Op.init Env.ok])).1).1.glob_tevent_reg = some [1] ∧
    (ossl_init_thread_start Env.ok 1 10 20 30
      (ossl_init_thread_start ⟨true, true, true, true, true, true, false, true⟩ 1 10 20 30
        (run State.init [Op.init Env.ok])).1).1.nextSlot =
      (ossl_init_thread_start ⟨true, true, true, true, true, true, false, true⟩ 1 10 20 30
        (run State.init [Op.init Env.ok])).1.nextSlot := by
  decide

/-- C13, amended: an `ossl_init_thread_start` by a thread without a slot that
leaves the thread with a slot (it returns 1, or fails only on the record
allocation) has created one fresh slot and appended exactly one entry for it
to the registry's sequence; one that leaves the thread without a slot leaves
the sequence as it was; and every start by a thread that has a slot keeps the
slot, allocates none and leaves the sequence as it was.  In every reachable
state the registry's sequence has no duplicates, each entry is the slot of
exactly one thread, and the slot of every thread that has one is an entry. -/
theorem C13_one_registry_entry_per_slot (s : State) (hs : Reachable s) (e : Env)
    (t index arg handfn : Nat) :
    (s.tls t = 0 → (ossl_init_thread_start e t index arg handfn s).1.tls t ≠ 0 →
      (ossl_init_thread_start e t index arg handfn s).1.tls t = s.nextSlot ∧
      s.heap s.nextSlot = none ∧
      (ossl_init_thread_start e t index arg handfn s).1.glob_tevent_reg =
        some ((s.glob_tevent_reg).getD [] ++ [s.nextSlot])) ∧
    (s.tls t = 0 → (ossl_init_thread_start e t index arg handfn s).1.tls t = 0 →
      ((ossl_init_thread_start e t index arg handfn s).1.glob_tevent_reg).getD [] =
        (s.glob_tevent_reg).getD []) ∧
    (s.tls t ≠ 0 →
      (ossl_init_thread_start e t index arg handfn s).1.tls = s.tls ∧
      (ossl_init_thread_start e t index arg handfn s).1.glob_tevent_reg =
        s.glob_tevent_reg ∧
      (ossl_init_thread_start e t index arg handfn s).1.nextSlot = s.nextSlot) ∧
    ((ossl_init_thread_start e t index arg handfn s).2 = true →
      (ossl_init_thread_start e t index arg handfn s).1.tls t ≠ 0) ∧
    ((s.glob_tevent_reg).getD []).Nodup ∧
    (∀ a ∈ (s.glob_tevent_reg).getD [], ∃ u, s.tls u = a ∧ ∀ v, s.tls v = a → v = u) ∧
    (∀ u, s.tls u ≠ 0 → s.tls u ∈ (s.glob_tevent_reg).getD []) := by
  have hp := hs.ptrInv
  have hb := hs.backInv
  obtain ⟨c1, c2, c3⟩ := start_slot_spec hp e t index arg handfn
  refine ⟨c3, fun ht h1 => (c2 ht h1).2, c1,
    fun hok => ((start_spec hp e t index arg handfn).2.2.2.2.2.2 hok).2.1, ?_, ?_, ?_⟩
  · cases hg : s.glob_tevent_reg with
    | none => simp
    | some sk => exact (hp.reg sk hg).2.1
  · intro a ha
    obtain ⟨u, hu⟩ := hb a ha
    refine ⟨u, hu, fun v hv => ?_⟩
    have ha0 : a ≠ 0 := by
      cases hg : s.glob_tevent_reg with
      | none => rw [hg] at ha; simp at ha
      | some sk =>
        rw [hg] at ha
        exact fun hc => (hp.reg sk hg).1 (hc ▸ ha)
    exact hp.inj v u (hv.trans hu.symm) (by rw [hv]; exact ha0)
  · intro u hu
    obtain ⟨-, sk, hsk, hm⟩ := hp.tls u hu
    rw [hsk]; exact hm

/-- C13, amended, witness: after the first start of thread 1, a first start
of thread 2 appends its fresh slot to the registry's sequence. -/
theorem C13_one_registry_entry_per_slot_witness :
    (ossl_init_thread_start Env.ok 2 11 21 31
      (run State.init [Op.init Env.ok, Op.start Env.ok 1 10 20 30])).1.glob_tevent_reg =
      some [1, 2] :=
  ((C13_one_registry_entry_per_slot
    (run State.init [Op.init Env.ok, Op.start Env.ok 1 10 20 30])
    ⟨[Op.init Env.ok, Op.start Env.ok 1 10 20 30], rfl⟩ Env.ok 2 11 21 31).1
    (by decide) (by decide)).2.2

/-! ## The registry's sequence and the allocated slots -/

/-- A successful `alloc_thread_local` of a thread without a slot allocates the
cell at the counter and no other. -/
theorem alloc_heap_new {s : State} (e : Env) (t : Nat) (ht : s.tls t = 0)
    (h0 : (alloc_thread_local e t s).2 ≠ 0) (b : Nat) (hb : b ≠ s.nextSlot) :
    (alloc_thread_local e t s).1.heap b = s.heap b := by
  have hflag : ¬ (e.slotAlloc = false ∨ s.destructor_key = -1 ∨ e.setLocal = false ∨
      (get_global_tevent_register e s).2 = none ∨ e.push = false) :=
    fun hc => h0 (alloc_zero_of_flags e t ht hc)
  push_neg at hflag
  obtain ⟨f1, f2, f3, f4, f5⟩ := hflag
  obtain ⟨sk, hsk⟩ := Option.ne_none_iff_exists'.mp f4
  rw [alloc_push e t s (get_handler_zero ht) (by simpa using f1) f2 (by simpa using f3) hsk
    (by simpa using f5)]
  show (get_global_tevent_register e _).1.heap b = s.heap b
  rw [(get_global_frame e _).2.1]
  simp [State.newCell, Function.update_noteq hb]

/-- The cells allocated after `ossl_init_thread_start` are those allocated
after its `alloc_thread_local`. -/
theorem start_heap_live {s : State} (h : PtrInv s) (e : Env) (t index arg handfn : Nat)
    (b : Nat) :
    ((ossl_init_thread_start e t index arg handfn s).1.heap b).isSome =
      ((alloc_thread_local e t s).1.heap b).isSome := by
  obtain ⟨a1, -, -, -, -, -, -, -, a9, -, -⟩ := alloc_spec h e t
  by_cases h0 : (alloc_thread_local e t s).2 = 0
  · rw [start_fail_slot e t index arg handfn s h0]
  by_cases hr : e.recAlloc = true
  swap
  · rw [start_fail_rec e t index arg handfn s (by simpa using hr)]
  rw [start_ok e t index arg handfn s h0 hr]
  show ((State.store _ _ _).heap b).isSome = _
  rw [store_heap]
  split
  · next hb =>
    obtain ⟨-, -, sk, hsk, hm⟩ := a9 h0
    rw [hb, (a1.reg sk hsk).2.2 _ hm]
    rfl
  · rfl

theorem LiveInv.live_stop_body {s : State} (hp : PtrInv s) (hl : LiveInv s) (e : Env)
    (t : Nat) : LiveInv (stop_body e t s) := by
  obtain ⟨-, -, -, -, -, -, -, f7, f8, f9⟩ := stop_body_spec hp e t
  intro a ha
  rw [f7] at ha
  split at ha
  · simp at ha
  · next hne =>
    have hm := hl a ha
    have ho : s.once ≠ none := by
      intro hc
      cases hg : s.glob_tevent_reg with
      | none => rw [hg] at hm; simp at hm
      | some sk => rw [hp.ran sk hg] at hc; simp at hc
    rw [(f8 ho).2]
    cases hg : s.glob_tevent_reg with
    | none => rw [hg] at hm; simp at hm
    | some sk =>
      rw [hg] at hm
      simp only [Option.getD_some] at hm
      simp only [Option.map_some', Option.getD_some]
      have hat : a ≠ s.tls t := by
        intro hc
        have h0 : s.tls t ≠ 0 := by
          intro hz
          rw [hc, hz, hp.null] at ha
          simp at ha
        exact hne ⟨hc, h0⟩
      exact (List.mem_erase_of_ne hat).mpr hm

theorem LiveInv.live_step {s : State} (hp : PtrInv s) (hl : LiveInv s) (op : Op) :
    LiveInv (step s op) := by
  cases op with
  | init e =>
    simp only [step]
    split
    · unfold ossl_init_thread; split
      · exact hl
      · exact hl
    · exact hl
  | start e t index arg handfn =>
    obtain ⟨c1, c2, c3⟩ := start_slot_spec hp e t index arg handfn
    obtain ⟨r1, -, -, -⟩ := start_reg_eq e t index arg handfn s
    obtain ⟨-, -, -, -, -, -, -, a8, a9, a10, -⟩ := alloc_spec hp e t
    simp only [step]
    intro a ha
    rw [start_heap_live hp] at ha
    by_cases ht : s.tls t = 0
    swap
    · rw [(c1 ht).2.1]
      rw [a10 ht] at ha
      exact hl a ha
    by_cases h0 : (alloc_thread_local e t s).2 = 0
    · have h1 : (ossl_init_thread_start e t index arg handfn s).1.tls t = 0 := by
        rw [r1, a8 h0]; exact ht
      rw [(c2 ht h1).2]
      rw [(alloc_fail_reg hp e t h0).2.1] at ha
      exact hl a ha
    · have h1 : (ossl_init_thread_start e t index arg handfn s).1.tls t ≠ 0 := by
        rw [r1, (a9 h0).2.1]; exact h0
      rw [(c3 ht h1).2.2]
      simp only [Option.getD_some, List.mem_append, List.mem_singleton]
      by_cases hb : a = s.nextSlot
      · exact Or.inr hb
      · rw [alloc_heap_new e t ht h0 a hb] at ha
        exact Or.inl (hl a ha)
  | deregister e index =>
    obtain ⟨-, -, -, -, -, -, -, -, d8, -, d10, -⟩ := deregister_spec hp e index
    simp only [step]
    intro a ha
    rw [d10] at ha
    rw [d8, hp.get_global_seq e]
    exact hl a ha
  | threadStop e t =>
    simp only [step]
    by_cases hk : s.destructor_key = -1
    · rw [OPENSSL_thread_stop_off e t s hk]; exact hl
    · rw [OPENSSL_thread_stop_eq e t s hk]
      exact hl.live_stop_body hp e t
  | ctxStop e t ctx =>
    simp only [step]
    by_cases hk : s.destructor_key = -1
    · rw [ctx_stop_off e t ctx s hk]; exact hl
    · rw [ctx_stop_eq e t ctx s hk]
      by_cases ho : s.once = none
      · have ht : s.tls t = 0 := by
          by_contra hc
          have := hp.once_of_tls hc
          rw [ho] at this; simp at this
        rw [ht, init_thread_stop_null]; exact hl
      · obtain ⟨-, -, -, -, i4, -, -, -, -, -, i10⟩ :=
          init_thread_stop_spec hp e ctx (s.tls t) (fun ht => hp.live_of_tls ht)
        intro a ha
        rw [i4] at ha
        rw [(i10 ho).2]
        exact hl a ha
  | threadExit e t =>
    simp only [step]
    by_cases hk : s.destructor_key = -1 ∨ s.tls t = 0
    · rw [thread_exit_off e t s hk]; exact hl
    · rw [thread_exit_eq e t s (fun hc => hk (Or.inl hc)) (fun hc => hk (Or.inr hc))]
      exact hl.live_stop_body hp e t
  | cleanup e =>
    simp only [step]
    obtain ⟨-, -, -, -, -, -, -, -, -, -, c10⟩ := cleanup_spec hp e
    intro a ha
    rw [c10] at ha
    split at ha
    · simp at ha
    · next hn =>
      rw [hp.get_global_seq e] at hn
      exact absurd (hl a ha) hn

theorem Reachable.liveInv {s : State} (h : Reachable s) : LiveInv s := by
  obtain ⟨ops, rfl⟩ := h
  have key : ∀ (x : State), PtrInv x → LiveInv x → LiveInv (run x ops) := by
    induction ops with
    | nil => intro x _ hx; exact hx
    | cons op ops ih =>
      intro x hpx hx
      exact ih (step x op) (hpx.keeps_step op) (hx.live_step hpx op)
  exact key _ PtrInv.holds_initially (by intro a ha; simp [State.init] at ha)

/-- C25: in every state of the full-library build reachable from
initialisation by start, deregister, thread stop, context stop, thread exit
(and teardown) calls, the registry's slot sequence contains exactly the
allocated slot cells, which are exactly the non-null thread-local values of
the threads; each entry occurs once, belongs to exactly one thread, and no
entry is null. -/
theorem C25_registry_holds_exactly_the_live_slots (s : State) (hs : Reachable s) :
    (∀ a, a ∈ (s.glob_tevent_reg).getD [] ↔ (a ≠ 0 ∧ ∃ u, s.tls u = a)) ∧
    (∀ a, a ∈ (s.glob_tevent_reg).getD [] ↔ (s.heap a).isSome = true) ∧
    ((s.glob_tevent_reg).getD []).Nodup ∧
    (∀ a ∈ (s.glob_tevent_reg).getD [], ((s.glob_tevent_reg).getD []).count a = 1) ∧
    0 ∉ (s.glob_tevent_reg).getD [] ∧
    (∀ a ∈ (s.glob_tevent_reg).getD [], ∀ u v, s.tls u = a → s.tls v = a → u = v) := by
  have hp := hs.ptrInv
  have hb := hs.backInv
  have hl := hs.liveInv
  have hreg : 0 ∉ (s.glob_tevent_reg).getD [] ∧ ((s.glob_tevent_reg).getD []).Nodup ∧
      ∀ a ∈ (s.glob_tevent_reg).getD [], (s.heap a).isSome = true := by
    cases hg : s.glob_tevent_reg with
    | none => simp
    | some sk => exact hp.reg sk hg
  obtain ⟨hz, hnd, hlive⟩ := hreg
  have hne : ∀ a ∈ (s.glob_tevent_reg).getD [], a ≠ 0 := fun a ha hc => hz (hc ▸ ha)
  refine ⟨?_, ?_, hnd, ?_, hz, ?_⟩
  · intro a
    constructor
    · intro ha
      exact ⟨hne a ha, hb a ha⟩
    · rintro ⟨h0, u, hu⟩
      obtain ⟨-, sk, hsk, hm⟩ := hp.tls u (by rw [hu]; exact h0)
      rw [hsk, ← hu]; exact hm
  · intro a
    exact ⟨hlive a, hl a⟩
  · intro a ha
    exact List.count_eq_one_of_mem hnd ha
  · intro a ha u v hu hv
    exact hp.inj u v (hu.trans hv.symm) (by rw [hu]; exact hne a ha)

/-- C25, witness: after two threads have registered a handler each and the
first has stopped, the registry's sequence holds the slot of the second. -/
theorem C25_registry_holds_exactly_the_live_slots_witness :
    ((run State.init [Op.init Env.ok, Op.start Env.ok 1 10 20 30, Op.start Env.ok 2 11 21 31,
      Op.threadStop Env.ok 1]).glob_tevent_reg).getD [] = [2] ∧
    ((run State.init [Op.init Env.ok, Op.start Env.ok 1 10 20 30, Op.start Env.ok 2 11 21 31,
      Op.threadStop Env.ok 1]).heap 2).isSome = true :=
  ⟨by decide,
   ((C25_registry_holds_exactly_the_live_slots
      (run State.init [Op.init Env.ok, Op.start Env.ok 1 10 20 30, Op.start Env.ok 2 11 21 31,
        Op.threadStop Env.ok 1])
      ⟨[Op.init Env.ok, Op.start Env.ok 1 10 20 30, Op.start Env.ok 2 11 21 31,
        Op.threadStop Env.ok 1], rfl⟩).2.1 2).mp (by decide)⟩

namespace Fips

/-! ## Host upcalls and the library context of a slot -/

theorem fips_loc_null {s : State} (h : Inv s) : s.loc 0 = [] := by
  simp [State.loc, h.null]

theorem fips_slot_init : SlotInv State.init := by
  constructor
  · intro t c u d h; exact absurd rfl h
  · intro t c r hr; simp [State.init, State.loc] at hr

/-- Installing a fresh, empty cell as the value of one pair keeps the slot
discipline. -/
theorem fips_slot_install {s : State} (h : Inv s) (hs : SlotInv s) (t c : Nat) :
    SlotInv (s.newCell.setTls t c s.nextSlot) := by
  have hz : s.nextSlot ≠ 0 := by have := h.nz; omega
  have hfresh : s.heap s.nextSlot = none := h.fresh _ le_rfl
  have hloc : ∀ b, (s.newCell.setTls t c s.nextSlot).loc b = s.loc b := by
    intro b
    by_cases hb : b = s.nextSlot
    · subst hb; simp [State.loc, State.setTls, State.newCell, hfresh]
    · simp [State.loc, State.setTls, State.newCell, Function.update_noteq hb]
  have hsame : (s.newCell.setTls t c s.nextSlot).tls t c = s.nextSlot := fips_setTls_same _ _ _ _
  have hother : ∀ u d, u ≠ t ∨ d ≠ c →
      (s.newCell.setTls t c s.nextSlot).tls u d = s.tls u d :=
    fun u d hud => fips_setTls_other _ t c _ u d hud
  have hpair : ∀ u d, ¬ (u ≠ t ∨ d ≠ c) → u = t ∧ d = c := by
    intro u d hud
    constructor
    · by_contra hc; exact hud (Or.inl hc)
    · by_contra hc; exact hud (Or.inr hc)
  constructor
  · intro u d v w hne heq
    by_cases h1 : u ≠ t ∨ d ≠ c
    · by_cases h2 : v ≠ t ∨ w ≠ c
      · rw [hother u d h1] at hne heq
        rw [hother v w h2] at heq
        exact hs.inj u d v w hne heq
      · obtain ⟨rfl, rfl⟩ := hpair v w h2
        rw [hother u d h1, hsame] at heq
        have := h.below u d
        omega
    · obtain ⟨rfl, rfl⟩ := hpair u d h1
      by_cases h2 : v ≠ u ∨ w ≠ d
      · rw [hsame, hother v w h2] at heq
        have := h.below v w
        omega
      · obtain ⟨rfl, rfl⟩ := hpair v w h2
        exact ⟨rfl, rfl⟩
  · intro u d r hr
    rw [hloc] at hr
    by_cases h1 : u ≠ t ∨ d ≠ c
    · rw [hother u d h1] at hr
      exact hs.args u d r hr
    · obtain ⟨rfl, rfl⟩ := hpair u d h1
      rw [hsame] at hr
      simp [State.loc, hfresh] at hr

/-- A state with the same thread-local values whose slots hold records of
their own library context keeps the slot discipline. -/
theorem fips_slot_of_tls {s s' : State} (hs : SlotInv s) (ht : s'.tls = s.tls)
    (ha : ∀ t c, ∀ r ∈ s'.loc (s.tls t c), r.arg = c) : SlotInv s' := by
  constructor
  · intro t c u d; rw [ht]; exact hs.inj t c u d
  · intro t c; rw [ht]; exact ha t c

/-- Resetting the value of one pair keeps the slot discipline, whatever
happens to the cell it held. -/
theorem fips_slot_reset {s s' : State} (hs : SlotInv s) (h' : Inv s') (t c : Nat)
    (hz : s'.tls t c = 0) (ho : ∀ u d, u ≠ t ∨ d ≠ c → s'.tls u d = s.tls u d)
    (hh : ∀ b, b ≠ s.tls t c → s'.heap b = s.heap b) : SlotInv s' := by
  have hpair : ∀ u d, ¬ (u ≠ t ∨ d ≠ c) → u = t ∧ d = c := by
    intro u d hud
    constructor
    · by_contra hc; exact hud (Or.inl hc)
    · by_contra hc; exact hud (Or.inr hc)
  constructor
  · intro u d v w hne heq
    by_cases h1 : u ≠ t ∨ d ≠ c
    · by_cases h2 : v ≠ t ∨ w ≠ c
      · rw [ho u d h1] at hne heq
        rw [ho v w h2] at heq
        exact hs.inj u d v w hne heq
      · obtain ⟨rfl, rfl⟩ := hpair v w h2
        rw [hz] at heq
        exact absurd heq hne
    · obtain ⟨rfl, rfl⟩ := hpair u d h1
      exact absurd hz hne
  · intro u d r hr
    by_cases h1 : u ≠ t ∨ d ≠ c
    · rw [ho u d h1] at hr
      by_cases hb : s.tls u d = s.tls t c
      · by_cases h0 : s.tls u d = 0
        · rw [h0, fips_loc_null h'] at hr; simp at hr
        · obtain ⟨rfl, rfl⟩ := hs.inj u d t c h0 hb
          rcases h1 with h1 | h1 <;> exact absurd rfl h1
      · have : s'.loc (s.tls u d) = s.loc (s.tls u d) := by
          simp only [State.loc, hh _ hb]
        rw [this] at hr
        exact hs.args u d r hr
    · obtain ⟨rfl, rfl⟩ := hpair u d h1
      rw [hz, fips_loc_null h'] at hr; simp at hr

theorem fips_slot_alloc {s : State} (h : Inv s) (hs : SlotInv s) (e : Env) (t c : Nat) :
    SlotInv (alloc_thread_local e t c s).1 := by
  by_cases ht : s.tls t c = 0
  swap
  · rw [fips_alloc_have e t c s ht]; exact hs
  by_cases ha : e.slotAlloc = true
  swap
  · rw [fips_alloc_nomem e t c s ht (by simpa using ha)]; exact hs
  by_cases hl : e.setLocal = true
  swap
  · rw [fips_alloc_noset e t c s ht ha (by simpa using hl)]
    have htls : (s.newCell.free s.nextSlot).tls = s.tls := by
      unfold State.free; split <;> simp [State.newCell]
    refine fips_slot_of_tls hs htls ?_
    intro u d r hr
    have : (s.newCell.free s.nextSlot).loc (s.tls u d) = s.loc (s.tls u d) := by
      simp only [State.loc, fips_newCell_free_heap h]
    rw [this] at hr
    exact hs.args u d r hr
  · rw [fips_alloc_new e t c s ht ha hl]
    exact fips_slot_install h hs t c

/-- Whether `alloc_thread_local` yields a slot. -/
theorem fips_alloc_got {s : State} (h : Inv s) (e : Env) (t c : Nat) :
    (alloc_thread_local e t c s).2 ≠ 0 ↔
      (s.tls t c ≠ 0 ∨ (e.slotAlloc = true ∧ e.setLocal = true)) := by
  obtain ⟨-, -, -, -, -, -, a7, -, a9, a10⟩ := fips_alloc_spec h e t c
  constructor
  · intro hne
    by_contra hc
    push_neg at hc
    obtain ⟨h1, h2⟩ := hc
    by_cases ha : e.slotAlloc = true
    · have hl : e.setLocal = false := by
        cases hx : e.setLocal
        · rfl
        · exact absurd hx (h2 ha)
      rw [fips_alloc_noset e t c s h1 ha hl] at hne
      exact hne rfl
    · rw [fips_alloc_nomem e t c s h1 (by simpa using ha)] at hne
      exact hne rfl
  · intro hc h0
    obtain ⟨-, b2, b3⟩ := a7 h0
    rcases hc with hc | ⟨h1, h2⟩
    · exact hc b2
    · rcases b3 with b3 | b3
      · rw [h1] at b3; simp at b3
      · rw [h2] at b3; simp at b3

theorem fips_start_noslot (e : Env) (t index arg handfn : Nat) (s : State)
    (h0 : (alloc_thread_local e t arg s).2 = 0) :
    ossl_init_thread_start e t index arg handfn s = ((alloc_thread_local e t arg s).1, false) := by
  simp [ossl_init_thread_start, h0]

theorem fips_start_first_fail (e : Env) (t index arg handfn : Nat) (s : State)
    (h0 : (alloc_thread_local e t arg s).2 ≠ 0)
    (hl : (alloc_thread_local e t arg s).1.loc (alloc_thread_local e t arg s).2 = [])
    (hf : e.upcall = false ∨ e.recAlloc = false) :
    ossl_init_thread_start e t index arg handfn s =
      ({ (alloc_thread_local e t arg s).1 with
          upcalls := (alloc_thread_local e t arg s).1.upcalls ++ [(t, arg)] }, false) := by
  rcases hf with hf | hf
  · simp [ossl_init_thread_start, ossl_thread_register_fips, h0, hl, hf]
  · cases hu : e.upcall <;>
      simp [ossl_init_thread_start, ossl_thread_register_fips, h0, hl, hf, hu]

theorem fips_start_first_ok (e : Env) (t index arg handfn : Nat) (s : State)
    (h0 : (alloc_thread_local e t arg s).2 ≠ 0)
    (hl : (alloc_thread_local e t arg s).1.loc (alloc_thread_local e t arg s).2 = [])
    (hu : e.upcall = true) (hr : e.recAlloc = true) :
    ossl_init_thread_start e t index arg handfn s =
      ({ ({ (alloc_thread_local e t arg s).1 with
            upcalls := (alloc_thread_local e t arg s).1.upcalls ++ [(t, arg)] } : State).store
            (alloc_thread_local e t arg s).2
            [⟨(alloc_thread_local e t arg s).1.nextRec, 0, arg, handfn⟩] with
          nextRec := (alloc_thread_local e t arg s).1.nextRec + 1 }, true) := by
  have hl2 : ({ (alloc_thread_local e t arg s).1 with
      upcalls := (alloc_thread_local e t arg s).1.upcalls ++ [(t, arg)] } : State).loc
      (alloc_thread_local e t arg s).2 = [] := hl
  simp [ossl_init_thread_start, ossl_thread_register_fips, h0, hl, hl2, hu, hr]

theorem fips_start_later_fail (e : Env) (t index arg handfn : Nat) (s : State)
    (h0 : (alloc_thread_local e t arg s).2 ≠ 0)
    (hl : (alloc_thread_local e t arg s).1.loc (alloc_thread_local e t arg s).2 ≠ [])
    (hr : e.recAlloc = false) :
    ossl_init_thread_start e t index arg handfn s = ((alloc_thread_local e t arg s).1, false) := by
  simp [ossl_init_thread_start, h0, hl, hr]

theorem fips_start_later_ok (e : Env) (t index arg handfn : Nat) (s : State)
    (h0 : (alloc_thread_local e t arg s).2 ≠ 0)
    (hl : (alloc_thread_local e t arg s).1.loc (alloc_thread_local e t arg s).2 ≠ [])
    (hr : e.recAlloc = true) :
    ossl_init_thread_start e t index arg handfn s =
      ({ (alloc_thread_local e t arg s).1.store (alloc_thread_local e t arg s).2
            (⟨(alloc_thread_local e t arg s).1.nextRec, 0, arg, handfn⟩ ::
              (alloc_thread_local e t arg s).1.loc (alloc_thread_local e t arg s).2) with
          nextRec := (alloc_thread_local e t arg s).1.nextRec + 1 }, true) := by
  simp [ossl_init_thread_start, h0, hl, hr]


theorem fips_store_loc (s : State) (a b : Nat) (l : List THREAD_EVENT_HANDLER) :
    (s.store a l).loc b = if b = a then l else s.loc b := by
  unfold State.loc
  rw [fips_store_heap]
  split <;> rfl

/-- What `ossl_init_thread_start` of the `FIPS_MODULE` build does to the log
of host upcalls, to the thread-local values and, when it returns 1, to the
slots. -/
theorem fips_start_effect {s : State} (h : Inv s) (e : Env) (t index arg handfn : Nat) :
    (ossl_init_thread_start e t index arg handfn s).1.upcalls =
      (if (alloc_thread_local e t arg s).2 ≠ 0 ∧ s.loc (s.tls t arg) = []
        then s.upcalls ++ [(t, arg)] else s.upcalls) ∧
    (ossl_init_thread_start e t index arg handfn s).1.tls =
      (alloc_thread_local e t arg s).1.tls ∧
    ((ossl_init_thread_start e t index arg handfn s).2 = false →
      ∀ b, (ossl_init_thread_start e t index arg handfn s).1.loc b = s.loc b) ∧
    ((ossl_init_thread_start e t index arg handfn s).2 = true →
      (alloc_thread_local e t arg s).2 ≠ 0 ∧
      (ossl_init_thread_start e t index arg handfn s).1.loc (alloc_thread_local e t arg s).2 =
        ⟨s.nextRec, 0, arg, handfn⟩ :: s.loc (s.tls t arg) ∧
      (∀ b, b ≠ (alloc_thread_local e t arg s).2 →
        (ossl_init_thread_start e t index arg handfn s).1.loc b = s.loc b) ∧
      (ossl_init_thread_start e t index arg handfn s).1.fired = s.fired ∧
      (s.loc (s.tls t arg) = [] → e.upcall = true)) := by
  obtain ⟨-, a2, a3, a4, a5, -, -, a8, -, -⟩ := fips_alloc_spec h e t arg
  by_cases h0 : (alloc_thread_local e t arg s).2 = 0
  · rw [fips_start_noslot e t index arg handfn s h0]
    exact ⟨by rw [if_neg (fun hc => hc.1 h0)]; exact a4, rfl, fun _ => a5,
      fun hc => by simp at hc⟩
  obtain ⟨-, c2⟩ := a8 h0
  have hlist : (alloc_thread_local e t arg s).1.loc (alloc_thread_local e t arg s).2
      = s.loc (s.tls t arg) := by rw [a5, c2]
  by_cases hl : s.loc (s.tls t arg) = []
  · have hl2 := hlist.trans hl
    by_cases hok : e.upcall = true ∧ e.recAlloc = true
    · rw [fips_start_first_ok e t index arg handfn s h0 hl2 hok.1 hok.2]
      refine ⟨?_, rfl, fun hc => by simp at hc, fun _ => ⟨h0, ?_, ?_, a2, fun _ => hok.1⟩⟩
      · rw [if_pos ⟨h0, hl⟩]
        show (alloc_thread_local e t arg s).1.upcalls ++ [(t, arg)] = _
        rw [a4]
      · show (State.store _ _ _).loc _ = _
        rw [fips_store_loc, if_pos rfl, a3, hl]
      · intro b hb
        show (State.store _ _ _).loc _ = _
        rw [fips_store_loc, if_neg hb]
        exact a5 b
    · have hf : e.upcall = false ∨ e.recAlloc = false := by
        cases hu : e.upcall
        · exact Or.inl rfl
        · cases hr : e.recAlloc
          · exact Or.inr rfl
          · exact absurd ⟨hu, hr⟩ hok
      rw [fips_start_first_fail e t index arg handfn s h0 hl2 hf]
      refine ⟨?_, rfl, fun _ => a5, fun hc => by simp at hc⟩
      rw [if_pos ⟨h0, hl⟩]
      show (alloc_thread_local e t arg s).1.upcalls ++ [(t, arg)] = _
      rw [a4]
  · have hl2 : (alloc_thread_local e t arg s).1.loc (alloc_thread_local e t arg s).2 ≠ [] := by
      rw [hlist]; exact hl
    by_cases hr : e.recAlloc = true
    · rw [fips_start_later_ok e t index arg handfn s h0 hl2 hr]
      refine ⟨?_, rfl, fun hc => by simp at hc,
        fun _ => ⟨h0, ?_, ?_, a2, fun hc => absurd hc hl⟩⟩
      · rw [if_neg (fun hc => hl hc.2)]
        exact a4
      · show (State.store _ _ _).loc _ = _
        rw [fips_store_loc, if_pos rfl, a3, hlist]
      · intro b hb
        show (State.store _ _ _).loc _ = _
        rw [fips_store_loc, if_neg hb]
        exact a5 b
    · rw [fips_start_later_fail e t index arg handfn s h0 hl2 (by simpa using hr)]
      refine ⟨?_, rfl, fun _ => a5, fun hc => by simp at hc⟩
      rw [if_neg (fun hc => hl hc.2)]
      exact a4

theorem fips_slot_start {s : State} (h : Inv s) (hs : SlotInv s) (e : Env)
    (t index arg handfn : Nat) :
    SlotInv (ossl_init_thread_start e t index arg handfn s).1 := by
  obtain ⟨-, e2, e3, e4⟩ := fips_start_effect h e t index arg handfn
  obtain ⟨-, -, -, -, a5, -, -, a8, -, -⟩ := fips_alloc_spec h e t arg
  have ha := fips_slot_alloc h hs e t arg
  refine fips_slot_of_tls ha e2 ?_
  intro u d r hr
  have hold : ∀ r ∈ s.loc ((alloc_thread_local e t arg s).1.tls u d), r.arg = d := by
    intro x hx
    rw [← a5] at hx
    exact ha.args u d x hx
  cases hres : (ossl_init_thread_start e t index arg handfn s).2 with
  | false =>
    rw [e3 hres] at hr
    exact hold r hr
  | true =>
    obtain ⟨f1, f2, f3, -, -⟩ := e4 hres
    obtain ⟨c1, c2⟩ := a8 f1
    by_cases hb : (alloc_thread_local e t arg s).1.tls u d = (alloc_thread_local e t arg s).2
    · have hp := ha.inj u d t arg (by rw [hb]; exact f1) (by rw [hb, c1])
      rw [hb, f2] at hr
      rcases List.mem_cons.mp hr with hr | hr
      · rw [hr, hp.2]
      · rw [← c2, ← hb] at hr
        exact hold r hr
    · rw [f3 _ hb] at hr
      exact hold r hr

theorem fips_slot_step {s : State} (h : Inv s) (hs : SlotInv s) (op : Op) :
    SlotInv (step s op) := by
  have h2 := fips_inv_step h op
  cases op with
  | ctxNew e t libctx =>
    simp only [step] at h2 ⊢
    rw [fips_ctx_new_eq] at h2 ⊢
    split
    · split
      · exact fips_slot_install h hs t libctx
      · have htls : (s.newCell.free s.nextSlot).tls = s.tls := by
          unfold State.free; split <;> simp [State.newCell]
        refine fips_slot_of_tls hs htls ?_
        intro u d r hr
        have : (s.newCell.free s.nextSlot).loc (s.tls u d) = s.loc (s.tls u d) := by
          simp only [State.loc, fips_newCell_free_heap h]
        rw [this] at hr
        exact hs.args u d r hr
    · exact hs
  | ctxFree t ctx =>
    simp only [step, ossl_thread_event_ctx_free, set_thread_event_handler, if_true] at h2 ⊢
    exact fips_slot_reset hs h2 t ctx (fips_setTls_same _ _ _ _)
      (fun u d hud => fips_setTls_other _ t ctx _ u d hud) (fun b _ => rfl)
  | start e t index arg handfn => exact fips_slot_start h hs e t index arg handfn
  | ctxStop e t ctx =>
    simp only [step] at h2 ⊢
    obtain ⟨-, s2, s3, -, s5⟩ := fips_ctx_stop_spec h e t ctx
    exact fips_slot_reset hs h2 t ctx s2 s3 s5

theorem fips_slot_reachable {s : State} (h : Reachable s) : SlotInv s := by
  obtain ⟨ops, rfl⟩ := h
  have key : ∀ (x : State), Inv x → SlotInv x → SlotInv (run x ops) := by
    induction ops with
    | nil => intro x _ hx; exact hx
    | cons op ops ih =>
      intro x hi hx
      exact ih (step x op) (fips_inv_step hi op) (fips_slot_step hi hx op)
  exact key _ fips_inv_init fips_slot_init

/-- After a start that returned 1 the slot of the pair is not empty. -/
theorem fips_start_nonempty {s : State} (h : Inv s) (e : Env) (t index arg handfn : Nat)
    (hok : (ossl_init_thread_start e t index arg handfn s).2 = true) :
    (ossl_init_thread_start e t index arg handfn s).1.loc
      ((ossl_init_thread_start e t index arg handfn s).1.tls t arg) ≠ [] := by
  obtain ⟨-, e2, -, e4⟩ := fips_start_effect h e t index arg handfn
  obtain ⟨f1, f2, -, -, -⟩ := e4 hok
  obtain ⟨-, -, -, -, -, -, -, a8, -, -⟩ := fips_alloc_spec h e t arg
  rw [e2, (a8 f1).1, f2]
  exact List.cons_ne_nil _ _

/-- A run of successful starts on a slot that is not empty makes no upcall. -/
theorem fips_run_quiet (t ctx : Nat) (calls : List (Env × Nat × Nat)) :
    ∀ (s : State), Inv s → s.loc (s.tls t ctx) ≠ [] → (startRun t ctx s calls).2 = true →
      (startRun t ctx s calls).1.upcalls = s.upcalls := by
  induction calls with
  | nil => intro s _ _ _; rfl
  | cons c cs ih =>
    intro s h hne hok
    simp only [startRun, Bool.and_eq_true] at hok ⊢
    obtain ⟨e1, -, -, -⟩ := fips_start_effect h c.1 t c.2.1 ctx c.2.2
    rw [ih _ (fips_start_spec h c.1 t c.2.1 ctx c.2.2).1
      (fips_start_nonempty h c.1 t c.2.1 ctx c.2.2 hok.1) hok.2, e1,
      if_neg (fun hc => hne hc.2)]

/-- C21, counterexample: thread 1 starts twice for library context 7 with no
stop in between; the first call makes the upcall and then fails on the record
allocation, which leaves the list empty, so the second call, the first
registration, makes the upcall again: two upcalls in one run of starts. -/
theorem C21_upcall_exactly_once_per_run_counterexample :
    (ossl_init_thread_start ⟨true, true, true, false⟩ 1 0 7 30 State.init).2 = false
    ∧ (ossl_init_thread_start Env.ok 1 0 7 30
        (ossl_init_thread_start ⟨true, true, true, false⟩ 1 0 7 30 State.init).1).2 = true
    ∧ (run State.init [Op.start ⟨true, true, true, false⟩ 1 0 7 30,
        Op.start Env.ok 1 0 7 30]).upcalls = [(1, 7), (1, 7)] := by
  decide

/-- C21, amended: in a reachable state of the `FIPS_MODULE` build
`ossl_init_thread_start` makes the host upcall exactly when it has obtained
the slot of the pair of thread and library context and the slot's list is
empty at that point; hence a run of starts on one pair that all return 1,
with no stop in between, makes the upcall exactly once when the list was
empty before the run and not at all otherwise, and that upcall is made by
the first start of the run. -/
theorem C21_upcall_once_per_run_of_successful_starts (s : State) (hs : Reachable s)
    (t ctx : Nat) :
    (∀ (e : Env) (index handfn : Nat),
      (ossl_init_thread_start e t index ctx handfn s).1.upcalls =
        if (s.tls t ctx ≠ 0 ∨ (e.slotAlloc = true ∧ e.setLocal = true))
            ∧ s.loc (s.tls t ctx) = []
          then s.upcalls ++ [(t, ctx)] else s.upcalls) ∧
    (∀ (c : Env × Nat × Nat) (calls : List (Env × Nat × Nat)),
      (startRun t ctx s (c :: calls)).2 = true →
        (startRun t ctx s (c :: calls)).1.upcalls =
          (if s.loc (s.tls t ctx) = [] then s.upcalls ++ [(t, ctx)] else s.upcalls) ∧
        (startRun t ctx s (c :: calls)).1.upcalls =
          (ossl_init_thread_start c.1 t c.2.1 ctx c.2.2 s).1.upcalls) := by
  have h := fips_inv_reachable hs
  have hfirst : ∀ (e : Env) (index handfn : Nat),
      (ossl_init_thread_start e t index ctx handfn s).1.upcalls =
        if (s.tls t ctx ≠ 0 ∨ (e.slotAlloc = true ∧ e.setLocal = true))
            ∧ s.loc (s.tls t ctx) = []
          then s.upcalls ++ [(t, ctx)] else s.upcalls := by
    intro e index handfn
    rw [(fips_start_effect h e t index ctx handfn).1]
    by_cases hg : (alloc_thread_local e t ctx s).2 ≠ 0
    · have hg2 := (fips_alloc_got h e t ctx).mp hg
      by_cases hl : s.loc (s.tls t ctx) = []
      · rw [if_pos ⟨hg, hl⟩, if_pos ⟨hg2, hl⟩]
      · rw [if_neg (fun hc => hl hc.2), if_neg (fun hc => hl hc.2)]
    · have hg2 : ¬ (s.tls t ctx ≠ 0 ∨ (e.slotAlloc = true ∧ e.setLocal = true)) :=
        fun hc => hg ((fips_alloc_got h e t ctx).mpr hc)
      rw [if_neg (fun hc => hg hc.1), if_neg (fun hc => hg2 hc.1)]
  refine ⟨hfirst, ?_⟩
  intro c calls hok
  simp only [startRun, Bool.and_eq_true] at hok ⊢
  have hq := fips_run_quiet t ctx calls _ (fips_start_spec h c.1 t c.2.1 ctx c.2.2).1
    (fips_start_nonempty h c.1 t c.2.1 ctx c.2.2 hok.1) hok.2
  refine ⟨?_, hq⟩
  rw [hq, (fips_start_effect h c.1 t c.2.1 ctx c.2.2).1]
  have hg := ((fips_start_effect h c.1 t c.2.1 ctx c.2.2).2.2.2 hok.1).1
  by_cases hl : s.loc (s.tls t ctx) = []
  · rw [if_pos ⟨hg, hl⟩, if_pos hl]
  · rw [if_neg (fun hc => hl hc.2), if_neg hl]

/-- C21, amended, witness: three successful starts of thread 1 for library
context 7 from the initial state make one upcall. -/
theorem C21_upcall_once_per_run_of_successful_starts_witness :
    (startRun 1 7 State.init [(Env.ok, 0, 30), (Env.ok, 0, 31), (Env.ok, 0, 32)]).1.upcalls
      = [(1, 7)] :=
  ((C21_upcall_once_per_run_of_successful_starts State.init ⟨[], rfl⟩ 1 7).2
    (Env.ok, 0, 30) [(Env.ok, 0, 31), (Env.ok, 0, 32)] (by decide)).1.trans (by decide)

/-- C28: in every reachable state of the `FIPS_MODULE` build each record in
the slot of a pair of thread and library context has the context as its
`arg`; so `ossl_ctx_thread_stop(ctx)` invokes every record of the slot, in
list order, and leaves the slot's list empty before the slot is freed. -/
theorem C28_context_stop_fires_the_whole_slot (s : State) (hs : Reachable s) (e : Env)
    (t ctx : Nat) :
    (∀ u c, ∀ r ∈ s.loc (s.tls u c), r.arg = c) ∧
    (clear_thread_local e t ctx s).2 = s.tls t ctx ∧
    (init_thread_stop ctx (clear_thread_local e t ctx s).2
        (clear_thread_local e t ctx s).1).fired = s.fired ++ s.loc (s.tls t ctx) ∧
    (init_thread_stop ctx (clear_thread_local e t ctx s).2
        (clear_thread_local e t ctx s).1).loc (s.tls t ctx) = [] ∧
    ossl_ctx_thread_stop e t ctx s =
      (init_thread_stop ctx (clear_thread_local e t ctx s).2
        (clear_thread_local e t ctx s).1).free (s.tls t ctx) ∧
    (ossl_ctx_thread_stop e t ctx s).fired = s.fired ++ s.loc (s.tls t ctx) ∧
    (ossl_ctx_thread_stop e t ctx s).loc (s.tls t ctx) = [] := by
  have h := fips_inv_reachable hs
  have hsl := fips_slot_reachable hs
  have hclear : clear_thread_local e t ctx s = (s.setTls t ctx 0, s.tls t ctx) := by
    simp [clear_thread_local, manage_thread_local, set_thread_event_handler,
      get_thread_event_handler]
  have hall : (s.loc (s.tls t ctx)).filter (fun c => selected ctx c) = s.loc (s.tls t ctx) := by
    rw [List.filter_eq_self]
    intro r hr
    simp [selected, hsl.args t ctx r hr]
  have hnone : (s.loc (s.tls t ctx)).filter (fun c => !selected ctx c) = [] := by
    rw [List.filter_eq_nil_iff]
    intro r hr
    simp [selected, hsl.args t ctx r hr]
  have hmid : (init_thread_stop ctx (s.tls t ctx) (s.setTls t ctx 0)).fired
        = s.fired ++ s.loc (s.tls t ctx) ∧
      (init_thread_stop ctx (s.tls t ctx) (s.setTls t ctx 0)).loc (s.tls t ctx) = [] := by
    by_cases h0 : s.tls t ctx = 0
    · rw [h0, fips_stop_null]
      have hl : s.loc 0 = [] := fips_loc_null h
      exact ⟨by rw [hl]; simp [State.setTls], hl⟩
    · rw [fips_stop_some ctx _ h0]
      have hloc : (s.setTls t ctx 0).loc (s.tls t ctx) = s.loc (s.tls t ctx) := rfl
      rw [hloc, hall, hnone]
      exact ⟨rfl, by
        show (State.store _ _ _).loc _ = _
        rw [fips_store_loc, if_pos rfl]⟩
  have hstop := fips_ctx_stop_spec h e t ctx
  refine ⟨hsl.args, by rw [hclear], by rw [hclear]; exact hmid.1, by rw [hclear]; exact hmid.2,
    by rw [hclear]; exact fips_ctx_stop_eq e t ctx s, by rw [hstop.1, hall], ?_⟩
  by_cases h0 : s.tls t ctx = 0
  · rw [h0]; exact fips_loc_null (fips_inv_step h (Op.ctxStop e t ctx))
  · simp only [State.loc, hstop.2.2.2.1 h0]
    rfl

/-- C28, witness: thread 1 registers two handlers for library context 7 and
stops the context; both callbacks are invoked, the later one first. -/
theorem C28_context_stop_fires_the_whole_slot_witness :
    (ossl_ctx_thread_stop Env.ok 1 7
        (run State.init [Op.start Env.ok 1 0 7 30, Op.start Env.ok 1 0 7 31])).fired
      = [⟨1, 0, 7, 31⟩, ⟨0, 0, 7, 30⟩] :=
  (C28_context_stop_fires_the_whole_slot
    (run State.init [Op.start Env.ok 1 0 7 30, Op.start Env.ok 1 0 7 31])
    ⟨[Op.start Env.ok 1 0 7 30, Op.start Env.ok 1 0 7 31], rfl⟩ Env.ok 1 7).2.2.2.2.2.1.trans
    (by decide)

end Fips

end InitThread

/-! ## Claims about the other translated functions -/

namespace HashFunc

/-! ### The hash function -/

theorem u64_lt (x : Nat) : u64 x < 2 ^ 64 := Nat.mod_lt _ (by norm_num)

theorem fnv1a_loop_lt (key : List (Fin 256)) (h : Nat) (hh : h < 2 ^ 64) :
    fnv1a_loop key h < 2 ^ 64 := by
  induction key generalizing h with
  | nil => simpa [fnv1a_loop] using hh
  | cons b rest ih => exact ih _ (u64_lt _)

theorem fnv1a_loop_eq_foldl (key : List (Fin 256)) (h : Nat) (hh : h < 2 ^ 64) :
    fnv1a_loop key h
      = key.foldl (fun h b => ((h ^^^ b.val) * 0x00000100000001B3) % 2 ^ 64) h := by
  induction key generalizing h with
  | nil => rfl
  | cons b rest ih =>
    have hb : b.val < 2 ^ 64 := lt_of_lt_of_le b.isLt (by norm_num)
    have hx : h ^^^ b.val < 2 ^ 64 := Nat.xor_lt_two_pow hh hb
    have h1 : u64 (h ^^^ b.val) = h ^^^ b.val := Nat.mod_eq_of_lt hx
    simp only [fnv1a_loop, List.foldl_cons, h1]
    exact ih _ (u64_lt _)

/-- C29: `ossl_fnv1a_hash` is the reference 64-bit FNV-1a: the left fold of
`h := ((h xor b) * 0x00000100000001B3) mod 2^64` over the bytes, started at
`0xcbf29ce484222325`; the empty input hashes to `0xcbf29ce484222325` and the
single byte `0x61` to `0xaf63dc4c8601ec8c`. -/
theorem C29_fnv1a_is_reference_fold :
    (∀ key : List (Fin 256),
        ossl_fnv1a_hash key
          = key.foldl (fun h b => ((h ^^^ b.val) * 0x00000100000001B3) % 2 ^ 64)
              0xcbf29ce484222325
        ∧ ossl_fnv1a_hash key = fnv1a_reference key
        ∧ ossl_fnv1a_hash key < 2 ^ 64)
    ∧ ossl_fnv1a_hash [] = 0xcbf29ce484222325
    ∧ ossl_fnv1a_hash [0x61] = 0xaf63dc4c8601ec8c := by
  refine ⟨fun key => ?_, rfl, by decide⟩
  have h := fnv1a_loop_eq_foldl key 0xcbf29ce484222325 (by norm_num)
  exact ⟨h, h, fnv1a_loop_lt key _ (by norm_num)⟩

end HashFunc

namespace BioPrint

/-! ### The formatting functions -/

theorem to_size_t_of_nonneg (w : Nat) (x : Int) (h0 : 0 ≤ x) (h1 : x < 2 ^ w) :
    to_size_t w x = x.toNat := by
  unfold to_size_t
  rw [Int.emod_eq_of_lt h0 h1]

theorem to_size_t_of_neg (w : Nat) (x : Int) (h0 : x < 0) (h1 : -(2 ^ 31) ≤ x) (hw : 32 ≤ w) :
    2 ^ w - 2 ^ 31 ≤ to_size_t w x := by
  unfold to_size_t
  have hp : (2 : Int) ^ 31 ≤ 2 ^ w := by
    exact_mod_cast Nat.pow_le_pow_right (by norm_num) (by omega : 31 ≤ w)
  have hn : (2 : Nat) ^ 31 ≤ 2 ^ w := Nat.pow_le_pow_right (by norm_num) (by omega)
  have h2 : x % 2 ^ w = x + 2 ^ w := by
    rw [← Int.add_emod_self]
    exact Int.emod_eq_of_lt (by linarith) (by linarith)
  rw [h2]
  zify [hn]
  rw [Int.toNat_of_nonneg (by linarith)]
  linarith

/-- C22: on the standard-library path `BIO_snprintf` and `BIO_vsnprintf`
return -1 exactly when the value of `vsnprintf`, viewed as a `size_t`, is at
least `n`; this covers every call with `n = 0`, every formatted length
`ret ≥ n`, and every negative result (for `n` up to `SIZE_MAX - INT_MAX`);
otherwise they return that length, which is then below `n`. -/
theorem C22_snprintf_returns_minus_one_unless_it_fits (w n : Nat) (ret : Int) :
    BIO_vsnprintf w n ret = BIO_snprintf w n ret
    ∧ (n ≤ to_size_t w ret → BIO_snprintf w n ret = -1)
    ∧ (n = 0 → BIO_snprintf w n ret = -1)
    ∧ (to_size_t w ret < n → BIO_snprintf w n ret = ret)
    ∧ (0 ≤ ret → ret < 2 ^ w →
        (BIO_snprintf w n ret = -1 ↔ (n : Int) ≤ ret)
        ∧ (ret < n → BIO_snprintf w n ret = ret ∧ 0 ≤ BIO_snprintf w n ret
            ∧ BIO_snprintf w n ret < n))
    ∧ (ret < 0 → -(2 ^ 31) ≤ ret → 32 ≤ w → n ≤ 2 ^ w - 2 ^ 31 →
        BIO_snprintf w n ret = -1) := by
  refine ⟨rfl, ?_, ?_, ?_, ?_, ?_⟩
  · intro h
    simp [BIO_snprintf, h]
  · intro h
    simp [BIO_snprintf, h]
  · intro h
    simp [BIO_snprintf, Nat.not_le.mpr h]
  · intro h0 h1
    have hs := to_size_t_of_nonneg w ret h0 h1
    have hc : n ≤ ret.toNat ↔ (n : Int) ≤ ret := by omega
    constructor
    · unfold BIO_snprintf
      rw [hs]
      constructor
      · intro h
        by_contra hcon
        rw [if_neg (by rw [ge_iff_le, hc]; exact hcon)] at h
        omega
      · intro h
        rw [if_pos (by rw [ge_iff_le, hc]; exact h)]
    · intro hlt
      have : BIO_snprintf w n ret = ret := by
        unfold BIO_snprintf
        rw [hs, if_neg (by rw [ge_iff_le, hc]; omega)]
      rw [this]
      exact ⟨rfl, h0, hlt⟩
  · intro h0 h1 hw hn
    have := to_size_t_of_neg w ret h0 h1 hw
    simp [BIO_snprintf, le_trans hn this]

/-- Instance of C22: lengths 5 against `n = 8`, `n = 5` and `n = 0`, and an
error result, with a 64-bit `size_t`. -/
theorem C22_snprintf_returns_minus_one_unless_it_fits_witness :
    BIO_snprintf 64 8 5 = 5 ∧ BIO_snprintf 64 5 5 = -1 ∧ BIO_snprintf 64 0 5 = -1
      ∧ BIO_snprintf 64 8 (-1) = -1 :=
  ⟨((C22_snprintf_returns_minus_one_unless_it_fits 64 8 5).2.2.2.2.1 (by decide)
      (by decide)).2 (by decide) |>.1,
   ((C22_snprintf_returns_minus_one_unless_it_fits 64 5 5).2.2.2.2.1 (by decide)
      (by decide)).1.mpr (by decide),
   (C22_snprintf_returns_minus_one_unless_it_fits 64 0 5).2.2.1 rfl,
   (C22_snprintf_returns_minus_one_unless_it_fits 64 8 (-1)).2.2.2.2.2 (by decide)
      (by decide) (by decide) (by decide)⟩

theorem to_size_t_length (w : Nat) (hw : 32 ≤ w) (text : List Nat)
    (h : text.length ≤ INT_MAX) : to_size_t w (text.length : Int) = text.length := by
  have hp : (2 : Nat) ^ 32 ≤ 2 ^ w := Nat.pow_le_pow_right (by norm_num) hw
  have hlt : text.length < 2 ^ w := by
    unfold INT_MAX at h
    omega
  rw [to_size_t_of_nonneg w _ (by positivity) (by exact_mod_cast hlt)]
  simp

theorem vsnprintf_some (buf : List Nat) (size : Nat) (text : List Nat)
    (h : text.length ≤ INT_MAX) (hs : size ≠ 0) :
    vsnprintf buf size (some text)
      = (text.take (size - 1) ++ [0] ++ buf.drop (min text.length (size - 1) + 1),
         (text.length : Int)) := by
  simp [vsnprintf, h, hs]

/-- A text shorter than the stack buffer is handed to `BIO_write` as it is. -/
theorem vprintf_short (w : Nat) (hw : 32 ≤ w) (m : Bool) (heap : Nat → List Nat)
    (bw : List Nat → Int) (stack text : List Nat) (h : text.length < 512) :
    (BIO_vprintf w m heap bw stack (some text)).passed = some text := by
  have hi : text.length ≤ INT_MAX := by unfold INT_MAX; omega
  unfold BIO_vprintf
  simp only [vsnprintf_some stack 512 text hi (by norm_num), to_size_t_length w hw text hi]
  rw [if_pos (by positivity), if_neg (by omega)]
  simp only [Int.toNat_ofNat]
  have ht : text.take (512 - 1) = text := List.take_of_length_le (by omega)
  rw [ht, List.append_assoc, List.take_left']
  rfl

/-- A text of exactly 512 bytes does not fit the stack buffer with its
terminator, and yet 512 bytes of that buffer are handed to `BIO_write`: the
first 511 bytes of the text and the terminator. -/
theorem vprintf_exact (w : Nat) (hw : 32 ≤ w) (m : Bool) (heap : Nat → List Nat)
    (bw : List Nat → Int) (stack text : List Nat) (h : text.length = 512) :
    (BIO_vprintf w m heap bw stack (some text)).passed = some (text.take 511 ++ [0]) := by
  have hi : text.length ≤ INT_MAX := by unfold INT_MAX; omega
  unfold BIO_vprintf
  simp only [vsnprintf_some stack 512 text hi (by norm_num), to_size_t_length w hw text hi]
  rw [if_pos (by positivity), if_neg (by omega)]
  simp only [Int.toNat_ofNat]
  have hl : (text.take (512 - 1) ++ [0]).length = text.length := by
    simp [List.length_take]; omega
  rw [List.take_left' hl]

/-- A text longer than 512 bytes is formatted again into a block of its
length plus one and handed to `BIO_write` as it is. -/
theorem vprintf_long (w : Nat) (hw : 32 ≤ w) (heap : Nat → List Nat)
    (bw : List Nat → Int) (stack text : List Nat) (h : 512 < text.length)
    (hi : text.length ≤ INT_MAX) :
    (BIO_vprintf w true heap bw stack (some text)).passed = some text := by
  unfold BIO_vprintf
  simp only [vsnprintf_some stack 512 text hi (by norm_num), to_size_t_length w hw text hi]
  rw [if_pos (by positivity), if_pos (by omega)]
  have h1 : ((text.length : Int) + 1).toNat = text.length + 1 := by omega
  simp only [h1, if_true]
  rw [vsnprintf_some _ _ text hi (by omega)]
  simp only [Int.toNat_ofNat, Nat.add_sub_cancel]
  rw [List.take_of_length_le (le_refl _), List.append_assoc, List.take_left' rfl]

/-- C27: a formatted text of exactly 512 bytes (here 512 times `a`) is not
handed to `BIO_write` as it is: `vsnprintf` has stored its first 511 bytes and
a NUL in the 512-byte stack buffer and reported 512, the guard
`(size_t)sz > sizeof(buf)` keeps the stack buffer, and `BIO_write` receives
those 511 bytes followed by the NUL. -/
theorem C27_vprintf_writes_terminator_at_512 :
    (BIO_vprintf 64 true (fun n => List.replicate n 0) (fun b => (b.length : Int))
        (List.replicate 512 0) (some (List.replicate 512 97))).passed
      = some (List.replicate 511 97 ++ [0])
    ∧ (BIO_vprintf 64 true (fun n => List.replicate n 0) (fun b => (b.length : Int))
        (List.replicate 512 0) (some (List.replicate 512 97))).passed
      ≠ some (List.replicate 512 97) := by
  have h := vprintf_exact 64 (by norm_num) true (fun n => List.replicate n 0)
    (fun b => (b.length : Int)) (List.replicate 512 0) (List.replicate 512 97)
    (List.length_replicate _ _)
  have ht : (List.replicate 512 97).take 511 = List.replicate 511 97 := by
    rw [List.take_replicate]
    congr 1
  rw [ht] at h
  refine ⟨h, ?_⟩
  rw [h]
  intro hc
  have hm : (0 : Nat) ∈ List.replicate 511 97 ++ [0] :=
    List.mem_append_right _ (List.mem_singleton_self 0)
  rw [Option.some.inj hc] at hm
  have := List.eq_of_mem_replicate hm
  omega

theorem copy1_cons (c : Nat) (rest dst : List Nat) :
    copy1 (c :: rest, dst) = (rest, dst ++ [c]) := rfl

theorem copy1_len (sd : List Nat × List Nat) : (copy1 sd).1.length ≤ sd.1.length := by
  obtain ⟨src, dst⟩ := sd
  cases src <;> simp [copy1]

theorem copy_while_len (p : Nat → Bool) (src dst : List Nat) :
    (copy_while p src dst).1.length ≤ src.length := by
  induction src generalizing dst with
  | nil => simp [copy_while]
  | cons c rest ih =>
    unfold copy_while
    split
    · exact le_trans (ih _) (by simp)
    · simp

theorem copy_if_len (p : Nat → Bool) (sd : List Nat × List Nat) :
    (copy_if p sd).1.length ≤ sd.1.length := by
  obtain ⟨src, dst⟩ := sd
  cases src with
  | nil => simp [copy_if]
  | cons c rest =>
    unfold copy_if
    simp only
    split
    · exact copy1_len _
    · exact le_rfl

theorem copy_flags_width_precision_len (sd : List Nat × List Nat) :
    (copy_flags_width_precision sd).1.length ≤ sd.1.length := by
  unfold copy_flags_width_precision
  have h1 := copy_while_len is_flag sd.1 sd.2
  have h2 := copy_while_len is_digit (copy_while is_flag sd.1 sd.2).1
    (copy_while is_flag sd.1 sd.2).2
  have h3 := copy_if_len (fun x => x = '*'.toNat)
    (copy_while is_digit (copy_while is_flag sd.1 sd.2).1 (copy_while is_flag sd.1 sd.2).2)
  simp only
  split
  · refine le_trans (copy_if_len _ _) (le_trans (copy_while_len _ _ _) ?_)
    refine le_trans (copy1_len _) ?_
    omega
  · omega

theorem copy_specifier_len (sd : List Nat × List Nat) :
    (copy_specifier sd).1.length ≤ sd.1.length := copy_if_len _ sd

theorem convert_in_format_len (win64 : Bool) (sd : List Nat × List Nat) :
    (convert_in_format win64 sd).1.length ≤ sd.1.length := by
  unfold convert_in_format
  have h1 := copy_flags_width_precision_len sd
  have ht : (copy_flags_width_precision sd).1.tail.length ≤ sd.1.length := by
    rw [List.length_tail]; omega
  have hd : ((copy_flags_width_precision sd).1.drop 2).length ≤ sd.1.length := by
    rw [List.length_drop]; omega
  simp only
  split
  · exact le_trans (copy_specifier_len _) hd
  split
  · exact le_trans (copy_specifier_len _) hd
  split
  · split
    · exact le_trans (copy_specifier_len _) ht
    split
    · exact le_trans (copy_specifier_len _) ht
    split
    · exact le_trans (copy_specifier_len _) ht
    · exact le_trans (copy_specifier_len _) (le_trans (copy1_len _) h1)
  · exact le_trans (copy_specifier_len _) h1

/-- The loop of `convert_format_for_old_msvc` ends: every round consumes at
least one character of the format. -/
theorem convert_loop_ends (win64 : Bool) (fuel : Nat) (src dst : List Nat)
    (h : src.length < fuel) : (convert_loop win64 fuel src dst).isSome = true := by
  induction fuel generalizing src dst with
  | zero => omega
  | succ n ih =>
    unfold convert_loop
    split
    · rfl
    · next hp =>
      cases src with
      | nil => simp [peek] at hp
      | cons c rest =>
        have hr : rest.length < n := by simp at h; omega
        simp only [copy1_cons]
        split
        · split
          · exact ih _ _ (lt_of_le_of_lt (copy1_len _) hr)
          · exact ih _ _ (lt_of_le_of_lt (convert_in_format_len _ _) hr)
        · exact ih _ _ hr

/-- The translation of `convert_format_for_old_msvc` yields a converted
format for every input. -/
theorem convert_format_total (win64 : Bool) (format : List Nat) :
    (convert_format_for_old_msvc win64 format).isSome = true := by
  unfold convert_format_for_old_msvc
  simp only [Option.isSome_map']
  exact convert_loop_ends _ _ _ _ (Nat.lt_succ_self _)

/-- C26: for the format `%jd` the function allocates `3 + 3 / 2 + 1 = 5`
bytes and stores the five bytes of `%I64d` and the terminator, six bytes,
with and without `_WIN64`; with `_WIN64` the same holds for `%zd` and `%td`.
The converted string with its terminator is longer than the allocation. -/
theorem C26_converted_format_overflows_allocation :
    convert_format_for_old_msvc false (bytes "%jd") = some (bytes "%I64d" ++ [0])
    ∧ convert_format_for_old_msvc true (bytes "%jd") = some (bytes "%I64d" ++ [0])
    ∧ convert_format_for_old_msvc true (bytes "%zd") = some (bytes "%I64d" ++ [0])
    ∧ convert_format_for_old_msvc true (bytes "%td") = some (bytes "%I64d" ++ [0])
    ∧ converted_alloc (bytes "%jd").length = 5
    ∧ (bytes "%I64d" ++ [0]).length = 6
    ∧ ¬ (bytes "%I64d" ++ [0]).length ≤ converted_alloc (bytes "%jd").length := by
  decide

end BioPrint

namespace X509App

/-! ### The two passes of `parse_ext_names` -/

theorem getD_mid (A B : List Nat) (c d : Nat) : (A ++ c :: B).getD A.length d = c := by
  induction A with
  | nil => rfl
  | cons a A ih => simpa using ih

theorem set_mid (A B : List Nat) (c v : Nat) : (A ++ c :: B).set A.length v = A ++ v :: B := by
  induction A with
  | nil => rfl
  | cons a A ih => simp

theorem takeWhile_nul (cur Y : List Nat) (h : 0 ∉ cur) :
    (cur ++ 0 :: Y).takeWhile (fun c => c ≠ 0) = cur := by
  induction cur with
  | nil => simp [List.takeWhile]
  | cons a cur ih =>
    have ha : a ≠ 0 := fun hc => h (by simp [hc])
    have hr : 0 ∉ cur := fun hc => h (by simp [hc])
    rw [List.cons_append, List.takeWhile_cons_of_pos (by simpa using ha), ih hr]

theorem strlen_eq (s rest : List Nat) (h : 0 ∉ s) : strlen (s ++ 0 :: rest) = s.length := by
  unfold strlen
  rw [takeWhile_nul s rest h]

theorem string_at_mid (X cur Y : List Nat) (h : 0 ∉ cur) :
    string_at (X ++ (cur ++ 0 :: Y)) X.length = cur := by
  unfold string_at
  rw [List.drop_left]
  exact takeWhile_nul cur Y h

theorem to_int_small (n : Nat) (h : n ≤ INT_MAX) : to_int n = (n : Int) := by
  unfold to_int
  unfold INT_MAX at h
  norm_num at h ⊢
  omega

theorem loop_stop (fill : Bool) (len : Int) (fuel : Nat) (s : Scan)
    (h : ¬ (s.q : Int) ≤ len) : parse_loop fill len (fuel + 1) s = some s := by
  rw [parse_loop, if_neg h]

theorem loop_skip (fill : Bool) (len : Int) (fuel : Nat) (buf : List Nat) (p q cnt : Nat)
    (st : List (Nat × Nat)) (h : (q : Int) ≤ len) (h1 : buf.getD q 0 ≠ ','.toNat)
    (h2 : buf.getD q 0 ≠ 0) :
    parse_loop fill len (fuel + 1) ⟨buf, p, q, cnt, st⟩ =
      parse_loop fill len fuel ⟨buf, p, q + 1, cnt, st⟩ := by
  rw [parse_loop, if_pos h, if_pos ⟨h1, h2⟩]

theorem loop_found (len : Int) (fuel : Nat) (buf : List Nat) (p q cnt : Nat)
    (st : List (Nat × Nat)) (h : (q : Int) ≤ len)
    (h1 : buf.getD q 0 = ','.toNat ∨ buf.getD q 0 = 0) (h2 : p ≠ q) :
    parse_loop true len (fuel + 1) ⟨buf, p, q, cnt, st⟩ =
      parse_loop true len fuel ⟨buf.set q 0, q + 1, q + 1, cnt + 1, st ++ [(cnt, p)]⟩ := by
  rw [parse_loop, if_pos h, if_neg (by simp only []; tauto), if_pos h2, if_pos rfl]

theorem loop_counted (len : Int) (fuel : Nat) (buf : List Nat) (p q cnt : Nat)
    (st : List (Nat × Nat)) (h : (q : Int) ≤ len)
    (h1 : buf.getD q 0 = ','.toNat ∨ buf.getD q 0 = 0) (h2 : p ≠ q) :
    parse_loop false len (fuel + 1) ⟨buf, p, q, cnt, st⟩ =
      parse_loop false len fuel ⟨buf, q + 1, q + 1, cnt + 1, st⟩ := by
  rw [parse_loop, if_pos h, if_neg (by simp only []; tauto), if_pos h2, if_neg (by simp)]

theorem loop_empty (fill : Bool) (len : Int) (fuel : Nat) (buf : List Nat) (p q cnt : Nat)
    (st : List (Nat × Nat)) (h : (q : Int) ≤ len)
    (h1 : buf.getD q 0 = ','.toNat ∨ buf.getD q 0 = 0) (h2 : p = q) :
    parse_loop fill len (fuel + 1) ⟨buf, p, q, cnt, st⟩ =
      parse_loop fill len fuel ⟨buf, q + 1, q + 1, cnt, st⟩ := by
  rw [parse_loop, if_pos h, if_neg (by simp only []; tauto), if_neg (by simpa using h2)]

theorem seg_starts_end_empty (b : Nat) : seg_starts b [] [] = [] := by
  simp [seg_starts]

theorem seg_starts_end (b : Nat) (cur : List Nat) (h : cur ≠ []) :
    seg_starts b cur [] = [b] := by
  simp [seg_starts, h]

theorem seg_starts_comma_empty (b b1 c : Nat) (cs : List Nat) (hc : c = ','.toNat)
    (hb : b1 = b + 1) : seg_starts b [] (c :: cs) = seg_starts b1 [] cs := by
  rw [seg_starts, if_pos hc, hb]
  simp

theorem seg_starts_comma (b b1 c : Nat) (cur cs : List Nat) (hc : c = ','.toNat)
    (h : cur ≠ []) (hb : b1 = b + cur.length + 1) :
    seg_starts b cur (c :: cs) = b :: seg_starts b1 [] cs := by
  rw [seg_starts, if_pos hc, if_pos h, hb]
  rfl

theorem seg_starts_other (b c : Nat) (cur cs : List Nat) (hc : c ≠ ','.toNat) :
    seg_starts b cur (c :: cs) = seg_starts b (cur ++ [c]) cs := by
  rw [seg_starts, if_neg hc]

theorem fill_tail_end (cur rest : List Nat) : fill_tail cur [] rest = cur ++ 0 :: rest := by
  rw [fill_tail]

theorem fill_tail_comma_empty (c : Nat) (cs rest : List Nat) (hc : c = ','.toNat) :
    fill_tail [] (c :: cs) rest = c :: fill_tail [] cs rest := by
  rw [fill_tail, if_pos hc]
  simp

theorem fill_tail_comma (c : Nat) (cur cs rest : List Nat) (hc : c = ','.toNat)
    (h : cur ≠ []) :
    fill_tail cur (c :: cs) rest = cur ++ 0 :: fill_tail [] cs rest := by
  rw [fill_tail, if_pos hc, if_pos h]

theorem fill_tail_other (c : Nat) (cur cs rest : List Nat) (hc : c ≠ ','.toNat) :
    fill_tail cur (c :: cs) rest = fill_tail (cur ++ [c]) cs rest := by
  rw [fill_tail, if_neg hc]

/-- The counting pass from a loop state: the buffer is left as it is and the
counter grows by the number of non-empty segments still to come. -/
theorem count_pass (rest : List Nat) (len : Nat) :
    ∀ (cs X cur : List Nat) (cnt : Nat) (st : List (Nat × Nat)) (fuel : Nat)
      (buf : List Nat) (p q : Nat),
      buf = (X ++ cur) ++ (cs ++ 0 :: rest) → p = X.length → q = p + cur.length →
      len = q + cs.length → cs.length + 2 ≤ fuel → 0 ∉ cs →
      parse_loop false (len : Int) fuel ⟨buf, p, q, cnt, st⟩
        = some ⟨buf, len + 1, len + 1, cnt + (seg_starts p cur cs).length, st⟩ := by
  intro cs
  induction cs with
  | nil =>
    intro X cur cnt st fuel buf p q hbuf hp hq hlen hfuel _
    obtain ⟨f, rfl⟩ : ∃ f, fuel = f + 1 + 1 := ⟨fuel - 2, by simp at hfuel; omega⟩
    have hlq : len = q := by simpa using hlen
    subst hlq
    have hqL : len = (X ++ cur).length := by rw [hq, hp, List.length_append]
    have hch : buf.getD len 0 = 0 := by rw [hbuf, hqL]; exact getD_mid _ _ _ _
    have hstop : ¬ ((len + 1 : Nat) : Int) ≤ (len : Int) := by push_cast; omega
    by_cases hc : cur = []
    · have hpq : p = len := by rw [hq, hc]; rfl
      rw [loop_empty false _ _ buf _ _ cnt st le_rfl (Or.inr hch) hpq, loop_stop _ _ _ _ hstop,
        hc, seg_starts_end_empty]
      rfl
    · have hpq : p ≠ len := by
        have := List.length_pos.mpr hc
        omega
      rw [loop_counted _ _ buf _ _ cnt st le_rfl (Or.inr hch) hpq, loop_stop _ _ _ _ hstop,
        seg_starts_end _ _ hc]
      rfl
  | cons c cs ih =>
    intro X cur cnt st fuel buf p q hbuf hp hq hlen hfuel h0
    obtain ⟨f, rfl⟩ : ∃ f, fuel = f + 1 := ⟨fuel - 1, by simp at hfuel; omega⟩
    have hf : cs.length + 2 ≤ f := by simp at hfuel; omega
    have hc0 : c ≠ 0 := fun hc => h0 (by simp [hc])
    have h0cs : 0 ∉ cs := fun hc => h0 (by simp [hc])
    have hbuf2 : buf = (X ++ cur) ++ c :: (cs ++ 0 :: rest) := by rw [hbuf]; simp
    have hqL : q = (X ++ cur).length := by rw [hq, hp, List.length_append]
    have hch : buf.getD q 0 = c := by rw [hbuf2, hqL]; exact getD_mid _ _ _ _
    have hle : (q : Int) ≤ (len : Int) := by rw [hlen]; push_cast; omega
    have hlen2 : len = q + 1 + cs.length := by rw [hlen, List.length_cons]; omega
    by_cases hc : c = ','.toNat
    · by_cases he : cur = []
      · have hpq : p = q := by rw [hq, he]; rfl
        rw [loop_empty false _ _ buf _ _ cnt st hle (Or.inl (hch.trans hc)) hpq]
        rw [ih (X ++ [c]) [] cnt st f buf (q + 1) (q + 1) (by rw [hbuf2, he]; simp)
          (by rw [hqL, he]; simp) rfl hlen2 hf h0cs]
        rw [he, seg_starts_comma_empty p (q + 1) c cs hc (by rw [hpq])]
      · have hpq : p ≠ q := by
          have := List.length_pos.mpr he
          omega
        rw [loop_counted _ _ buf _ _ cnt st hle (Or.inl (hch.trans hc)) hpq]
        rw [ih (X ++ cur ++ [c]) [] (cnt + 1) st f buf (q + 1) (q + 1)
          (by rw [hbuf2]; simp) (by rw [hqL, List.length_append (X ++ cur)]; rfl) rfl hlen2
          hf h0cs]
        have e : cnt + 1 + (seg_starts (q + 1) [] cs).length
            = cnt + ((seg_starts (q + 1) [] cs).length + 1) := by omega
        rw [seg_starts_comma p (q + 1) c cur cs hc he (by rw [hq]), List.length_cons, e]
    · rw [loop_skip false _ _ buf _ _ cnt st hle (by rw [hch]; exact hc)
        (by rw [hch]; exact hc0)]
      rw [ih X (cur ++ [c]) cnt st f buf p (q + 1) (by rw [hbuf2]; simp) hp
        (by rw [hq, List.length_append]; rfl) hlen2 hf h0cs]
      rw [seg_starts_other _ _ _ _ hc]

/-- The filling pass from a loop state: every non-empty segment still to
come is counted, its start is stored at the next index of `result`, and the
byte that ends it is overwritten with NUL. -/
theorem fill_pass (rest : List Nat) (len : Nat) :
    ∀ (cs X cur : List Nat) (cnt : Nat) (st : List (Nat × Nat)) (fuel : Nat)
      (buf : List Nat) (p q : Nat),
      buf = (X ++ cur) ++ (cs ++ 0 :: rest) → p = X.length → q = p + cur.length →
      len = q + cs.length → cs.length + 2 ≤ fuel → 0 ∉ cs →
      parse_loop true (len : Int) fuel ⟨buf, p, q, cnt, st⟩
        = some ⟨X ++ fill_tail cur cs rest, len + 1, len + 1,
            cnt + (seg_starts p cur cs).length,
            st ++ (List.range' cnt (seg_starts p cur cs).length).zip (seg_starts p cur cs)⟩ := by
  intro cs
  induction cs with
  | nil =>
    intro X cur cnt st fuel buf p q hbuf hp hq hlen hfuel _
    obtain ⟨f, rfl⟩ : ∃ f, fuel = f + 1 + 1 := ⟨fuel - 2, by simp at hfuel; omega⟩
    have hlq : len = q := by simpa using hlen
    subst hlq
    have hqL : len = (X ++ cur).length := by rw [hq, hp, List.length_append]
    have hbuf2 : buf = (X ++ cur) ++ 0 :: rest := by rw [hbuf]; simp
    have hch : buf.getD len 0 = 0 := by rw [hbuf2, hqL]; exact getD_mid _ _ _ _
    have hstop : ¬ ((len + 1 : Nat) : Int) ≤ (len : Int) := by push_cast; omega
    have hA : buf = X ++ fill_tail cur [] rest := by rw [fill_tail_end, hbuf2]; simp
    by_cases hc : cur = []
    · have hpq : p = len := by rw [hq, hc]; rfl
      rw [loop_empty true _ _ buf _ _ cnt st le_rfl (Or.inr hch) hpq, loop_stop _ _ _ _ hstop,
        ← hA, hc, seg_starts_end_empty]
      simp
    · have hpq : p ≠ len := by
        have := List.length_pos.mpr hc
        omega
      have hset : buf.set len 0 = buf := by
        rw [hbuf2, hqL]; exact set_mid _ _ _ _
      rw [loop_found _ _ buf _ _ cnt st le_rfl (Or.inr hch) hpq, loop_stop _ _ _ _ hstop,
        hset, ← hA, seg_starts_end _ _ hc]
      simp
  | cons c cs ih =>
    intro X cur cnt st fuel buf p q hbuf hp hq hlen hfuel h0
    obtain ⟨f, rfl⟩ : ∃ f, fuel = f + 1 := ⟨fuel - 1, by simp at hfuel; omega⟩
    have hf : cs.length + 2 ≤ f := by simp at hfuel; omega
    have hc0 : c ≠ 0 := fun hc => h0 (by simp [hc])
    have h0cs : 0 ∉ cs := fun hc => h0 (by simp [hc])
    have hbuf2 : buf = (X ++ cur) ++ c :: (cs ++ 0 :: rest) := by rw [hbuf]; simp
    have hqL : q = (X ++ cur).length := by rw [hq, hp, List.length_append]
    have hch : buf.getD q 0 = c := by rw [hbuf2, hqL]; exact getD_mid _ _ _ _
    have hle : (q : Int) ≤ (len : Int) := by rw [hlen]; push_cast; omega
    have hlen2 : len = q + 1 + cs.length := by rw [hlen, List.length_cons]; omega
    by_cases hc : c = ','.toNat
    · by_cases he : cur = []
      · have hpq : p = q := by rw [hq, he]; rfl
        rw [loop_empty true _ _ buf _ _ cnt st hle (Or.inl (hch.trans hc)) hpq]
        rw [ih (X ++ [c]) [] cnt st f buf (q + 1) (q + 1) (by rw [hbuf2, he]; simp)
          (by rw [hqL, he]; simp) rfl hlen2 hf h0cs]
        rw [he, seg_starts_comma_empty p (q + 1) c cs hc (by rw [hpq]),
          fill_tail_comma_empty c cs rest hc, List.append_assoc]
        rfl
      · have hpq : p ≠ q := by
          have := List.length_pos.mpr he
          omega
        have hset : buf.set q 0 = (X ++ cur ++ [0] ++ []) ++ (cs ++ 0 :: rest) := by
          rw [hbuf2, hqL, set_mid]; simp
        rw [loop_found _ _ buf _ _ cnt st hle (Or.inl (hch.trans hc)) hpq]
        rw [ih (X ++ cur ++ [0]) [] (cnt + 1) (st ++ [(cnt, p)]) f (buf.set q 0) (q + 1) (q + 1)
          hset (by rw [hqL, List.length_append (X ++ cur)]; rfl) rfl hlen2 hf h0cs]
        have e : cnt + 1 + (seg_starts (q + 1) [] cs).length
            = cnt + ((seg_starts (q + 1) [] cs).length + 1) := by omega
        rw [seg_starts_comma p (q + 1) c cur cs hc he (by rw [hq]), List.length_cons, e,
          fill_tail_comma c cur cs rest hc he, List.range'_succ, List.zip_cons_cons]
        simp
    · rw [loop_skip true _ _ buf _ _ cnt st hle (by rw [hch]; exact hc)
        (by rw [hch]; exact hc0)]
      rw [ih X (cur ++ [c]) cnt st f buf p (q + 1) (by rw [hbuf2]; simp) hp
        (by rw [hq, List.length_append]; rfl) hlen2 hf h0cs]
      rw [seg_starts_other _ _ _ _ hc, fill_tail_other _ _ _ _ hc]

theorem segments_nil : segments [] = [] := by
  simp [segments]

theorem segments_single (cur : List Nat) (h : ∀ x ∈ cur, x ≠ ','.toNat) (hne : cur ≠ []) :
    segments cur = [cur] := by
  unfold segments List.splitOn
  rw [List.splitOnP_eq_single _ _ (by simpa using h)]
  rw [List.filter_cons_of_pos (by simpa using hne)]
  rfl

theorem segments_comma (cur cs : List Nat) (c : Nat) (h : ∀ x ∈ cur, x ≠ ','.toNat)
    (hc : c = ','.toNat) :
    segments (cur ++ c :: cs) = (if cur ≠ [] then [cur] else []) ++ segments cs := by
  unfold segments List.splitOn
  rw [List.splitOnP_first _ _ (by simpa using h) c (by simpa using hc)]
  by_cases hne : cur = []
  · rw [List.filter_cons_of_neg (by simpa using hne)]
    simp [hne]
  · rw [List.filter_cons_of_pos (by simpa using hne)]
    simp [hne]

/-- The strings found at the stored offsets of the buffer the filling pass
leaves are the non-empty comma-separated segments, in order. -/
theorem starts_strings (rest : List Nat) :
    ∀ (cs X cur : List Nat), (∀ x ∈ cur, x ≠ ','.toNat) → 0 ∉ cur → 0 ∉ cs →
      (seg_starts X.length cur cs).map (string_at (X ++ fill_tail cur cs rest))
        = segments (cur ++ cs) := by
  intro cs
  induction cs with
  | nil =>
    intro X cur hcur h0 _
    rw [List.append_nil, fill_tail_end]
    by_cases hne : cur = []
    · rw [hne, seg_starts_end_empty, segments_nil]
      rfl
    · rw [seg_starts_end _ _ hne, segments_single cur hcur hne, List.map_cons, List.map_nil,
        string_at_mid X cur rest h0]
  | cons c cs ih =>
    intro X cur hcur h0 h0cs
    have hc0 : c ≠ 0 := fun hc => h0cs (by simp [hc])
    have h0cs2 : 0 ∉ cs := fun hc => h0cs (by simp [hc])
    by_cases hc : c = ','.toNat
    · rw [segments_comma cur cs c hcur hc]
      by_cases hne : cur = []
      · have hx : X.length + 1 = (X ++ [c]).length := by simp
        rw [hne, seg_starts_comma_empty X.length (X.length + 1) c cs hc rfl,
          fill_tail_comma_empty c cs rest hc, hx]
        have := ih (X ++ [c]) [] (by simp) (by simp) h0cs2
        rw [List.append_assoc] at this
        rw [List.nil_append] at this
        simpa using this
      · have hx : X.length + cur.length + 1 = (X ++ cur ++ [0]).length := by
          rw [List.length_append (X ++ cur), List.length_append]; rfl
        rw [seg_starts_comma X.length _ c cur cs hc hne rfl,
          fill_tail_comma c cur cs rest hc hne, List.map_cons,
          string_at_mid X cur _ h0, hx]
        have := ih (X ++ cur ++ [0]) [] (by simp) (by simp) h0cs2
        rw [List.nil_append] at this
        have hb : X ++ cur ++ [0] ++ fill_tail [] cs rest
            = X ++ (cur ++ 0 :: fill_tail [] cs rest) := by simp
        rw [hb] at this
        rw [this]
        simp [hne]
    · rw [seg_starts_other _ _ _ _ hc, fill_tail_other _ _ _ _ hc]
      have := ih X (cur ++ [c])
        (by
          intro x hx
          rcases List.mem_append.mp hx with hx | hx
          · exact hcur x hx
          · rw [List.mem_singleton.mp hx]; exact hc)
        (by
          intro hx
          rcases List.mem_append.mp hx with hx | hx
          · exact h0 hx
          · exact hc0 (List.mem_singleton.mp hx).symm)
        h0cs2
      rw [this]
      simp

theorem segments_all_commas (s : List Nat) (h : ∀ c ∈ s, c = ','.toNat) : segments s = [] := by
  induction s with
  | nil => exact segments_nil
  | cons c cs ih =>
    have := segments_comma [] cs c (by simp) (h c (by simp))
    rw [List.nil_append] at this
    rw [this, ih (fun x hx => h x (by simp [hx]))]
    simp

theorem seg_starts_length (s rest : List Nat) (h0 : 0 ∉ s) :
    (seg_starts 0 [] s).length = (segments s).length := by
  have := starts_strings rest s [] [] (by simp) (by simp) h0
  have h := congrArg List.length this
  rw [List.length_map] at h
  simpa using h

theorem parse_count_eq (s rest : List Nat) (h0 : 0 ∉ s) (hlen : s.length ≤ INT_MAX) :
    parse_ext_names (s ++ 0 :: rest) false
      = some ⟨s ++ 0 :: rest, s.length + 1, s.length + 1, (seg_starts 0 [] s).length, []⟩ := by
  unfold parse_ext_names
  rw [strlen_eq s rest h0, to_int_small _ hlen]
  have := count_pass rest s.length s [] [] 0 [] (s.length + 2) (s ++ 0 :: rest) 0 0
    (by simp) rfl rfl (by simp) le_rfl h0
  rw [this, Nat.zero_add]

theorem parse_fill_eq (s rest : List Nat) (h0 : 0 ∉ s) (hlen : s.length ≤ INT_MAX) :
    parse_ext_names (s ++ 0 :: rest) true
      = some ⟨fill_tail [] s rest, s.length + 1, s.length + 1, (seg_starts 0 [] s).length,
          (List.range' 0 (seg_starts 0 [] s).length).zip (seg_starts 0 [] s)⟩ := by
  unfold parse_ext_names
  rw [strlen_eq s rest h0, to_int_small _ hlen]
  have := fill_pass rest s.length s [] [] 0 [] (s.length + 2) (s ++ 0 :: rest) 0 0
    (by simp) rfl rfl (by simp) le_rfl h0
  rw [this, Nat.zero_add, List.nil_append, List.nil_append]

/-- C30: for a buffer holding the string `s` (no NUL in it, length at most
`INT_MAX`) and its terminator, `parse_ext_names(names, NULL)` returns the
number of non-empty comma-separated segments of `s` and leaves the buffer as
it is; a following `parse_ext_names(names, result)` on that buffer returns
the same count, stores to `result[0]`, ..., `result[count - 1]` in this
order and nowhere else, and the strings at the stored pointers are exactly
those segments in order.  An empty or all-comma string gives 0. -/
theorem C30_filling_pass_matches_counting_pass (s rest : List Nat) (h0 : 0 ∉ s)
    (hlen : s.length ≤ INT_MAX) :
    ∃ a b : Scan,
      parse_ext_names (s ++ 0 :: rest) false = some a
      ∧ a.buf = s ++ 0 :: rest ∧ a.stores = []
      ∧ a.cnt = (segments s).length
      ∧ parse_ext_names a.buf true = some b
      ∧ b.cnt = a.cnt
      ∧ b.stores.map Prod.fst = List.range a.cnt
      ∧ b.stores.map (fun w => string_at b.buf w.2) = segments s
      ∧ ((∀ c ∈ s, c = ','.toNat) → a.cnt = 0) := by
  refine ⟨_, _, parse_count_eq s rest h0 hlen, rfl, rfl, seg_starts_length s rest h0,
    parse_fill_eq s rest h0 hlen, rfl, ?_, ?_, ?_⟩
  · show ((List.range' 0 (seg_starts 0 [] s).length).zip (seg_starts 0 [] s)).map Prod.fst
      = List.range (seg_starts 0 [] s).length
    rw [List.map_fst_zip _ _ (by simp), List.range_eq_range']
  · show ((List.range' 0 (seg_starts 0 [] s).length).zip (seg_starts 0 [] s)).map
        (fun w => string_at (fill_tail [] s rest) w.2) = segments s
    have h1 : ((List.range' 0 (seg_starts 0 [] s).length).zip (seg_starts 0 [] s)).map
        (fun w => string_at (fill_tail [] s rest) w.2)
        = (((List.range' 0 (seg_starts 0 [] s).length).zip (seg_starts 0 [] s)).map
            Prod.snd).map (string_at (fill_tail [] s rest)) := by
      rw [List.map_map]; rfl
    rw [h1, List.map_snd_zip _ _ (by simp)]
    have := starts_strings rest s [] [] (by simp) (by simp) h0
    simpa using this
  · intro hall
    show (seg_starts 0 [] s).length = 0
    rw [seg_starts_length s rest h0, segments_all_commas s hall]
    rfl

/-- Instance of C30: for the string `ab,,c,` both passes return 2. -/
theorem C30_filling_pass_matches_counting_pass_witness :
    Option.map Scan.cnt (parse_ext_names (bytes "ab,,c," ++ [0]) false) = some 2
    ∧ Option.map Scan.cnt (parse_ext_names (bytes "ab,,c," ++ [0]) true) = some 2 := by
  obtain ⟨a, b, h1, h2, -, h4, h5, h6, -, -, -⟩ :=
    C30_filling_pass_matches_counting_pass (bytes "ab,,c,") [] (by decide) (by decide)
  have hn : (segments (bytes "ab,,c,")).length = 2 := by decide
  rw [h2] at h5
  rw [h1, h5, Option.map_some', Option.map_some', h6, h4, hn]
  exact ⟨rfl, rfl⟩

end X509App

namespace Asn1Test

/-! ### The return value of `ASN1_BIT_STRING_set1` -/

/-- C23: `ASN1_BIT_STRING_set1` returns 1 exactly when `length <= INT_MAX`,
`0 <= unused_bits <= 7`, `unused_bits = 0` if `length = 0`, and the low
`unused_bits` bits of the last data byte are zero, and 0 in every other case;
with this behaviour every row of `abs_set1_tests` gets the return value the
table expects, among them `unused_bits = -1` and `8`, the empty string with
one unused bit and the data `0x81` with seven unused bits, which return 0. -/
theorem C23_set1_accepts_exactly_the_valid_rows :
    (∀ (data : List Nat) (length : Nat) (unused_bits : Int),
      (ASN1_BIT_STRING_set1 data length unused_bits = 1 ↔
        (length ≤ INT_MAX ∧ 0 ≤ unused_bits ∧ unused_bits ≤ 7
          ∧ (length = 0 → unused_bits = 0)
          ∧ (length ≠ 0 → byte_at data (length - 1) % 2 ^ unused_bits.toNat = 0)))
      ∧ (ASN1_BIT_STRING_set1 data length unused_bits = 1
          ∨ ASN1_BIT_STRING_set1 data length unused_bits = 0))
    ∧ (∀ t ∈ abs_set1_tests, ASN1_BIT_STRING_set1 t.data t.length t.unused_bits = t.valid)
    ∧ (∀ i2d, ∀ t ∈ abs_set1_tests, t.valid = 0 → abs_set1_test_row i2d t = true)
    ∧ ASN1_BIT_STRING_set1 [0] 0 (-1) = 0
    ∧ ASN1_BIT_STRING_set1 [0] 0 8 = 0
    ∧ ASN1_BIT_STRING_set1 [0x00] 0 1 = 0
    ∧ ASN1_BIT_STRING_set1 [0x81] 1 7 = 0
    ∧ ASN1_BIT_STRING_set1 [0] (INT_MAX + 1) 0 = 0 := by
  have hrows : ∀ t ∈ abs_set1_tests,
      ASN1_BIT_STRING_set1 t.data t.length t.unused_bits = t.valid := by decide
  refine ⟨?_, hrows, ?_, by decide, by decide, by decide, by decide, by decide⟩
  · intro data length unused_bits
    unfold ASN1_BIT_STRING_set1
    constructor
    · constructor
      · intro h
        by_contra hc
        rw [if_neg hc] at h
        exact absurd h (by decide)
      · intro h
        rw [if_pos h]
    · split
      · exact Or.inl rfl
      · exact Or.inr rfl
  · intro i2d t ht hv
    unfold abs_set1_test_row
    rw [if_neg (by rw [hrows t ht]; exact fun h => h rfl), if_pos hv]

/-- Instance of C23: the row for `10.5.0/23`, three bytes with one unused
bit that is zero, is accepted. -/
theorem C23_set1_accepts_exactly_the_valid_rows_witness :
    ASN1_BIT_STRING_set1 [0x0a, 0x05, 0x00] 3 1 = 1 :=
  ((C23_set1_accepts_exactly_the_valid_rows.1 [0x0a, 0x05, 0x00] 3 1).1).mpr (by decide)

end Asn1Test
